import Mathlib

/-!
# changelog-linux-pkg

A shallow embedding of `changelog-linux-pkg/main.go`: the changelog document,
the `LocalTime` comparator, the sort step of `readLog`, the Debian and RPM
renderers and the command dispatcher `mainInner`, followed by theorems about
them.

Library routines the program calls (`time.Time` comparison and formatting,
`fmt.Printf`, `strings.Join`, `slices.SortFunc`, the YAML struct decoder) are
embedded as far as the program uses them.
-/

namespace Changelog

/-! ## Data model -/

/-- Dynamic value stored in a Go `any` by the YAML decoder. The renderers only
distinguish `string` and `int` from everything else. -/
inductive Any where
  | string (v : String)
  | int (v : Int)
  | int64 (v : Int)
  | uint64 (v : Nat)
  | float64 (bits : Nat)
  | bool (v : Bool)
  | null
  | slice (v : List Any)
  | map (v : List (String × Any))

/-- An instant together with the zone offset it is displayed in: `sec` and `nsec`
are the seconds since 1970-01-01T00:00:00Z and the nanoseconds within that second,
`offset` is the number of seconds east of UTC of the time's location at that
instant. -/
structure Time where
  sec : Int
  nsec : Nat
  offset : Int
deriving DecidableEq, Repr, Inhabited

/-- Go `Time.Equal`: same instant, whatever the location. -/
def Time.Equal (t u : Time) : Bool :=
  decide (t.sec = u.sec) && decide (t.nsec = u.nsec)

/-- Go `Time.Before`. -/
def Time.Before (t u : Time) : Bool :=
  decide (t.sec < u.sec) || (decide (t.sec = u.sec) && decide (t.nsec < u.nsec))

/-- Go `Time.After`. -/
def Time.After (t u : Time) : Bool :=
  decide (t.sec > u.sec) || (decide (t.sec = u.sec) && decide (t.nsec > u.nsec))

/-- `LocalTime` wraps `time.Time` to parse the custom date format. -/
structure LocalTime where
  Time : Time
deriving DecidableEq, Repr, Inhabited

/-- The zero value of `time.Time`: January 1 of the year 1, 00:00:00 UTC. -/
def zeroTime : Time := ⟨-62135596800, 0, 0⟩

structure Change where
  Desc : String
  Closes : List Any

structure Entry where
  Version : String
  Urgency : String
  Stable : Bool
  Date : LocalTime
  Changes : List Change

structure Config where
  Project : String
  Maintainer : String
  Changelog : List Entry

/-- The zero value of `Entry`. -/
instance : Inhabited Entry := ⟨⟨"", "", false, ⟨zeroTime⟩, []⟩⟩

/-- `func (l LocalTime) Cmp(j LocalTime) int`. -/
def LocalTime.Cmp (l j : LocalTime) : Int :=
  if l.Time.Equal j.Time then 0
  else if l.Time.Before j.Time then 1
  else -1

/-- `func stable(stable bool) string`. -/
def stable (stable : Bool) : String :=
  if stable then "stable" else "unstable"

/-! ## Formatting of integers and dates (`fmt`, `time.Format`) -/

/-- Decimal digits of a natural number, as `%d` prints them. -/
def decimal (n : Nat) : String := toString n

/-- `fmt.Sprintf("%d", v)` for an `int`. -/
def sprintd (v : Int) : String :=
  if v < 0 then "-" ++ decimal v.natAbs else decimal v.natAbs

/-- `time.appendInt`: the decimal of `x`, zero-padded to at least `width` digits,
with a leading minus sign for a negative number. -/
def appendInt (x : Int) (width : Nat) : String :=
  let digits := decimal x.natAbs
  let pad := String.mk (List.replicate (width - digits.length) '0')
  (if x < 0 then "-" else "") ++ pad ++ digits

/-- Seconds since the epoch shifted by the zone offset: the wall clock reading. -/
def Time.wall (t : Time) : Int := t.sec + t.offset

/-- Days since 1970-01-01 of the wall clock reading. -/
def Time.days (t : Time) : Int := t.wall / 86400

/-- Seconds since midnight of the wall clock reading. -/
def Time.secOfDay (t : Time) : Int := t.wall % 86400

/-- Proleptic Gregorian date (year, month 1..12, day 1..31) of a day number
counted from 1970-01-01. -/
def civilFromDays (d : Int) : Int × Int × Int :=
  let z := d + 719468
  let era := z / 146097
  let doe := z % 146097
  let yoe := (doe - doe / 1460 + doe / 36524 - doe / 146096) / 365
  let y := yoe + era * 400
  let doy := doe - (365 * yoe + yoe / 4 - yoe / 100)
  let mp := (5 * doy + 2) / 153
  let day := doy - (153 * mp + 2) / 5 + 1
  let month := if mp < 10 then mp + 3 else mp - 9
  (if month ≤ 2 then y + 1 else y, month, day)

def Time.Year (t : Time) : Int := (civilFromDays t.days).1
def Time.Month (t : Time) : Int := (civilFromDays t.days).2.1
def Time.Day (t : Time) : Int := (civilFromDays t.days).2.2
def Time.Hour (t : Time) : Int := t.secOfDay / 3600
def Time.Minute (t : Time) : Int := t.secOfDay % 3600 / 60
def Time.Second (t : Time) : Int := t.secOfDay % 60

/-- Go `Time.Weekday`, Sunday = 0; 1970-01-01 was a Thursday. -/
def Time.Weekday (t : Time) : Int := (t.days + 4) % 7

/-- Three-letter weekday name (layout element `Mon`). -/
def shortDayName (wd : Int) : String :=
  ["Sun", "Mon", "Tue", "Wed", "Thu", "Fri", "Sat"].getD wd.toNat ""

/-- Three-letter month name (layout element `Jan`). -/
def shortMonthName (m : Int) : String :=
  ["Jan", "Feb", "Mar", "Apr", "May", "Jun",
   "Jul", "Aug", "Sep", "Oct", "Nov", "Dec"].getD (m - 1).toNat ""

/-- Layout element `-0700`: sign, hours and minutes of the zone offset. -/
def formatNumTZ (offset : Int) : String :=
  let zone := Int.tdiv offset 60
  if zone < 0 then
    "-" ++ appendInt (Int.tdiv (-zone) 60) 2 ++ appendInt (Int.tmod (-zone) 60) 2
  else
    "+" ++ appendInt (Int.tdiv zone 60) 2 ++ appendInt (Int.tmod zone 60) 2

/-- `t.Format(time.RFC1123Z)`, layout `Mon, 02 Jan 2006 15:04:05 -0700`. -/
def Time.FormatRFC1123Z (t : Time) : String :=
  shortDayName t.Weekday ++ ", " ++ appendInt t.Day 2 ++ " " ++
  shortMonthName t.Month ++ " " ++ appendInt t.Year 4 ++ " " ++
  appendInt t.Hour 2 ++ ":" ++ appendInt t.Minute 2 ++ ":" ++ appendInt t.Second 2 ++
  " " ++ formatNumTZ t.offset

/-- `t.Format("Mon Jan 2 2006")`. -/
def Time.FormatRpm (t : Time) : String :=
  shortDayName t.Weekday ++ " " ++ shortMonthName t.Month ++ " " ++
  appendInt t.Day 0 ++ " " ++ appendInt t.Year 4

/-! ## The renderers -/

/-- The loop `for _, c := range change.Closes` of `doDebChangelog`: a string is
appended as it is, an int as `#%d`, anything else is skipped. -/
def closesTokens (cl : List Any) : List String :=
  cl.foldl
    (fun closes c =>
      match c with
      | Any.string v => closes ++ [v]
      | Any.int v => closes ++ ["#" ++ sprintd v]
      | _ => closes)
    []

/-- The `closesStr` of `doDebChangelog`: `strings.Join(closes, ", ")`. -/
def closesStr (cl : List Any) : String :=
  ", ".intercalate (closesTokens cl)

/-- Text printed by the body of `for _, change := range entry.Changes` in
`doDebChangelog`. -/
def debChange (out : String) (change : Change) : String :=
  let out := out ++ ("  * " ++ change.Desc ++ "\n")
  if change.Closes.length > 0 then
    out ++ ("  Closes: " ++ closesStr change.Closes ++ "\n")
  else out

/-- Text printed by the body of `for _, entry := range cfg.Changelog` in
`doDebChangelog`. -/
def debEntry (cfg : Config) (out : String) (entry : Entry) : String :=
  let out := out ++ (cfg.Project ++ " (" ++ entry.Version ++ ") " ++ stable entry.Stable ++
    "; urgency=" ++ entry.Urgency ++ "\n\n")
  let out := entry.Changes.foldl debChange out
  out ++ ("\n -- " ++ cfg.Maintainer ++ "  " ++ entry.Date.Time.FormatRFC1123Z ++ "\n\n")

/-- `func doDebChangelog(cfg *Config) error`: the text written to standard output
and the returned error (always nil). -/
def doDebChangelog (cfg : Config) : String × Option String :=
  (cfg.Changelog.foldl (debEntry cfg) "", none)

/-- The loop `for _, c := range change.Closes` of `doRpmChangelog`, the second copy
of the loop in the source. -/
def rpmClosesTokens (cl : List Any) : List String :=
  cl.foldl
    (fun closes c =>
      match c with
      | Any.string v => closes ++ [v]
      | Any.int v => closes ++ ["#" ++ sprintd v]
      | _ => closes)
    []

/-- The `closesStr` of `doRpmChangelog`: `strings.Join(closes, ", ")`. -/
def rpmClosesStr (cl : List Any) : String :=
  ", ".intercalate (rpmClosesTokens cl)

/-- Text printed by the body of `for _, change := range entry.Changes` in
`doRpmChangelog`. -/
def rpmChange (out : String) (change : Change) : String :=
  let out := out ++ ("- " ++ change.Desc)
  let out :=
    if change.Closes.length > 0 then
      out ++ ("  (Closes: " ++ rpmClosesStr change.Closes ++ ")")
    else out
  out ++ "\n"

/-- Text printed by the body of `for _, entry := range cfg.Changelog` in
`doRpmChangelog`. -/
def rpmEntry (cfg : Config) (out : String) (entry : Entry) : String :=
  let out := out ++ ("* " ++ entry.Date.Time.FormatRpm ++ " " ++ cfg.Maintainer ++ " - " ++
    entry.Version ++ "\n")
  let out := entry.Changes.foldl rpmChange out
  out ++ "\n"

/-- `func doRpmChangelog(cfg *Config) error`: the text written to standard output
and the returned error (always nil). -/
def doRpmChangelog (cfg : Config) : String × Option String :=
  (cfg.Changelog.foldl (rpmEntry cfg) "", none)

/-! ## `slices.SortFunc` (pattern-defeating quicksort, `zsortanyfunc.go`)

The slice is a list; `elem data i` is `data[i]` and `swap data i j` is
`data[i], data[j] = data[j], data[i]`. The routines are called with
`0 ≤ a ≤ b ≤ len(data)` and keep every index they use inside `[0, len(data))`.
Loops are recursions on a counter that is at least the number of iterations the
loop can make; only `pdqsortCmpFunc` can use its counter up, and then says so. -/

section Pdqsort

variable {α : Type} [Inhabited α]

/-- The element `data[i]`. -/
def elem (data : List α) (i : Nat) : α := data.getD i default

/-- The assignment `data[i], data[j] = data[j], data[i]`. -/
def swap (data : List α) (i j : Nat) : List α :=
  (data.set i (elem data j)).set j (elem data i)

/-- The test `cmp(data[i], data[j]) < 0`. -/
def less (cmp : α → α → Int) (data : List α) (i j : Nat) : Bool :=
  decide (cmp (elem data i) (elem data j) < 0)

/-- Inner loop of insertion sort:
`for j := i; j > a && cmp(data[j], data[j-1]) < 0; j-- { swap(j, j-1) }`. -/
def insertDown (cmp : α → α → Int) (a : Nat) : Nat → List α → List α
  | 0, data => data
  | j + 1, data =>
    if j + 1 > a ∧ less cmp data (j + 1) j then insertDown cmp a j (swap data (j + 1) j)
    else data

/-- Outer loop of insertion sort, `for i := a + 1; i < b; i++`, from the current `i`. -/
def insertionLoop (cmp : α → α → Int) (a b : Nat) : Nat → Nat → List α → List α
  | 0, _, data => data
  | n + 1, i, data =>
    if i < b then insertionLoop cmp a b n (i + 1) (insertDown cmp a i data) else data

/-- `insertionSortCmpFunc` sorts `data[a:b]` using insertion sort. -/
def insertionSortCmpFunc (cmp : α → α → Int) (data : List α) (a b : Nat) : List α :=
  insertionLoop cmp a b (b - (a + 1)) (a + 1) data

/-- The loop of `siftDownCmpFunc`, from the current `root`. -/
def siftDownLoop (cmp : α → α → Int) (hi first : Nat) : Nat → Nat → List α → List α
  | 0, _, data => data
  | n + 1, root, data =>
    let child := 2 * root + 1
    if child ≥ hi then data
    else
      let child :=
        if child + 1 < hi ∧ less cmp data (first + child) (first + child + 1) then child + 1
        else child
      if ¬ less cmp data (first + root) (first + child) then data
      else siftDownLoop cmp hi first n child (swap data (first + root) (first + child))

/-- `siftDownCmpFunc` implements the heap property on `data[lo:hi]`; `first` is an
offset into the slice where the root of the heap lies. -/
def siftDownCmpFunc (cmp : α → α → Int) (data : List α) (lo hi first : Nat) : List α :=
  siftDownLoop cmp hi first hi lo data

/-- First loop of heap sort, `for i := (hi - 1) / 2; i >= 0; i--`, from the current `i`. -/
def heapBuild (cmp : α → α → Int) (hi first : Nat) : Nat → List α → List α
  | 0, data => siftDownCmpFunc cmp data 0 hi first
  | i + 1, data => heapBuild cmp hi first i (siftDownCmpFunc cmp data (i + 1) hi first)

/-- Second loop of heap sort, `for i := hi - 1; i >= 0; i--`; the counter is `i + 1`. -/
def heapPop (cmp : α → α → Int) (first : Nat) : Nat → List α → List α
  | 0, data => data
  | i + 1, data =>
    heapPop cmp first i (siftDownCmpFunc cmp (swap data first (first + i)) 0 i first)

/-- `heapSortCmpFunc`. -/
def heapSortCmpFunc (cmp : α → α → Int) (data : List α) (a b : Nat) : List α :=
  let first := a
  let hi := b - a
  heapPop cmp first hi (heapBuild cmp hi first ((hi - 1) / 2) data)

/-- The loop `for i <= j && p(i) { i++ }`; returns the final `i`. -/
def scanUp (p : Nat → Bool) (j : Nat) : Nat → Nat → Nat
  | 0, i => i
  | n + 1, i => if i ≤ j ∧ p i then scanUp p j n (i + 1) else i

/-- The loop `for i <= j && p(j) { j-- }`; returns the final `j`. It is used with
`i ≥ 1` only, so `j` does not step below zero. -/
def scanDown (p : Nat → Bool) (i : Nat) : Nat → Nat → Nat
  | 0, j => j
  | n + 1, j => if i ≤ j ∧ p j then scanDown p i n (j - 1) else j

/-- The main loop of `partitionCmpFunc`, from the current `i` and `j`; returns the
slice and the final `j`. -/
def partitionLoop (cmp : α → α → Int) (a : Nat) : Nat → Nat → Nat → List α → List α × Nat
  | 0, _, j, data => (data, j)
  | n + 1, i, j, data =>
    let i := scanUp (fun k => less cmp data k a) j (j + 1 - i) i
    let j := scanDown (fun k => !less cmp data k a) i (j + 1 - i) j
    if i > j then (data, j)
    else partitionLoop cmp a n (i + 1) (j - 1) (swap data i j)

/-- `partitionCmpFunc` does one quicksort partition: with `p = data[pivot]`, the
elements are rearranged so that `data[a:newpivot] < p` and `data[newpivot+1:b] >= p`.
Returns the slice, `newpivot` and `alreadyPartitioned`. -/
def partitionCmpFunc (cmp : α → α → Int) (data : List α) (a b pivot : Nat) :
    List α × Nat × Bool :=
  let data := swap data a pivot
  let i := a + 1
  let j := b - 1
  let i := scanUp (fun k => less cmp data k a) j (j + 1 - i) i
  let j := scanDown (fun k => !less cmp data k a) i (j + 1 - i) j
  if i > j then (swap data j a, j, true)
  else
    let data := swap data i j
    let r := partitionLoop cmp a (j + 1 - i) (i + 1) (j - 1) data
    (swap r.1 r.2 a, r.2, false)

/-- The loop of `partitionEqualCmpFunc`, from the current `i` and `j`; returns the
slice and the final `i`. -/
def partitionEqualLoop (cmp : α → α → Int) (a : Nat) :
    Nat → Nat → Nat → List α → List α × Nat
  | 0, i, _, data => (data, i)
  | n + 1, i, j, data =>
    let i := scanUp (fun k => !less cmp data a k) j (j + 1 - i) i
    let j := scanDown (fun k => less cmp data a k) i (j + 1 - i) j
    if i > j then (data, i)
    else partitionEqualLoop cmp a n (i + 1) (j - 1) (swap data i j)

/-- `partitionEqualCmpFunc` partitions `data[a:b]` into elements equal to
`data[pivot]` followed by elements greater than it. -/
def partitionEqualCmpFunc (cmp : α → α → Int) (data : List α) (a b pivot : Nat) :
    List α × Nat :=
  let data := swap data a pivot
  partitionEqualLoop cmp a (b - a) (a + 1) (b - 1) data

/-- The loop `for j := i + 1; j < b; j++ { if !less(j, j-1) { break }; swap(j, j-1) }`,
from the current `j`. -/
def shiftUp (cmp : α → α → Int) (b : Nat) : Nat → Nat → List α → List α
  | 0, _, data => data
  | n + 1, j, data =>
    if j < b then
      if ¬ less cmp data j (j - 1) then data
      else shiftUp cmp b n (j + 1) (swap data j (j - 1))
    else data

/-- The loop `for j := 0; j < maxSteps; j++` of `partialInsertionSortCmpFunc`; the
counter is the number of steps left. -/
def partialInsertionLoop (cmp : α → α → Int) (a b : Nat) :
    Nat → Nat → List α → List α × Bool
  | 0, _, data => (data, false)
  | steps + 1, i, data =>
    let i := scanUp (fun k => !less cmp data k (k - 1)) (b - 1) (b - i) i
    if i = b then (data, true)
    else if b - a < 50 then (data, false)
    else
      let data := swap data i (i - 1)
      let data := if i - a ≥ 2 then insertDown cmp 0 (i - 1) data else data
      let data := if b - i ≥ 2 then shiftUp cmp b (b - (i + 1)) (i + 1) data else data
      partialInsertionLoop cmp a b steps i data

/-- `partialInsertionSortCmpFunc` partially sorts a slice, returns true if the slice
is sorted at the end. -/
def partialInsertionSortCmpFunc (cmp : α → α → Int) (data : List α) (a b : Nat) :
    List α × Bool :=
  partialInsertionLoop cmp a b 5 (a + 1) data

/-- `bits.Len`: the minimum number of bits required to represent `x`. -/
def bitsLenAux : Nat → Nat → Nat
  | 0, _ => 0
  | n + 1, x => if x = 0 then 0 else bitsLenAux n (x / 2) + 1

def bitsLen (x : Nat) : Nat := bitsLenAux x x

/-- `xorshift.Next` on a 64-bit state (shifts 13, 7, 17). -/
def xorshiftNext (r : Nat) : Nat :=
  let r := r ^^^ ((r <<< 13) % 2 ^ 64)
  let r := r ^^^ (r >>> 7)
  r ^^^ ((r <<< 17) % 2 ^ 64)

def nextPowerOfTwo (length : Nat) : Nat := 2 ^ bitsLen length

/-- The loop `for i := 0; i < 3; i++` of `breakPatternsCmpFunc`, whose body ends with
`data[idx-1+i], data[a+other] = data[a+other], data[idx-1+i]`; the counter is the
number of rounds left. -/
def breakPatternsLoop (a length modulus idx : Nat) :
    Nat → Nat → Nat → List α → List α
  | 0, _, _, data => data
  | n + 1, i, random, data =>
    let random := xorshiftNext random
    let other := random &&& (modulus - 1)
    let other := if other ≥ length then other - length else other
    breakPatternsLoop a length modulus idx n (i + 1) random
      (swap data (idx - 1 + i) (a + other))

/-- `breakPatternsCmpFunc` scatters some elements around in an attempt to break
patterns that might cause imbalanced partitions in quicksort. -/
def breakPatternsCmpFunc (data : List α) (a b : Nat) : List α :=
  let length := b - a
  if length ≥ 8 then
    breakPatternsLoop a length (nextPowerOfTwo length) (a + (length / 4) * 2 - 1) 3 0 length data
  else data

inductive sortedHint where
  | unknownHint
  | increasingHint
  | decreasingHint
deriving DecidableEq, Repr

/-- `order2CmpFunc` returns `x, y` where `data[x] <= data[y]`, and the updated swap
count. -/
def order2CmpFunc (cmp : α → α → Int) (data : List α) (a b swaps : Nat) : Nat × Nat × Nat :=
  if less cmp data b a then (b, a, swaps + 1) else (a, b, swaps)

/-- `medianCmpFunc` returns `x` where `data[x]` is the median of `data[a]`, `data[b]`,
`data[c]`, and the updated swap count. -/
def medianCmpFunc (cmp : α → α → Int) (data : List α) (a b c swaps : Nat) : Nat × Nat :=
  let r := order2CmpFunc cmp data a b swaps
  let a := r.1
  let b := r.2.1
  let r := order2CmpFunc cmp data b c r.2.2
  let b := r.1
  let r := order2CmpFunc cmp data a b r.2.2
  (r.2.1, r.2.2)

/-- `medianAdjacentCmpFunc` finds the median of `data[a-1]`, `data[a]`, `data[a+1]`. -/
def medianAdjacentCmpFunc (cmp : α → α → Int) (data : List α) (a swaps : Nat) : Nat × Nat :=
  medianCmpFunc cmp data (a - 1) a (a + 1) swaps

/-- `choosePivotCmpFunc` chooses a pivot in `data[a:b]`. -/
def choosePivotCmpFunc (cmp : α → α → Int) (data : List α) (a b : Nat) : Nat × sortedHint :=
  let l := b - a
  let i := a + l / 4 * 1
  let j := a + l / 4 * 2
  let k := a + l / 4 * 3
  let r : Nat × Nat :=
    if l ≥ 8 then
      if l ≥ 50 then
        let ri := medianAdjacentCmpFunc cmp data i 0
        let rj := medianAdjacentCmpFunc cmp data j ri.2
        let rk := medianAdjacentCmpFunc cmp data k rj.2
        medianCmpFunc cmp data ri.1 rj.1 rk.1 rk.2
      else medianCmpFunc cmp data i j k 0
    else (j, 0)
  if r.2 = 0 then (r.1, sortedHint.increasingHint)
  else if r.2 = 4 * 3 then (r.1, sortedHint.decreasingHint)
  else (r.1, sortedHint.unknownHint)

/-- The loop of `reverseRangeCmpFunc`, from the current `i` and `j`. -/
def reverseLoop : Nat → Nat → Nat → List α → List α
  | 0, _, _, data => data
  | n + 1, i, j, data => if i < j then reverseLoop n (i + 1) (j - 1) (swap data i j) else data

def reverseRangeCmpFunc (data : List α) (a b : Nat) : List α :=
  reverseLoop (b - a) a (b - 1) data

/-- `pdqsortCmpFunc` sorts `data[a:b]`; `limit` is the number of allowed bad pivots
before falling back to heapsort. One unfolding is one iteration of the Go loop: the
recursive call of the Go code starts a loop with both flags true, the next iteration
carries the flags over. The first argument bounds the number of unfoldings; the
result is `none` when it is used up. -/
def pdqsortCmpFunc (cmp : α → α → Int) :
    Nat → List α → Nat → Nat → Nat → Bool → Bool → Option (List α)
  | 0, _, _, _, _, _, _ => none
  | n + 1, data, a, b, limit, wasBalanced, wasPartitioned =>
    let length := b - a
    if length ≤ 12 then some (insertionSortCmpFunc cmp data a b)
    else if limit = 0 then some (heapSortCmpFunc cmp data a b)
    else
      let data := if !wasBalanced then breakPatternsCmpFunc data a b else data
      let limit := if !wasBalanced then limit - 1 else limit
      let ph := choosePivotCmpFunc cmp data a b
      let data :=
        if ph.2 = sortedHint.decreasingHint then reverseRangeCmpFunc data a b else data
      let pivot := if ph.2 = sortedHint.decreasingHint then (b - 1) - (ph.1 - a) else ph.1
      let hint :=
        if ph.2 = sortedHint.decreasingHint then sortedHint.increasingHint else ph.2
      let likelySorted := wasBalanced && wasPartitioned && hint = sortedHint.increasingHint
      let pi := if likelySorted then partialInsertionSortCmpFunc cmp data a b else (data, false)
      if pi.2 then some pi.1
      else
        let data := pi.1
        if a > 0 ∧ ¬ less cmp data (a - 1) pivot then
          let r := partitionEqualCmpFunc cmp data a b pivot
          pdqsortCmpFunc cmp n r.1 r.2 b limit wasBalanced wasPartitioned
        else
          let r := partitionCmpFunc cmp data a b pivot
          let data := r.1
          let mid := r.2.1
          let wasPartitioned := r.2.2
          let leftLen := mid - a
          let rightLen := b - mid
          let balanceThreshold := length / 8
          if leftLen < rightLen then
            match pdqsortCmpFunc cmp n data a mid limit true true with
            | none => none
            | some data =>
              pdqsortCmpFunc cmp n data (mid + 1) b limit
                (decide (leftLen ≥ balanceThreshold)) wasPartitioned
          else
            match pdqsortCmpFunc cmp n data (mid + 1) b limit true true with
            | none => none
            | some data =>
              pdqsortCmpFunc cmp n data a mid limit
                (decide (rightLen ≥ balanceThreshold)) wasPartitioned

/-- `slices.SortFunc(x, cmp)`: the slice after the call. The counter given to
`pdqsortCmpFunc` is never used up (`pdqsortCmpFunc_isSome`). -/
def SortFunc (x : List α) (cmp : α → α → Int) : List α :=
  let n := x.length
  (pdqsortCmpFunc cmp (n + 1) x 0 n (bitsLen n) true true).getD x

end Pdqsort

/-! ## Loading: `time.Parse`, the YAML struct decoder, `readLog` -/

/-- Day number, counted from 1970-01-01, of a proleptic Gregorian date. -/
def daysFromCivil (y m d : Int) : Int :=
  let y := if m ≤ 2 then y - 1 else y
  let era := y / 400
  let yoe := y % 400
  let doy := (153 * (if m > 2 then m - 3 else m + 9) + 2) / 5 + d - 1
  let doe := yoe * 365 + yoe / 4 - yoe / 100 + doy
  era * 146097 + doe - 719468

def isLeap (year : Nat) : Bool :=
  year % 4 = 0 ∧ (year % 100 ≠ 0 ∨ year % 400 = 0)

/-- Number of days of a month (`time.daysIn`). -/
def daysIn (month year : Nat) : Nat :=
  if month = 2 then (if isLeap year then 29 else 28)
  else if month = 4 ∨ month = 6 ∨ month = 9 ∨ month = 11 then 30
  else 31

def digitVal (c : Char) : Nat := c.toNat - 48

/-- `time.getnum`: a one- or two-digit number at the start of `s`; with `fixed`, two
digits are required. -/
def getnum (s : List Char) (fixed : Bool) : Option (Nat × List Char) :=
  match s with
  | [] => none
  | c0 :: rest =>
    if ¬ c0.isDigit then none
    else
      match rest with
      | [] => if fixed then none else some (digitVal c0, [])
      | c1 :: rest2 =>
        if c1.isDigit then some (digitVal c0 * 10 + digitVal c1, rest2)
        else if fixed then none
        else some (digitVal c0, rest)

/-- `time.skip` for a one-character layout prefix: a space of the layout matches any
run of spaces of the value, any other character matches itself. -/
def skip (value : List Char) (want : Char) : Option (List Char) :=
  if want = ' ' then
    match value with
    | [] => some []
    | c :: _ => if c ≠ ' ' then none else some (value.dropWhile (fun x => x = ' '))
  else
    match value with
    | [] => none
    | c :: rest => if c = want then some rest else none

/-- Value of a string of decimal digits. -/
def digitsVal (ds : List Char) : Nat :=
  ds.foldl (fun acc c => acc * 10 + digitVal c) 0

/-- Layout element `2006`: exactly four digits. -/
def parseYear (value : List Char) : Option (Nat × List Char) :=
  let p := value.take 4
  if p.length = 4 ∧ p.all Char.isDigit then some (digitsVal p, value.drop 4) else none

/-- The fractional second `time.Parse` accepts after the seconds field although the
layout has none: a period or comma followed by digits, of which nine count. -/
def parseFraction (value : List Char) : Nat × List Char :=
  match value with
  | c :: d :: _ =>
    if (c = '.' ∨ c = ',') ∧ d.isDigit then
      let ds := value.tail.takeWhile Char.isDigit
      let used := ds.take 9
      (digitsVal used * 10 ^ (9 - used.length), value.tail.dropWhile Char.isDigit)
    else (0, value)
  | _ => (0, value)

/-- Layout element `-0700`: sign and four digits; the offset in seconds and the rest
of the value. A failure is the name of the field that is out of range, or the empty
string when the text does not have the form of the element. The element is cut by
bytes, so after a first character of more than one byte no digit is in its place. -/
def parseNumTZ (value : List Char) : Except String (Int × List Char) :=
  match value with
  | sign :: h0 :: h1 :: m0 :: m1 :: rest =>
    if sign.toNat ≥ 128 then Except.error "" else
    let hr := getnum [h0, h1] true
    let mm := hr.bind fun _ => getnum [m0, m1] true
    let hrv := (hr.map Prod.fst).getD 0
    let mmv := (mm.map Prod.fst).getD 0
    if mmv > 60 then Except.error "time zone offset minute"
    else if hrv > 24 then Except.error "time zone offset hour"
    else if mm.isNone then Except.error ""
    else
      let zoneOffset : Int := ((hrv * 60 + mmv) * 60 : Nat)
      if sign = '+' then Except.ok (zoneOffset, rest)
      else if sign = '-' then Except.ok (-zoneOffset, rest)
      else Except.error ""
  | _ => Except.error ""

/-- The requirement that a parsed field is in range. -/
def inRange (ok : Bool) : Option Unit := if ok then some () else none

/-- The bytes of the UTF-8 encoding of a code point. -/
def utf8Bytes (c : Nat) : List Nat :=
  if c < 128 then [c]
  else if c < 2048 then [192 + c / 64, 128 + c % 64]
  else if c < 65536 then [224 + c / 4096, 128 + c / 64 % 64, 128 + c % 64]
  else [240 + c / 262144, 128 + c / 4096 % 64, 128 + c / 64 % 64, 128 + c % 64]

/-- `time.quote`: the text in double quotes, with a backslash before a double quote
or a backslash, and with every byte of a control or non-ASCII character as `\x` and two
hexadecimal digits. -/
def quote (s : String) : String :=
  "\"" ++ String.join (s.toList.map fun c =>
    if c.toNat ≥ 128 ∨ c.toNat < 32 then
      String.join ((utf8Bytes c.toNat).map fun b =>
        "\\x" ++ String.mk [Nat.digitChar (b / 16), Nat.digitChar (b % 16)])
    else if c = '"' ∨ c = '\\' then String.mk ['\\', c]
    else String.mk [c]) ++ "\""

/-- The layout the program parses dates with. -/
def dateLayout : String := "2006-01-02 15:04:05 -0700"

/-- Text of the `time.ParseError` for a part of the value, `hold`, that does not have
the form of the layout element `layoutElem`. -/
def elemError (avalue layoutElem : String) (hold : List Char) : String :=
  "parsing time " ++ quote avalue ++ " as " ++ quote dateLayout ++ ": cannot parse " ++
    quote (String.mk hold) ++ " as " ++ quote layoutElem

/-- Text of the `time.ParseError` with a message of its own, as for a field out of
range. -/
def messageError (avalue message : String) : String :=
  "parsing time " ++ quote avalue ++ message

/-- The parsed field, or the error when there is none. -/
def need {α : Type} (field : Option α) (err : String) : Except String α :=
  match field with
  | some a => Except.ok a
  | none => Except.error err

/-- The parsed zone, or the error of `time.Parse` for the failure of `parseNumTZ`. -/
def needTZ (avalue : String) (hold : List Char) (zone : Except String (Int × List Char)) :
    Except String (Int × List Char) :=
  match zone with
  | Except.ok r => Except.ok r
  | Except.error what =>
    if what = "" then Except.error (elemError avalue "-0700" hold)
    else Except.error (messageError avalue (": " ++ what ++ " out of range"))

/-- `time.Parse("2006-01-02 15:04:05 -0700", value)`: the instant, displayed in the
zone written in the value, or the text of the error. -/
def time.Parse (avalue : String) : Except String Time :=
  let v0 := avalue.toList
  (need (parseYear v0) (elemError avalue "2006" v0)).bind fun yv =>
  (need (skip yv.2 '-') (elemError avalue "-" yv.2)).bind fun v1 =>
  (need (getnum v1 true) (elemError avalue "01" v1)).bind fun mv =>
  (need (inRange (decide (¬ (mv.1 = 0 ∨ 12 < mv.1))))
    (messageError avalue ": month out of range")).bind fun _ =>
  (need (skip mv.2 '-') (elemError avalue "-" mv.2)).bind fun v2 =>
  (need (getnum v2 true) (elemError avalue "02" v2)).bind fun dv =>
  (need (skip dv.2 ' ') (elemError avalue " " dv.2)).bind fun v3 =>
  (need (getnum v3 false) (elemError avalue "15" v3)).bind fun hv =>
  (need (inRange (decide (¬ 24 ≤ hv.1)))
    (messageError avalue ": hour out of range")).bind fun _ =>
  (need (skip hv.2 ':') (elemError avalue ":" hv.2)).bind fun v4 =>
  (need (getnum v4 true) (elemError avalue "04" v4)).bind fun nv =>
  (need (inRange (decide (¬ 60 ≤ nv.1)))
    (messageError avalue ": minute out of range")).bind fun _ =>
  (need (skip nv.2 ':') (elemError avalue ":" nv.2)).bind fun v5 =>
  (need (getnum v5 true) (elemError avalue "05" v5)).bind fun sv =>
  (need (inRange (decide (¬ 60 ≤ sv.1)))
    (messageError avalue ": second out of range")).bind fun _ =>
  let fv := parseFraction sv.2
  (need (skip fv.2 ' ') (elemError avalue " " fv.2)).bind fun v6 =>
  (needTZ avalue v6 (parseNumTZ v6)).bind fun zv =>
  (need (inRange (decide (zv.2 = [])))
    (messageError avalue (": extra text: " ++ quote (String.mk zv.2)))).bind fun _ =>
  (need (inRange (decide (¬ (dv.1 < 1 ∨ dv.1 > daysIn mv.1 yv.1))))
    (messageError avalue ": day out of range")).bind fun _ =>
  let unix : Int := daysFromCivil yv.1 mv.1 dv.1 * 86400 + hv.1 * 3600 + nv.1 * 60 + sv.1
  Except.ok ⟨unix - zv.1, fv.1, zv.1⟩

/-- The time `time.Parse` returns for the layout of the program, none when it returns
an error. -/
def timeParse (value : String) : Option Time :=
  match time.Parse value with
  | Except.ok parsed => some parsed
  | Except.error _ => none

/-- Go `Time.Local`: the same instant displayed in the zone of the process, whose
offset at each instant is `zone`. -/
def Time.Local (zone : Int → Int) (t : Time) : Time :=
  { t with offset := zone t.sec }

/-- A YAML node as the parser hands it to the decoder: a scalar with its text and the
Go value it resolves to, a sequence, or a mapping with the text of each key. -/
inductive Node where
  | scalar (value : String) (resolved : Any)
  | sequence (content : List Node)
  | mapping (content : List (String × Node))

/-- The node resolves to null. -/
def Node.isNull : Node → Bool
  | Node.scalar _ Any.null => true
  | _ => false

/-- The `Value` field of a node: the text of a scalar, empty otherwise. -/
def Node.Value : Node → String
  | Node.scalar value _ => value
  | _ => ""

/-- `func (lt *LocalTime) UnmarshalYAML(value *yaml.Node) error`: the new value of
the receiver, or the error of `time.Parse`. -/
def LocalTime.UnmarshalYAML (zone : Int → Int) (value : Node) : Except String LocalTime :=
  match time.Parse value.Value with
  | Except.error err => Except.error err
  | Except.ok parsed => Except.ok ⟨parsed.Local zone⟩

/-- State of the YAML decoder: the type errors collected so far, each in a short form
(the library also puts the line number and the tag of the node in the text). A
failing `UnmarshalYAML` aborts the decoding with its own error instead. -/
abbrev Decode (T : Type) := List String → Except String (T × List String)

/-- Decoding into a `string` field: any scalar gives its text, null leaves the field. -/
def decodeString (n : Node) (old : String) : Decode String := fun terrors =>
  match n with
  | Node.scalar _ Any.null => Except.ok (old, terrors)
  | Node.scalar value _ => Except.ok (value, terrors)
  | _ => Except.ok (old, terrors ++ ["cannot unmarshal into string"])

/-- Decoding into a `bool` field. -/
def decodeBool (n : Node) (old : Bool) : Decode Bool := fun terrors =>
  match n with
  | Node.scalar _ Any.null => Except.ok (old, terrors)
  | Node.scalar _ (Any.bool b) => Except.ok (b, terrors)
  | Node.scalar _ (Any.string s) =>
    if s ∈ ["y", "Y", "yes", "Yes", "YES", "on", "On", "ON"] then Except.ok (true, terrors)
    else if s ∈ ["n", "N", "no", "No", "NO", "off", "Off", "OFF"] then Except.ok (false, terrors)
    else Except.ok (old, terrors ++ ["cannot unmarshal into bool"])
  | _ => Except.ok (old, terrors ++ ["cannot unmarshal into bool"])

/-- The check of `decoder.mapping` that no key of a mapping is repeated: one type
error for each pair of equal keys (the library also names the lines of the two keys). -/
def duplicateKeys : List String → List String
  | [] => []
  | key :: rest =>
    (rest.filter (fun k => k = key)).map
        (fun k => "mapping key \"" ++ k ++ "\" already defined") ++
      duplicateKeys rest

mutual
/-- Decoding into an `any`: the value, none for a mapping with a repeated key (it is
left out of what encloses it), and the type errors. -/
def decodeAny : Node → Option Any × List String
  | Node.scalar _ resolved => (some resolved, [])
  | Node.sequence content =>
    let r := decodeAnyList content
    (some (Any.slice r.1), r.2)
  | Node.mapping content =>
    let dups := duplicateKeys (content.map Prod.fst)
    if dups.length > 0 then (none, dups)
    else
      let r := decodeAnyMap content
      (some (Any.map r.1), r.2)
def decodeAnyList : List Node → List Any × List String
  | [] => ([], [])
  | n :: rest =>
    let r := decodeAny n
    let rs := decodeAnyList rest
    ((match r.1 with
      | some v => v :: rs.1
      | none => rs.1), r.2 ++ rs.2)
def decodeAnyMap : List (String × Node) → List (String × Any) × List String
  | [] => ([], [])
  | (k, n) :: rest =>
    let r := decodeAny n
    let rs := decodeAnyMap rest
    ((match r.1 with
      | some v => (k, v) :: rs.1
      | none => rs.1), r.2 ++ rs.2)
end

/-- Decoding into the `[]any` field `Closes`. -/
def decodeCloses (n : Node) (old : List Any) : Decode (List Any) := fun terrors =>
  match n with
  | Node.scalar _ Any.null => Except.ok ([], terrors)
  | Node.sequence content =>
    let r := decodeAnyList content
    Except.ok (r.1, terrors ++ r.2)
  | _ => Except.ok (old, terrors ++ ["cannot unmarshal into []interface {}"])

/-- Decoding into the `LocalTime` field `Date`: a null leaves the field, any other
node goes to `UnmarshalYAML`. -/
def decodeDate (zone : Int → Int) (n : Node) (old : LocalTime) : Decode LocalTime :=
  fun terrors =>
    if n.isNull then Except.ok (old, terrors)
    else
      match LocalTime.UnmarshalYAML zone n with
      | Except.error err => Except.error err
      | Except.ok lt => Except.ok (lt, terrors)

/-- The loop of `decoder.mappingStruct`: the pairs are taken in order, a key that
names a field (by its `yaml` tag) decodes the value into that field, a field set
before is a type error, any other key is ignored. `done` lists the fields set. -/
def decodeFields {T : Type} (field : String → Option (Node → T → Decode T)) :
    List (String × Node) → List String → T → Decode T
  | [], _, out => fun terrors => Except.ok (out, terrors)
  | (key, value) :: rest, done, out => fun terrors =>
    match field key with
    | none => decodeFields field rest done out terrors
    | some dec =>
      if key ∈ done then
        decodeFields field rest done out (terrors ++ ["field " ++ key ++ " already set"])
      else
        match dec value out terrors with
        | Except.error err => Except.error err
        | Except.ok (out, terrors) => decodeFields field rest (key :: done) out terrors

/-- Decoding into a struct: a mapping without a repeated key fills the fields; a
mapping with a repeated key is a type error and no field of it is decoded. A null (or
any failure) makes the element be left out of the enclosing slice. -/
def decodeStruct {T : Type} (field : String → Option (Node → T → Decode T)) (zero : T)
    (n : Node) : Decode (Option T) := fun terrors =>
  match n with
  | Node.mapping content =>
    let dups := duplicateKeys (content.map Prod.fst)
    if dups.length > 0 then Except.ok (none, terrors ++ dups)
    else
      match decodeFields field content [] zero terrors with
      | Except.error err => Except.error err
      | Except.ok (out, terrors) => Except.ok (some out, terrors)
  | Node.scalar _ Any.null => Except.ok (none, terrors)
  | _ => Except.ok (none, terrors ++ ["cannot unmarshal into struct"])

/-- Decoding of the elements of a sequence into a slice of structs. -/
def decodeElems {T : Type} (elem : Node → Decode (Option T)) : List Node → Decode (List T)
  | [] => fun terrors => Except.ok ([], terrors)
  | n :: rest => fun terrors =>
    match elem n terrors with
    | Except.error err => Except.error err
    | Except.ok (e, terrors) =>
      match decodeElems elem rest terrors with
      | Except.error err => Except.error err
      | Except.ok (es, terrors) =>
        Except.ok ((match e with | some e => e :: es | none => es), terrors)

/-- Decoding into a slice of structs. -/
def decodeSlice {T : Type} (elem : Node → Decode (Option T)) (n : Node) (old : List T) :
    Decode (List T) := fun terrors =>
  match n with
  | Node.scalar _ Any.null => Except.ok ([], terrors)
  | Node.sequence content => decodeElems elem content terrors
  | _ => Except.ok (old, terrors ++ ["cannot unmarshal into slice"])

/-- The fields of `Change` by `yaml` tag. -/
def changeField (key : String) : Option (Node → Change → Decode Change) :=
  if key = "desc" then
    some (fun n c te => (decodeString n c.Desc te).map (fun r => ({ c with Desc := r.1 }, r.2)))
  else if key = "closes" then
    some (fun n c te => (decodeCloses n c.Closes te).map (fun r => ({ c with Closes := r.1 }, r.2)))
  else none

/-- The fields of `Entry` by `yaml` tag. -/
def entryField (zone : Int → Int) (key : String) : Option (Node → Entry → Decode Entry) :=
  if key = "version" then
    some (fun n e te =>
      (decodeString n e.Version te).map (fun r => ({ e with Version := r.1 }, r.2)))
  else if key = "urgency" then
    some (fun n e te =>
      (decodeString n e.Urgency te).map (fun r => ({ e with Urgency := r.1 }, r.2)))
  else if key = "stable" then
    some (fun n e te => (decodeBool n e.Stable te).map (fun r => ({ e with Stable := r.1 }, r.2)))
  else if key = "date" then
    some (fun n e te => (decodeDate zone n e.Date te).map (fun r => ({ e with Date := r.1 }, r.2)))
  else if key = "changes" then
    some (fun n e te =>
      (decodeSlice (decodeStruct changeField ⟨"", []⟩) n e.Changes te).map
        (fun r => ({ e with Changes := r.1 }, r.2)))
  else none

/-- The fields of `Config` by `yaml` tag. -/
def configField (zone : Int → Int) (key : String) : Option (Node → Config → Decode Config) :=
  if key = "project" then
    some (fun n c te =>
      (decodeString n c.Project te).map (fun r => ({ c with Project := r.1 }, r.2)))
  else if key = "maintaner" then
    some (fun n c te =>
      (decodeString n c.Maintainer te).map (fun r => ({ c with Maintainer := r.1 }, r.2)))
  else if key = "changelog" then
    some (fun n c te =>
      (decodeSlice (decodeStruct (entryField zone) ⟨"", "", false, ⟨zeroTime⟩, []⟩) n
        c.Changelog te).map (fun r => ({ c with Changelog := r.1 }, r.2)))
  else none

/-- `yaml.Unmarshal(data, &cfg)` on the parsed document (`none`: the stream holds no
document): the filled `cfg`, or the error. -/
def Unmarshal (zone : Int → Int) (doc : Option Node) : Except String Config :=
  let cfg : Config := ⟨"", "", []⟩
  match doc with
  | none => Except.ok cfg
  | some n =>
    match decodeStruct (configField zone) cfg n [] with
    | Except.error err => Except.error err
    | Except.ok (out, terrors) =>
      if terrors.length > 0 then
        Except.error ("yaml: unmarshal errors:\n  " ++ "\n  ".intercalate terrors)
      else Except.ok (out.getD cfg)

/-- What standard input holds: a read failure, bytes that are not YAML, or a YAML
stream with its document. -/
inductive Stdin where
  | readError (err : String)
  | syntaxError (err : String)
  | document (doc : Option Node)

/-- The process as the program sees it: `os.Args`, standard input and the local time
zone (offset east of UTC in seconds at each instant). -/
structure Process where
  Args : List String
  Stdin : Stdin
  Local : Int → Int

/-- `func readLog() (*Config, error)`. -/
def readLog (p : Process) : Except String Config :=
  match p.Stdin with
  | Stdin.readError err => Except.error err
  | Stdin.syntaxError err => Except.error err
  | Stdin.document doc =>
    match Unmarshal p.Local doc with
    | Except.error err => Except.error err
    | Except.ok cfg =>
      Except.ok { cfg with Changelog := SortFunc cfg.Changelog (fun a b => a.Date.Cmp b.Date) }

/-! ## The command -/

/-- How a function call ends: it returns an error value (`none` is nil) or panics. -/
inductive Outcome where
  | returned (err : Option String)
  | panicked (msg : String)
deriving DecidableEq, Repr

/-- A run of `mainInner`: how it ends, what it wrote to the two output streams and
whether it read standard input. -/
structure Run where
  outcome : Outcome
  stdout : String
  stderr : String
  readStdin : Bool
deriving DecidableEq, Repr

/-- `func mainInner() error`. -/
def mainInner (p : Process) : Run :=
  if p.Args.length ≠ 2 then
    match p.Args with
    | [] => ⟨Outcome.panicked "runtime error: index out of range [0] with length 0", "", "", false⟩
    | arg0 :: _ =>
      ⟨Outcome.returned (some ("Usage: " ++ arg0 ++ " <rpm|deb> < changelog.yaml")), "", "", false⟩
  else
    match readLog p with
    | Except.error err => ⟨Outcome.returned (some err), "", "", true⟩
    | Except.ok cfg =>
      let format := p.Args.getD 1 ""
      if format = "rpm" then
        let r := doRpmChangelog cfg
        ⟨Outcome.returned r.2, r.1, "", true⟩
      else if format = "deb" then
        let r := doDebChangelog cfg
        ⟨Outcome.returned r.2, r.1, "", true⟩
      else ⟨Outcome.returned none, "", "Unknown format: " ++ format ++ "\n", true⟩

/-- The end of the process: exit code and the two output streams. -/
structure Exit where
  code : Nat
  stdout : String
  stderr : String
deriving DecidableEq, Repr

/-- `func main()`. -/
def main (p : Process) : Exit :=
  let r := mainInner p
  match r.outcome with
  | Outcome.returned none => ⟨0, r.stdout, r.stderr⟩
  | Outcome.returned (some err) => ⟨1, r.stdout, r.stderr ++ ("Error: " ++ err ++ "\n")⟩
  | Outcome.panicked msg => ⟨2, r.stdout, r.stderr ++ ("panic: " ++ msg ++ "\n")⟩

/-! ## Specification-side definitions (written from the specification's words) -/

/-- The token of one reference: `#` and the decimal of a number, a text as it is,
nothing for a value of any other type. -/
def refToken : Any → Option String
  | Any.int n => some ("#" ++ toString n)
  | Any.string s => some s
  | _ => none

/-- The reference string: the tokens joined with a comma and a space, in the
original order. -/
def refString (closes : List Any) : String :=
  ", ".intercalate (closes.filterMap refToken)

/-- The references of a change: the tokens of the elements of its closes list that are
numbers or texts. -/
def refs (change : Change) : List String :=
  change.Closes.filterMap refToken

/-- Debian text of one change: the bullet line, then the `Closes` line when the
references of the change are not empty. -/
def debChangeText (change : Change) : String :=
  "  * " ++ change.Desc ++ "\n" ++
    (if (refs change).isEmpty then "" else "  Closes: " ++ refString change.Closes ++ "\n")

/-- Debian block of one entry: header line, blank line, the changes, blank line,
trailer line, blank line. -/
def debBlock (cfg : Config) (entry : Entry) : String :=
  cfg.Project ++ " (" ++ entry.Version ++ ") " ++ stable entry.Stable ++ "; urgency=" ++
      entry.Urgency ++ "\n\n" ++
    String.join (entry.Changes.map debChangeText) ++
    ("\n -- " ++ cfg.Maintainer ++ "  " ++ entry.Date.Time.FormatRFC1123Z ++ "\n\n")

/-- RPM text of one change: the dash line with the `Closes` parenthetical when the
references of the change are not empty. -/
def rpmChangeText (change : Change) : String :=
  "- " ++ change.Desc ++
    (if (refs change).isEmpty then "" else "  (Closes: " ++ refString change.Closes ++ ")") ++ "\n"

/-- RPM block of one entry: header line, the changes, one blank line. -/
def rpmBlock (cfg : Config) (entry : Entry) : String :=
  "* " ++ entry.Date.Time.FormatRpm ++ " " ++ cfg.Maintainer ++ " - " ++ entry.Version ++ "\n" ++
    String.join (entry.Changes.map rpmChangeText) ++ "\n"

/-- The document of the two rendering scenarios: project foo, version 1.0, stable,
urgency low, 2024-01-05 10:00:00 +0000, one change closing issue 42. -/
def scenarioConfig : Config :=
  ⟨"foo", "A <a@example.com>",
    [⟨"1.0", "low", true, ⟨⟨1704448800, 0, 0⟩⟩, [⟨"fix bug", [Any.int 42]⟩]⟩]⟩

/-- The scenario document as YAML, with the key `maintainer` of the input schema. -/
def scenarioNode : Node :=
  Node.mapping
    [("project", Node.scalar "foo" (Any.string "foo")),
     ("maintainer", Node.scalar "A <a@example.com>" (Any.string "A <a@example.com>")),
     ("changelog", Node.sequence
       [Node.mapping
         [("version", Node.scalar "1.0" (Any.string "1.0")),
          ("urgency", Node.scalar "low" (Any.string "low")),
          ("stable", Node.scalar "true" (Any.bool true)),
          ("date", Node.scalar "2024-01-05 10:00:00 +0000"
            (Any.string "2024-01-05 10:00:00 +0000")),
          ("changes", Node.sequence
            [Node.mapping
              [("desc", Node.scalar "fix bug" (Any.string "fix bug")),
               ("closes", Node.sequence [Node.scalar "42" (Any.int 42)])]])]])]

/-- The document of the rendering scenarios with the reference 1.5, a float, in place
of 42. -/
def floatConfig : Config :=
  ⟨"foo", "A <a@example.com>",
    [⟨"1.0", "low", true, ⟨⟨1704448800, 0, 0⟩⟩,
      [⟨"fix bug", [Any.float64 4609434218613702656]⟩]⟩]⟩

/-- Every change with a non-empty closes list has a reference: some element of the
list is a number or a text. -/
def HasRefs (cfg : Config) : Prop :=
  ∀ entry ∈ cfg.Changelog, ∀ change ∈ entry.Changes,
    change.Closes ≠ [] → refs change ≠ []

/-- A run of the program on the scenario document in a process whose zone is UTC. -/
def scenarioProcess (args : List String) : Process :=
  ⟨args, Stdin.document (some scenarioNode), fun _ => 0⟩

/-- Stability of the sort step, in the specification's words: for every instant, the
entries with that timestamp come in the output in the order they have in the input. -/
def StableOrder (input output : List Entry) : Prop :=
  ∀ t : Time, output.filter (fun e => e.Date.Time.Equal t) =
    input.filter (fun e => e.Date.Time.Equal t)

/-- A scalar node holding a text. -/
def textNode (s : String) : Node := Node.scalar s (Any.string s)

/-- The YAML of an entry with no changes. -/
def entryNode (version date : String) : Node :=
  Node.mapping
    [("version", textNode version), ("urgency", textNode "low"),
     ("stable", Node.scalar "true" (Any.bool true)), ("date", textNode date),
     ("changes", Node.sequence [])]

/-- A process reading a document with the given entries, in the zone UTC. -/
def processOf (entries : List Node) : Process :=
  ⟨["changelog-linux-pkg", "deb"],
    Stdin.document (some (Node.mapping
      [("project", textNode "foo"), ("changelog", Node.sequence entries)])),
    fun _ => 0⟩

/-- Three entries: the first and the third have the same timestamp, the second is
newer. -/
def threeEntries : List Node :=
  [entryNode "v1" "2024-01-01 00:00:00 +0000", entryNode "v2" "2024-01-03 00:00:00 +0000",
   entryNode "v3" "2024-01-01 00:00:00 +0000"]

/-- Thirteen entries: the first is the oldest, the other twelve have the same newer
timestamp. -/
def thirteenEntries : List Node :=
  entryNode "v0" "2024-01-01 00:00:00 +0000" ::
    ["v1", "v2", "v3", "v4", "v5", "v6", "v7", "v8", "v9", "v10", "v11", "v12"].map
      (fun v => entryNode v "2024-01-02 00:00:00 +0000")

/-- The entries `yaml.Unmarshal` loads from standard input, in document order (none
when loading fails). -/
def loadedEntries (p : Process) : List Entry :=
  match p.Stdin with
  | Stdin.document doc =>
    match Unmarshal p.Local doc with
    | Except.ok cfg => cfg.Changelog
    | Except.error _ => []
  | _ => []

/-- The entries `readLog` returns, in order (none when it fails). -/
def sortedEntries (p : Process) : List Entry :=
  match readLog p with
  | Except.ok cfg => cfg.Changelog
  | Except.error _ => []

/-- What `yaml.Unmarshal` loads from the three-entry document. -/
def threeLoaded : Config :=
  ⟨"foo", "",
    [⟨"v1", "low", true, ⟨⟨1704067200, 0, 0⟩⟩, []⟩,
     ⟨"v2", "low", true, ⟨⟨1704240000, 0, 0⟩⟩, []⟩,
     ⟨"v3", "low", true, ⟨⟨1704067200, 0, 0⟩⟩, []⟩]⟩

/-- What `readLog` returns for the three-entry document. -/
def threeSorted : Config :=
  ⟨"foo", "",
    [⟨"v2", "low", true, ⟨⟨1704240000, 0, 0⟩⟩, []⟩,
     ⟨"v1", "low", true, ⟨⟨1704067200, 0, 0⟩⟩, []⟩,
     ⟨"v3", "low", true, ⟨⟨1704067200, 0, 0⟩⟩, []⟩]⟩

/-- A process reading a document with no entries, run with the given format
argument, in the zone UTC. -/
def emptyProcess (format : String) : Process :=
  ⟨["changelog-linux-pkg", format],
    Stdin.document (some (Node.mapping
      [("project", textNode "foo"), ("changelog", Node.sequence [])])),
    fun _ => 0⟩

/-- The timestamp `a` is strictly after `b` in time. -/
def Time.laterThan (a b : Time) : Prop :=
  b.sec < a.sec ∨ (b.sec = a.sec ∧ b.nsec < a.nsec)

/-- The timestamps `a` and `b` are the same instant. -/
def Time.sameInstant (a b : Time) : Prop :=
  a.sec = b.sec ∧ a.nsec = b.nsec

/-- The weekday of a calendar date by Zeller's congruence for the Gregorian calendar,
counted from Sunday = 0: January and February count as months 13 and 14 of the year
before. -/
def zellerWeekday (year month day : Int) : Int :=
  let m := if month ≤ 2 then month + 12 else month
  let y := if month ≤ 2 then year - 1 else year
  let k := y % 100
  let j := y / 100
  let h := (day + 13 * (m + 1) / 5 + k + k / 4 + j / 4 + 5 * j) % 7
  (h + 6) % 7

/-- The fixed date format in the specification's words, `YYYY-MM-DD HH:MM:SS +-ZZZZ`:
a digit where the pattern has a letter, a sign where it has `+-`, and every other
character of the pattern as it is. -/
def matchesFixedFormat (text : String) : Bool :=
  let pattern := "YYYY-MM-DD HH:MM:SS +ZZZZ".toList
  decide (text.toList.length = pattern.length) &&
    (List.zip pattern text.toList).all fun pc =>
      if pc.1.isAlpha then pc.2.isDigit
      else if pc.1 = '+' then decide (pc.2 = '+' ∨ pc.2 = '-')
      else decide (pc.2 = pc.1)

/-- A piece of a date pattern: a decimal digit, at most one decimal digit, a given
character, one or more spaces, a fraction (nothing, or a period or comma followed by
one or more digits), a sign. -/
inductive Piece where
  | digit
  | optDigit
  | lit (c : Char)
  | spaces
  | fraction
  | sign

/-- The text consists of the pieces, in order. -/
def matchPieces : List Piece → List Char → Bool
  | [], s => s.isEmpty
  | Piece.digit :: ps, c :: s => c.isDigit && matchPieces ps s
  | Piece.optDigit :: ps, s =>
    (match s with
      | c :: rest => c.isDigit && matchPieces ps rest
      | [] => false) || matchPieces ps s
  | Piece.lit x :: ps, c :: s => decide (c = x) && matchPieces ps s
  | Piece.spaces :: ps, c :: s =>
    decide (c = ' ') && matchPieces ps (s.dropWhile (fun x => x = ' '))
  | Piece.fraction :: ps, s =>
    match s with
    | c :: d :: rest =>
      if (c = '.' ∨ c = ',') ∧ d.isDigit then matchPieces ps (rest.dropWhile Char.isDigit)
      else matchPieces ps s
    | _ => matchPieces ps s
  | Piece.sign :: ps, c :: s => decide (c = '+' ∨ c = '-') && matchPieces ps s
  | _ :: _, [] => false

/-- The fixed date format with the three liberties of `time.Parse`: the hour may have
one digit, a fraction of a second may follow the seconds, and each space may be a run
of spaces. -/
def matchesLenientFormat (text : String) : Bool :=
  matchPieces
    [Piece.digit, Piece.digit, Piece.digit, Piece.digit, Piece.lit '-',
      Piece.digit, Piece.digit, Piece.lit '-', Piece.digit, Piece.digit, Piece.spaces,
      Piece.digit, Piece.optDigit, Piece.lit ':', Piece.digit, Piece.digit, Piece.lit ':',
      Piece.digit, Piece.digit, Piece.fraction, Piece.spaces,
      Piece.sign, Piece.digit, Piece.digit, Piece.digit, Piece.digit]
    text.toList

/-- A process in the zone UTC reading a document with one entry, without changes, that
has the given date text. -/
def dateProcess (format date : String) : Process :=
  ⟨["changelog-linux-pkg", format],
    Stdin.document (some (Node.mapping
      [("project", textNode "foo"), ("changelog", Node.sequence [entryNode "1.0" date])])),
    fun _ => 0⟩

/-! ## Invariants used in the correctness proofs of the sort -/

section Invariants

/-- The order a comparison function has to induce: `cmp x y < 0` is a strict weak
ordering. -/
structure StrictWeak {α : Type} (cmp : α → α → Int) : Prop where
  irrefl : ∀ x, ¬ cmp x x < 0
  trans : ∀ x y z, cmp x y < 0 → cmp y z < 0 → cmp x z < 0
  negTrans : ∀ x y z, ¬ cmp x y < 0 → ¬ cmp y z < 0 → ¬ cmp x z < 0

variable {α : Type} [Inhabited α]

/-- On `data[a:b]` no later element is less than an earlier one. -/
def SortedOn (cmp : α → α → Int) (data : List α) (a b : Nat) : Prop :=
  ∀ i j, a ≤ i → i < j → j < b → ¬ cmp (elem data j) (elem data i) < 0

/-- The slice `data2` differs from `data` only inside `[a, b)`, every element of
`data2[a:b]` is an element of `data[a:b]`, and `data2` is a rearrangement of `data`. -/
def Within (data data2 : List α) (a b : Nat) : Prop :=
  data2.length = data.length ∧
  (∀ k, k < a ∨ b ≤ k → elem data2 k = elem data k) ∧
  (∀ i, a ≤ i → i < b → ∃ j, a ≤ j ∧ j < b ∧ elem data2 i = elem data j) ∧
  data2.Perm data

/-- Invariant of the inner loop of insertion sort: `data[a:b]` is sorted when the
element at `j` is left out, and that element is not greater than any later one. -/
def SortedExcept (cmp : α → α → Int) (data : List α) (a b j : Nat) : Prop :=
  (∀ p q, a ≤ p → p < q → q < b → p ≠ j → q ≠ j → ¬ cmp (elem data q) (elem data p) < 0) ∧
  (∀ q, j < q → q < b → ¬ cmp (elem data q) (elem data j) < 0)

/-- In the heap `data[first : first+hi]`, every node whose parent has index at least
`lo` is not greater than its parent. -/
def Heap (cmp : α → α → Int) (data : List α) (first lo hi : Nat) : Prop :=
  ∀ c, 0 < c → c < hi → lo ≤ (c - 1) / 2 →
    ¬ cmp (elem data (first + (c - 1) / 2)) (elem data (first + c)) < 0

/-- Invariant of `siftDownCmpFunc` at the node `r`: the heap property holds except
below `r`, and the children of `r` are not greater than the parent of `r`. -/
def HeapExcept (cmp : α → α → Int) (data : List α) (first lo hi r : Nat) : Prop :=
  (∀ c, 0 < c → c < hi → lo ≤ (c - 1) / 2 → (c - 1) / 2 ≠ r →
    ¬ cmp (elem data (first + (c - 1) / 2)) (elem data (first + c)) < 0) ∧
  (lo < r → lo ≤ (r - 1) / 2 ∧ ∀ c, 0 < c → c < hi → (c - 1) / 2 = r →
    ¬ cmp (elem data (first + (r - 1) / 2)) (elem data (first + c)) < 0)

/-- Invariant of the partition loops: the pivot value `pv` sits at `a`, everything
between `a` and `i` is less than it, everything after `j` is not. -/
def PartInv (cmp : α → α → Int) (d0 d : List α) (a b : Nat) (pv : α) (i j : Nat) : Prop :=
  Within d0 d a b ∧ elem d a = pv ∧ a + 1 ≤ i ∧ i ≤ j + 1 ∧ j < b ∧
  (∀ k, a < k → k < i → cmp (elem d k) pv < 0) ∧
  (∀ k, j < k → k < b → ¬ cmp (elem d k) pv < 0)

/-- Invariant of `partitionEqualCmpFunc`: the pivot value `pv` sits at `a`, nothing
between `a` and `i` is greater than it, everything after `j` is. -/
def PartEqInv (cmp : α → α → Int) (d0 d : List α) (a b : Nat) (pv : α) (i j : Nat) : Prop :=
  Within d0 d a b ∧ elem d a = pv ∧ a + 1 ≤ i ∧ i ≤ j + 1 ∧ j < b ∧
  (∀ k, a < k → k < i → ¬ cmp pv (elem d k) < 0) ∧
  (∀ k, j < k → k < b → cmp pv (elem d k) < 0)

/-- No element of `data[a:b]` is less than the element just before `a`. -/
def LowerBound (cmp : α → α → Int) (data : List α) (a b : Nat) : Prop :=
  0 < a → ∀ k, a ≤ k → k < b → ¬ cmp (elem data k) (elem data (a - 1)) < 0

end Invariants

/-! ## Correctness of `slices.SortFunc` -/

section PdqsortProofs

variable {α : Type} [Inhabited α]

theorem StrictWeak.asymm {α : Type} {cmp : α → α → Int} (h : StrictWeak cmp) {x y : α}
    (hxy : cmp x y < 0) : ¬ cmp y x < 0 :=
  fun hyx => h.irrefl x (h.trans x y x hxy hyx)

theorem StrictWeak.lt_of_lt_of_le {α : Type} {cmp : α → α → Int} (h : StrictWeak cmp) {x y z : α}
    (hxy : cmp x y < 0) (hyz : ¬ cmp z y < 0) : cmp x z < 0 := by
  by_contra hxz
  exact h.negTrans x z y hxz hyz hxy

theorem StrictWeak.lt_of_le_of_lt {α : Type} {cmp : α → α → Int} (h : StrictWeak cmp) {x y z : α}
    (hxy : ¬ cmp y x < 0) (hyz : cmp y z < 0) : cmp x z < 0 := by
  by_contra hxz
  exact h.negTrans y x z hxy hxz hyz

theorem length_swap (data : List α) (i j : Nat) : (swap data i j).length = data.length := by
  simp [swap]

theorem elem_swap (data : List α) (i j k : Nat) (hi : i < data.length) (hj : j < data.length) :
    elem (swap data i j) k =
      if k = j then elem data i else if k = i then elem data j else elem data k := by
  simp only [elem, swap, List.getD_eq_getElem?_getD, List.getElem?_set, List.length_set]
  by_cases h1 : j = k
  · subst h1; simp [hj]
  · by_cases h2 : i = k
    · subst h2; simp [h1, hi, Ne.symm h1]
    · simp [h1, h2, Ne.symm h1, Ne.symm h2]

theorem elem_swap_left (data : List α) (i j : Nat) (hi : i < data.length)
    (hj : j < data.length) : elem (swap data i j) i = elem data j := by
  rw [elem_swap data i j i hi hj]
  by_cases h : i = j
  · subst h; simp
  · simp [h]

theorem elem_swap_right (data : List α) (i j : Nat) (hi : i < data.length)
    (hj : j < data.length) : elem (swap data i j) j = elem data i := by
  rw [elem_swap data i j j hi hj]; simp

theorem elem_swap_other (data : List α) (i j k : Nat) (hi : i < data.length)
    (hj : j < data.length) (hki : k ≠ i) (hkj : k ≠ j) :
    elem (swap data i j) k = elem data k := by
  rw [elem_swap data i j k hi hj]; simp [hki, hkj]

theorem swap_cons_succ (z : α) (rest : List α) (i j : Nat) :
    swap (z :: rest) (i + 1) (j + 1) = z :: swap rest i j := by
  simp [swap, elem]

theorem elem_cons_succ (z : α) (rest : List α) (i : Nat) :
    elem (z :: rest) (i + 1) = elem rest i := by
  simp [elem]

theorem set_perm_cons (z : α) :
    ∀ (l : List α) (k : Nat), k < l.length → (elem l k :: l.set k z).Perm (z :: l) := by
  intro l
  induction l with
  | nil => intro k h; simp at h
  | cons y rest ih =>
    intro k hk
    cases k with
    | zero =>
      simp only [elem, List.getD_cons_zero, List.set_cons_zero]
      exact List.Perm.swap _ _ _
    | succ k =>
      simp only [List.length_cons] at hk
      rw [elem_cons_succ, List.set_cons_succ]
      exact (List.Perm.swap _ _ _).trans
        (((ih k (by omega)).cons y).trans (List.Perm.swap _ _ _))

/-- Exchanging two elements of a slice rearranges it. -/
theorem swap_perm : ∀ (data : List α) (i j : Nat), i < data.length → j < data.length →
    (swap data i j).Perm data := by
  intro data
  induction data with
  | nil => intro i j h; simp at h
  | cons z rest ih =>
    intro i j hi hj
    simp only [List.length_cons] at hi hj
    cases i with
    | zero =>
      cases j with
      | zero => simp [swap, elem]
      | succ k =>
        have e : swap (z :: rest) 0 (k + 1) = elem rest k :: rest.set k z := by
          simp [swap, elem]
        rw [e]
        exact set_perm_cons z rest k (by omega)
    | succ k =>
      cases j with
      | zero =>
        have e : swap (z :: rest) (k + 1) 0 = elem rest k :: rest.set k z := by
          simp [swap, elem]
        rw [e]
        exact set_perm_cons z rest k (by omega)
      | succ m =>
        rw [swap_cons_succ]
        exact (ih k m (by omega) (by omega)).cons z

theorem less_iff (cmp : α → α → Int) (data : List α) (i j : Nat) :
    less cmp data i j = true ↔ cmp (elem data i) (elem data j) < 0 := by
  simp [less]

theorem Within.refl (data : List α) (a b : Nat) : Within data data a b :=
  ⟨rfl, fun _ _ => rfl, fun i hi hib => ⟨i, hi, hib, rfl⟩, List.Perm.refl _⟩

theorem Within.trans {d1 d2 d3 : List α} {a b : Nat} (h12 : Within d1 d2 a b)
    (h23 : Within d2 d3 a b) : Within d1 d3 a b := by
  refine ⟨h23.1.trans h12.1, fun k hk => (h23.2.1 k hk).trans (h12.2.1 k hk), ?_,
    h23.2.2.2.trans h12.2.2.2⟩
  intro i hi hib
  obtain ⟨j, hj, hjb, e1⟩ := h23.2.2.1 i hi hib
  obtain ⟨k, hk, hkb, e2⟩ := h12.2.2.1 j hj hjb
  exact ⟨k, hk, hkb, e1.trans e2⟩

theorem Within.mono {d1 d2 : List α} {a b a2 b2 : Nat} (h : Within d1 d2 a b)
    (ha : a2 ≤ a) (hb : b ≤ b2) : Within d1 d2 a2 b2 := by
  refine ⟨h.1, fun k hk => h.2.1 k (by omega), ?_, h.2.2.2⟩
  intro i hi hib
  by_cases hin : a ≤ i ∧ i < b
  · obtain ⟨j, hj, hjb, e⟩ := h.2.2.1 i hin.1 hin.2
    exact ⟨j, by omega, by omega, e⟩
  · exact ⟨i, hi, hib, h.2.1 i (by omega)⟩

theorem Within.swap (data : List α) {a b i j : Nat} (hb : b ≤ data.length)
    (hai : a ≤ i) (hib : i < b) (haj : a ≤ j) (hjb : j < b) :
    Within data (swap data i j) a b := by
  have hi : i < data.length := by omega
  have hj : j < data.length := by omega
  refine ⟨length_swap data i j, ?_, ?_, swap_perm data i j hi hj⟩
  · intro k hk
    exact elem_swap_other data i j k hi hj (by omega) (by omega)
  · intro k hk hkb
    rw [elem_swap data i j k hi hj]
    by_cases h1 : k = j
    · exact ⟨i, hai, hib, by simp [h1]⟩
    · by_cases h2 : k = i
      · subst h2
        exact ⟨j, haj, hjb, by simp [h1]⟩
      · exact ⟨k, hk, hkb, by simp [h1, h2]⟩

/-- A property of all elements of `data[a:b]` still holds after a change within. -/
theorem Within.forall {d1 d2 : List α} {a b : Nat} (h : Within d1 d2 a b) (P : α → Prop)
    (hP : ∀ i, a ≤ i → i < b → P (elem d1 i)) : ∀ i, a ≤ i → i < b → P (elem d2 i) := by
  intro i hi hib
  obtain ⟨j, hj, hjb, e⟩ := h.2.2.1 i hi hib
  rw [e]; exact hP j hj hjb

theorem SortedOn.subrange {cmp : α → α → Int} {data : List α} {a b a2 b2 : Nat}
    (h : SortedOn cmp data a b) (ha : a ≤ a2) (hb : b2 ≤ b) : SortedOn cmp data a2 b2 :=
  fun i j hi hij hj => h i j (by omega) hij (by omega)

/-- Sortedness of `data[a:b]` only depends on the elements of `data[a:b]`. -/
theorem SortedOn.congr {cmp : α → α → Int} {d1 d2 : List α} {a b : Nat}
    (h : SortedOn cmp d1 a b) (e : ∀ k, a ≤ k → k < b → elem d2 k = elem d1 k) :
    SortedOn cmp d2 a b := by
  intro i j hi hij hj
  rw [e i hi (by omega), e j (by omega) hj]
  exact h i j hi hij hj

/-! ### Insertion sort -/

theorem insertDown_within (cmp : α → α → Int) (a b : Nat) :
    ∀ (j : Nat) (data : List α), b ≤ data.length → a ≤ j → j < b →
      Within data (insertDown cmp a j data) a b := by
  intro j
  induction j with
  | zero => intro data _ _ _; exact Within.refl data a b
  | succ j ih =>
    intro data hb haj hjb
    unfold insertDown
    split
    · rename_i hc
      have hsw : Within data (swap data (j + 1) j) a b :=
        Within.swap data hb (by omega) hjb (by omega) (by omega)
      refine hsw.trans (ih _ ?_ (by omega) (by omega))
      rw [length_swap]; exact hb
    · exact Within.refl data a b

theorem insertDown_sorted (cmp : α → α → Int) (hcmp : StrictWeak cmp) (a b : Nat) :
    ∀ (j : Nat) (data : List α), b ≤ data.length → a ≤ j → j < b →
      SortedExcept cmp data a b j → SortedOn cmp (insertDown cmp a j data) a b := by
  intro j
  induction j with
  | zero =>
    intro data _ ha hjb hinv
    have ha0 : a = 0 := by omega
    subst ha0
    unfold insertDown
    intro p q hp hpq hq
    by_cases hp0 : p = 0
    · subst hp0; exact hinv.2 q hpq hq
    · exact hinv.1 p q hp hpq hq hp0 (by omega)
  | succ j ih =>
    intro data hb haj hjb hinv
    have hj1 : j + 1 < data.length := by omega
    have hj0 : j < data.length := by omega
    unfold insertDown
    split
    · rename_i hc
      have hlt : cmp (elem data (j + 1)) (elem data j) < 0 := (less_iff cmp data _ _).1 hc.2
      apply ih _ (by rw [length_swap]; exact hb) (by omega) (by omega)
      constructor
      · intro p q hp hpq hq hpj hqj
        by_cases hqj1 : q = j + 1
        · subst hqj1
          rw [elem_swap_left data (j + 1) j hj1 hj0,
            elem_swap_other data (j + 1) j p hj1 hj0 (by omega) hpj]
          exact hinv.1 p j hp (by omega) (by omega) (by omega) (by omega)
        · by_cases hpj1 : p = j + 1
          · subst hpj1
            rw [elem_swap_left data (j + 1) j hj1 hj0,
              elem_swap_other data (j + 1) j q hj1 hj0 hqj1 hqj]
            exact hinv.1 j q (by omega) (by omega) hq (by omega) hqj1
          · rw [elem_swap_other data (j + 1) j q hj1 hj0 hqj1 hqj,
              elem_swap_other data (j + 1) j p hj1 hj0 hpj1 hpj]
            exact hinv.1 p q hp hpq hq hpj1 hqj1
      · intro q hjq hq
        rw [elem_swap_right data (j + 1) j hj1 hj0]
        by_cases hqj1 : q = j + 1
        · subst hqj1
          rw [elem_swap_left data (j + 1) j hj1 hj0]
          exact hcmp.asymm hlt
        · rw [elem_swap_other data (j + 1) j q hj1 hj0 hqj1 (by omega)]
          exact hinv.2 q (by omega) hq
    · rename_i hc
      intro p q hp hpq hq
      by_cases hpj : p = j + 1
      · subst hpj; exact hinv.2 q hpq hq
      · by_cases hqj : q = j + 1
        · subst hqj
          have hja : j + 1 > a := by omega
          have hnl : ¬ cmp (elem data (j + 1)) (elem data j) < 0 := by
            intro hl
            exact hc ⟨hja, (less_iff cmp data _ _).2 hl⟩
          by_cases hpj0 : p = j
          · subst hpj0; exact hnl
          · have h1 := hinv.1 p j hp (by omega) (by omega) (by omega) (by omega)
            exact hcmp.negTrans _ _ _ hnl h1
        · exact hinv.1 p q hp hpq hq hpj hqj

theorem SortedExcept.of_sortedOn {cmp : α → α → Int} {data : List α} {a i : Nat}
    (h : SortedOn cmp data a i) : SortedExcept cmp data a (i + 1) i := by
  constructor
  · intro p q hp hpq hq _ hqi
    exact h p q hp hpq (by omega)
  · intro q hiq hq
    omega

theorem insertionLoop_spec (cmp : α → α → Int) (hcmp : StrictWeak cmp) (a b : Nat) :
    ∀ (n i : Nat) (data : List α), b ≤ data.length → a < i → b ≤ i + n →
      SortedOn cmp data a (min i b) →
      Within data (insertionLoop cmp a b n i data) a b ∧
      SortedOn cmp (insertionLoop cmp a b n i data) a b := by
  intro n
  induction n with
  | zero =>
    intro i data _ _ hn hs
    have : min i b = b := by omega
    rw [this] at hs
    exact ⟨Within.refl data a b, hs⟩
  | succ n ih =>
    intro i data hb hai hn hs
    unfold insertionLoop
    split
    · rename_i hib
      have hmin : min i b = i := by omega
      rw [hmin] at hs
      have hw : Within data (insertDown cmp a i data) a (i + 1) :=
        insertDown_within cmp a (i + 1) i data (by omega) (by omega) (by omega)
      have hso : SortedOn cmp (insertDown cmp a i data) a (i + 1) :=
        insertDown_sorted cmp hcmp a (i + 1) i data (by omega) (by omega) (by omega)
          (SortedExcept.of_sortedOn hs)
      have hlen : b ≤ (insertDown cmp a i data).length := by rw [hw.1]; exact hb
      have hnext := ih (i + 1) (insertDown cmp a i data) hlen (by omega) (by omega)
        (hso.subrange (le_refl a) (by omega))
      exact ⟨(hw.mono (le_refl a) (by omega)).trans hnext.1, hnext.2⟩
    · rename_i hib
      have : min i b = b := by omega
      rw [this] at hs
      exact ⟨Within.refl data a b, hs⟩

theorem insertionSortCmpFunc_spec (cmp : α → α → Int) (hcmp : StrictWeak cmp)
    (data : List α) (a b : Nat) (hb : b ≤ data.length) :
    Within data (insertionSortCmpFunc cmp data a b) a b ∧
    SortedOn cmp (insertionSortCmpFunc cmp data a b) a b := by
  unfold insertionSortCmpFunc
  apply insertionLoop_spec cmp hcmp a b _ _ data hb (by omega) (by omega)
  intro i j hi hij hj
  omega

end PdqsortProofs

section HeapProofs

variable {α : Type} [Inhabited α]

/-! ### Heap sort -/

theorem siftDownLoop_spec (cmp : α → α → Int) (hcmp : StrictWeak cmp) (first lo hi : Nat) :
    ∀ (n r : Nat) (data : List α), first + hi ≤ data.length → hi ≤ r + n → lo ≤ r →
      HeapExcept cmp data first lo hi r →
      Within data (siftDownLoop cmp hi first n r data) first (first + hi) ∧
      Heap cmp (siftDownLoop cmp hi first n r data) first lo hi := by
  intro n
  induction n with
  | zero =>
    intro r data _ hn _ hinv
    refine ⟨Within.refl _ _ _, ?_⟩
    intro c hc0 hc hlo
    by_cases hp : (c - 1) / 2 = r
    · omega
    · exact hinv.1 c hc0 hc hlo hp
  | succ n ih =>
    intro r data hlen hn hlor hinv
    unfold siftDownLoop
    simp only []
    split
    · rename_i hch
      refine ⟨Within.refl _ _ _, ?_⟩
      intro c hc0 hc hlo
      by_cases hp : (c - 1) / 2 = r
      · omega
      · exact hinv.1 c hc0 hc hlo hp
    · rename_i hch
      have hch2 : 2 * r + 1 < hi := by omega
      -- the greater child
      obtain ⟨m, hm, hmdef⟩ : ∃ m, m = (if 2 * r + 1 + 1 < hi ∧
          less cmp data (first + (2 * r + 1)) (first + (2 * r + 1) + 1) = true
          then 2 * r + 1 + 1 else 2 * r + 1) ∧ True := ⟨_, rfl, trivial⟩
      rw [← hm]
      have hmlt : m < hi := by
        rw [hm]; split
        · rename_i h; exact h.1
        · exact hch2
      have hmr : m = 2 * r + 1 ∨ m = 2 * r + 2 := by
        rw [hm]; split <;> omega
      have hmax : ∀ c, 0 < c → c < hi → (c - 1) / 2 = r →
          ¬ cmp (elem data (first + m)) (elem data (first + c)) < 0 := by
        intro c hc0 hc hp
        have hcr : c = 2 * r + 1 ∨ c = 2 * r + 2 := by omega
        by_cases hcond : 2 * r + 1 + 1 < hi ∧
            less cmp data (first + (2 * r + 1)) (first + (2 * r + 1) + 1) = true
        · have hm2 : m = 2 * r + 1 + 1 := by rw [hm]; simp [hcond]
          have hl := (less_iff cmp data _ _).1 hcond.2
          rcases hcr with h | h
          · subst h; rw [hm2]
            exact hcmp.asymm hl
          · subst h; rw [hm2]; exact hcmp.irrefl _
        · have hm2 : m = 2 * r + 1 := by rw [hm]; simp [hcond]
          rcases hcr with h | h
          · subst h; rw [hm2]; exact hcmp.irrefl _
          · subst h; rw [hm2]
            intro hl
            apply hcond
            exact ⟨by omega, (less_iff cmp data _ _).2 hl⟩
      split
      · rename_i hnl
        have hnl2 : ¬ cmp (elem data (first + r)) (elem data (first + m)) < 0 := by
          intro hl; exact hnl ((less_iff cmp data _ _).2 hl)
        refine ⟨Within.refl _ _ _, ?_⟩
        intro c hc0 hc hlo
        by_cases hp : (c - 1) / 2 = r
        · rw [hp]
          exact hcmp.negTrans _ _ _ hnl2 (hmax c hc0 hc hp)
        · exact hinv.1 c hc0 hc hlo hp
      · rename_i hnl
        have hl : cmp (elem data (first + r)) (elem data (first + m)) < 0 := by
          by_contra hl
          exact hnl (fun h => hl ((less_iff cmp data _ _).1 h))
        have hir : first + r < data.length := by omega
        have him : first + m < data.length := by omega
        have hsw : Within data (swap data (first + r) (first + m)) first (first + hi) :=
          Within.swap data hlen (by omega) (by omega) (by omega) (by omega)
        have hrec := ih m (swap data (first + r) (first + m))
          (by rw [length_swap]; exact hlen) (by omega) (by omega) ?_
        · exact ⟨hsw.trans hrec.1, hrec.2⟩
        · constructor
          · intro c hc0 hc hlo hpm
            by_cases hp : (c - 1) / 2 = r
            · rw [hp, elem_swap_left data _ _ hir him]
              by_cases hcm : c = m
              · rw [hcm, elem_swap_right data _ _ hir him]
                exact hcmp.asymm hl
              · rw [elem_swap_other data _ _ _ hir him (by omega) (by omega)]
                exact hmax c hc0 hc hp
            · rw [elem_swap_other data _ _ (first + (c - 1) / 2) hir him (by omega) (by omega)]
              by_cases hcr : c = r
              · rw [hcr, elem_swap_left data _ _ hir him]
                have hlt : lo < r := by omega
                have hg := (hinv.2 hlt).2 m (by omega) hmlt (by omega)
                rw [← hcr]; rw [← hcr] at hg; exact hg
              · have hcm : c ≠ m := by
                  intro h; apply hp; omega
                rw [elem_swap_other data _ _ (first + c) hir him (by omega) (by omega)]
                exact hinv.1 c hc0 hc hlo hp
          · intro _
            refine ⟨by omega, ?_⟩
            intro c hc0 hc hp
            have hmp : (m - 1) / 2 = r := by omega
            rw [hmp, elem_swap_left data _ _ hir him,
              elem_swap_other data _ _ (first + c) hir him (by omega) (by omega)]
            have := hinv.1 c hc0 hc (by omega) (by omega)
            rw [hp] at this
            exact this

theorem siftDownCmpFunc_spec (cmp : α → α → Int) (hcmp : StrictWeak cmp)
    (data : List α) (lo hi first : Nat) (hlen : first + hi ≤ data.length)
    (hinv : HeapExcept cmp data first lo hi lo) :
    Within data (siftDownCmpFunc cmp data lo hi first) first (first + hi) ∧
    Heap cmp (siftDownCmpFunc cmp data lo hi first) first lo hi :=
  siftDownLoop_spec cmp hcmp first lo hi hi lo data hlen (by omega) (le_refl lo) hinv

theorem heapBuild_spec (cmp : α → α → Int) (hcmp : StrictWeak cmp) (first hi : Nat) :
    ∀ (i : Nat) (data : List α), first + hi ≤ data.length → Heap cmp data first (i + 1) hi →
      Within data (heapBuild cmp hi first i data) first (first + hi) ∧
      Heap cmp (heapBuild cmp hi first i data) first 0 hi := by
  intro i
  induction i with
  | zero =>
    intro data hlen hh
    unfold heapBuild
    apply siftDownCmpFunc_spec cmp hcmp data 0 hi first hlen
    exact ⟨fun c hc0 hc _ hp => hh c hc0 hc (by omega), fun h => absurd h (lt_irrefl 0)⟩
  | succ i ih =>
    intro data hlen hh
    unfold heapBuild
    have h1 := siftDownCmpFunc_spec cmp hcmp data (i + 1) hi first hlen
      ⟨fun c hc0 hc hlo hp => hh c hc0 hc (by omega), fun h => absurd h (lt_irrefl _)⟩
    have h2 := ih (siftDownCmpFunc cmp data (i + 1) hi first) (by rw [h1.1.1]; exact hlen) h1.2
    exact ⟨h1.1.trans h2.1, h2.2⟩

/-- The root of a heap is not less than any of its nodes. -/
theorem Heap.root_max {cmp : α → α → Int} (hcmp : StrictWeak cmp) {data : List α}
    {first hi : Nat} (h : Heap cmp data first 0 hi) :
    ∀ c, c < hi → ¬ cmp (elem data first) (elem data (first + c)) < 0 := by
  intro c
  induction c using Nat.strong_induction_on with
  | _ c ih =>
    intro hc
    by_cases hc0 : c = 0
    · subst hc0; exact hcmp.irrefl _
    · have hp := ih ((c - 1) / 2) (by omega) (by omega)
      exact hcmp.negTrans _ _ _ hp (h c (by omega) hc (by omega))

theorem heapPop_spec (cmp : α → α → Int) (hcmp : StrictWeak cmp) (first hi : Nat) :
    ∀ (k : Nat) (data : List α), first + hi ≤ data.length → k ≤ hi →
      Heap cmp data first 0 k → SortedOn cmp data (first + k) (first + hi) →
      (∀ x y, first ≤ x → x < first + k → first + k ≤ y → y < first + hi →
        ¬ cmp (elem data y) (elem data x) < 0) →
      Within data (heapPop cmp first k data) first (first + hi) ∧
      SortedOn cmp (heapPop cmp first k data) first (first + hi) := by
  intro k
  induction k with
  | zero =>
    intro data _ _ _ hs _
    exact ⟨Within.refl _ _ _, by simpa using hs⟩
  | succ i ih =>
    intro data hlen hk hh hs hcross
    unfold heapPop
    have hf : first < data.length := by omega
    have hfi : first + i < data.length := by omega
    have hsw : Within data (swap data first (first + i)) first (first + (i + 1)) :=
      Within.swap data (by omega) (le_refl _) (by omega) (by omega) (by omega)
    have hlen1 : first + i ≤ (swap data first (first + i)).length := by
      rw [length_swap]; omega
    have h1 := siftDownCmpFunc_spec cmp hcmp (swap data first (first + i)) 0 i first hlen1
      ⟨by
        intro c hc0 hc _ hp
        rw [elem_swap_other data _ _ _ hf hfi (by omega) (by omega),
          elem_swap_other data _ _ _ hf hfi (by omega) (by omega)]
        exact hh c hc0 (by omega) (by omega), fun h => absurd h (lt_irrefl 0)⟩
    have hw1 : Within data (siftDownCmpFunc cmp (swap data first (first + i)) 0 i first)
        first (first + (i + 1)) := hsw.trans (h1.1.mono (le_refl _) (by omega))
    have hroot := Heap.root_max hcmp hh
    -- elements from the old heap are not greater than the old root
    have hle_root : ∀ x, first ≤ x → x < first + (i + 1) →
        ¬ cmp (elem data first) (elem data x) < 0 := by
      intro x hx hxi
      have := hroot (x - first) (by omega)
      rwa [show first + (x - first) = x by omega] at this
    have hrec := ih (siftDownCmpFunc cmp (swap data first (first + i)) 0 i first)
      (by rw [hw1.1]; exact hlen) (by omega) h1.2 ?_ ?_
    · exact ⟨(hw1.mono (le_refl _) (by omega)).trans hrec.1, hrec.2⟩
    · intro p q hp hpq hq
      rw [h1.1.2.1 p (by omega), h1.1.2.1 q (by omega),
        elem_swap_other data _ _ q hf hfi (by omega) (by omega)]
      by_cases hpi : p = first + i
      · rw [hpi, elem_swap_right data _ _ hf hfi]
        exact hcross first q (le_refl _) (by omega) (by omega) hq
      · rw [elem_swap_other data _ _ p hf hfi (by omega) hpi]
        exact hs p q (by omega) hpq hq
    · intro x y hx hxi hy hyh
      obtain ⟨x2, hx2, hx2i, ex⟩ := hw1.2.2.1 x hx (by omega)
      have hxi2 : x2 < first + (i + 1) := hx2i
      rw [ex, h1.1.2.1 y (by omega)]
      by_cases hyi : y = first + i
      · rw [hyi, elem_swap_right data _ _ hf hfi]
        exact hle_root x2 hx2 hxi2
      · rw [elem_swap_other data _ _ y hf hfi (by omega) hyi]
        exact hcross x2 y hx2 hxi2 (by omega) hyh

theorem heapSortCmpFunc_spec (cmp : α → α → Int) (hcmp : StrictWeak cmp)
    (data : List α) (a b : Nat) (hab : a ≤ b) (hb : b ≤ data.length) :
    Within data (heapSortCmpFunc cmp data a b) a b ∧
    SortedOn cmp (heapSortCmpFunc cmp data a b) a b := by
  unfold heapSortCmpFunc
  simp only []
  have hlen : a + (b - a) ≤ data.length := by omega
  have h1 := heapBuild_spec cmp hcmp a (b - a) ((b - a - 1) / 2) data hlen
    (fun c hc0 hc hlo => by omega)
  have h2 := heapPop_spec cmp hcmp a (b - a) (b - a)
    (heapBuild cmp (b - a) a ((b - a - 1) / 2) data) (by rw [h1.1.1]; exact hlen) (le_refl _)
    h1.2 (fun i j hi hij hj => by omega) (fun x y hx hxk hy hyh => by omega)
  have e : a + (b - a) = b := by omega
  rw [e] at h1 h2
  exact ⟨h1.1.trans h2.1, h2.2⟩

end HeapProofs

section PartitionProofs

variable {α : Type} [Inhabited α]

/-! ### The scanning loops -/

theorem less_false_iff (cmp : α → α → Int) (data : List α) (i j : Nat) :
    less cmp data i j = false ↔ ¬ cmp (elem data i) (elem data j) < 0 := by
  simp [less]

theorem not_less_true_iff (cmp : α → α → Int) (data : List α) (i j : Nat) :
    (!less cmp data i j) = true ↔ ¬ cmp (elem data i) (elem data j) < 0 := by
  simp [less]

theorem not_less_false_iff (cmp : α → α → Int) (data : List α) (i j : Nat) :
    (!less cmp data i j) = false ↔ cmp (elem data i) (elem data j) < 0 := by
  simp [less]

theorem scanUp_spec (p : Nat → Bool) (j : Nat) :
    ∀ (n i : Nat), j + 1 ≤ i + n →
      i ≤ scanUp p j n i ∧ (i ≤ j + 1 → scanUp p j n i ≤ j + 1) ∧
      (∀ k, i ≤ k → k < scanUp p j n i → p k = true) ∧
      (scanUp p j n i ≤ j → p (scanUp p j n i) = false) := by
  intro n
  induction n with
  | zero =>
    intro i hn
    unfold scanUp
    exact ⟨le_refl _, fun h => h, fun k h1 h2 => by omega, fun h => by omega⟩
  | succ n ih =>
    intro i hn
    unfold scanUp
    split
    · rename_i hc
      obtain ⟨h1, h2, h3, h4⟩ := ih (i + 1) (by omega)
      refine ⟨by omega, fun _ => h2 (by omega), ?_, h4⟩
      intro k hk hk2
      by_cases hki : k = i
      · rw [hki]; exact hc.2
      · exact h3 k (by omega) hk2
    · rename_i hc
      refine ⟨le_refl _, fun h => h, fun k h1 h2 => by omega, ?_⟩
      intro hij
      by_contra hp
      exact hc ⟨hij, by simpa using hp⟩

theorem scanDown_spec (p : Nat → Bool) (i : Nat) (hi : 1 ≤ i) :
    ∀ (n j : Nat), j + 1 ≤ i + n →
      scanDown p i n j ≤ j ∧ (i ≤ j + 1 → i ≤ scanDown p i n j + 1) ∧
      (∀ k, scanDown p i n j < k → k ≤ j → p k = true) ∧
      (i ≤ scanDown p i n j → p (scanDown p i n j) = false) := by
  intro n
  induction n with
  | zero =>
    intro j hn
    unfold scanDown
    exact ⟨le_refl _, fun h => h, fun k h1 h2 => by omega, fun h => by omega⟩
  | succ n ih =>
    intro j hn
    unfold scanDown
    split
    · rename_i hc
      obtain ⟨h1, h2, h3, h4⟩ := ih (j - 1) (by omega)
      refine ⟨by omega, fun _ => h2 (by omega), ?_, h4⟩
      intro k hk hk2
      by_cases hkj : k = j
      · rw [hkj]; exact hc.2
      · exact h3 k hk (by omega)
    · rename_i hc
      refine ⟨le_refl _, fun h => h, fun k h1 h2 => by omega, ?_⟩
      intro hij
      by_contra hp
      exact hc ⟨hij, by simpa using hp⟩

/-! ### Partition -/

theorem partition_step (cmp : α → α → Int) (d0 d : List α)
    (a b : Nat) (pv : α) (i j : Nat) (hb : b ≤ d0.length)
    (hinv : PartInv cmp d0 d a b pv i j) :
    let i1 := scanUp (fun k => less cmp d k a) j (j + 1 - i) i
    let j1 := scanDown (fun k => !less cmp d k a) i1 (j + 1 - i1) j
    (i1 > j1 → PartInv cmp d0 d a b pv (j1 + 1) j1) ∧
    (¬ i1 > j1 → i1 < j1 ∧ j1 ≤ j ∧ i ≤ i1 ∧
      PartInv cmp d0 (swap d i1 j1) a b pv (i1 + 1) (j1 - 1)) := by
  intro i1 j1
  obtain ⟨hw, hpv, hai, hij, hjb, hlo, hhi⟩ := hinv
  obtain ⟨u1, u2, u3, u4⟩ := scanUp_spec (fun k => less cmp d k a) j (j + 1 - i) i (by omega)
  have u2 := u2 hij
  obtain ⟨v1, v2, v3, v4⟩ :=
    scanDown_spec (fun k => !less cmp d k a) i1 (by omega) (j + 1 - i1) j (by omega)
  have v2 := v2 u2
  have hlo1 : ∀ k, a < k → k < i1 → cmp (elem d k) pv < 0 := by
    intro k hk hki
    by_cases h : k < i
    · exact hlo k hk h
    · have := u3 k (by omega) hki
      have := (less_iff cmp d k a).1 this
      rwa [hpv] at this
  have hhi1 : ∀ k, j1 < k → k < b → ¬ cmp (elem d k) pv < 0 := by
    intro k hk hkb
    by_cases h : j < k
    · exact hhi k h hkb
    · have := (not_less_true_iff cmp d k a).1 (v3 k hk (by omega))
      rwa [hpv] at this
  constructor
  · intro hgt
    have e : i1 = j1 + 1 := by omega
    exact ⟨hw, hpv, by omega, le_refl _, by omega, fun k hk hk2 => hlo1 k hk (by omega), hhi1⟩
  · intro hle
    have hle2 : i1 ≤ j1 := by omega
    have hi1 : ¬ cmp (elem d i1) pv < 0 := by
      have := (less_false_iff cmp d i1 a).1 (u4 (by omega))
      rwa [hpv] at this
    have hj1 : cmp (elem d j1) pv < 0 := by
      have := (not_less_false_iff cmp d j1 a).1 (v4 hle2)
      rwa [hpv] at this
    have hne : i1 ≠ j1 := by
      intro h; rw [h] at hi1; exact hi1 hj1
    have hlen : d.length = d0.length := hw.1
    have hil : i1 < d.length := by omega
    have hjl : j1 < d.length := by omega
    refine ⟨by omega, v1, u1, ?_⟩
    refine ⟨hw.trans (Within.swap d (by omega) (by omega) (by omega) (by omega) (by omega)),
      ?_, by omega, by omega, by omega, ?_, ?_⟩
    · rw [elem_swap_other d i1 j1 a hil hjl (by omega) (by omega)]; exact hpv
    · intro k hk hki
      by_cases hki1 : k = i1
      · rw [hki1, elem_swap_left d i1 j1 hil hjl]; exact hj1
      · rw [elem_swap_other d i1 j1 k hil hjl hki1 (by omega)]
        exact hlo1 k hk (by omega)
    · intro k hk hkb
      by_cases hkj1 : k = j1
      · rw [hkj1, elem_swap_right d i1 j1 hil hjl]; exact hi1
      · rw [elem_swap_other d i1 j1 k hil hjl (by omega) hkj1]
        exact hhi1 k (by omega) hkb

theorem partitionLoop_spec (cmp : α → α → Int) (d0 : List α)
    (a b : Nat) (pv : α) (hb : b ≤ d0.length) :
    ∀ (n i j : Nat) (d : List α), j + 1 ≤ i + n → PartInv cmp d0 d a b pv i j →
      PartInv cmp d0 (partitionLoop cmp a n i j d).1 a b pv
        ((partitionLoop cmp a n i j d).2 + 1) (partitionLoop cmp a n i j d).2 := by
  intro n
  induction n with
  | zero =>
    intro i j d hn hinv
    unfold partitionLoop
    obtain ⟨hw, hpv, hai, hij, hjb, hlo, hhi⟩ := hinv
    have e : i = j + 1 := by omega
    subst e
    exact ⟨hw, hpv, hai, le_refl _, hjb, hlo, hhi⟩
  | succ n ih =>
    intro i j d hn hinv
    unfold partitionLoop
    have hs := partition_step cmp d0 d a b pv i j hb hinv
    simp only [] at hs ⊢
    split
    · rename_i hgt
      exact hs.1 hgt
    · rename_i hgt
      obtain ⟨h1, h2, h3, h4⟩ := hs.2 hgt
      exact ih _ _ _ (by omega) h4

theorem partitionCmpFunc_spec (cmp : α → α → Int) (data : List α)
    (a b pivot : Nat) (hap : a ≤ pivot) (hpb : pivot < b) (hb : b ≤ data.length) :
    Within data (partitionCmpFunc cmp data a b pivot).1 a b ∧
    a ≤ (partitionCmpFunc cmp data a b pivot).2.1 ∧
    (partitionCmpFunc cmp data a b pivot).2.1 < b ∧
    (∀ k, a ≤ k → k < (partitionCmpFunc cmp data a b pivot).2.1 →
      cmp (elem (partitionCmpFunc cmp data a b pivot).1 k)
        (elem (partitionCmpFunc cmp data a b pivot).1
          (partitionCmpFunc cmp data a b pivot).2.1) < 0) ∧
    (∀ k, (partitionCmpFunc cmp data a b pivot).2.1 < k → k < b →
      ¬ cmp (elem (partitionCmpFunc cmp data a b pivot).1 k)
        (elem (partitionCmpFunc cmp data a b pivot).1
          (partitionCmpFunc cmp data a b pivot).2.1) < 0) := by
  have hal : a < data.length := by omega
  have hpl : pivot < data.length := by omega
  -- the state after moving the pivot to the front
  have hinv0 : PartInv cmp data (swap data a pivot) a b (elem data pivot) (a + 1) (b - 1) :=
    ⟨Within.swap data hb (le_refl _) (by omega) hap hpb, elem_swap_left data a pivot hal hpl,
      le_refl _, by omega, by omega, fun k h1 h2 => by omega, fun k h1 h2 => by omega⟩
  -- the end of either branch
  have hfin : ∀ (d : List α) (j : Nat),
      PartInv cmp data d a b (elem data pivot) (j + 1) j →
      Within data (swap d j a) a b ∧ a ≤ j ∧ j < b ∧
      (∀ k, a ≤ k → k < j → cmp (elem (swap d j a) k) (elem (swap d j a) j) < 0) ∧
      (∀ k, j < k → k < b → ¬ cmp (elem (swap d j a) k) (elem (swap d j a) j) < 0) := by
    intro d j hinv
    obtain ⟨hw, hpv, hai, _, hjb, hlo, hhi⟩ := hinv
    have hjl : j < d.length := by rw [hw.1]; omega
    have hal2 : a < d.length := by rw [hw.1]; omega
    refine ⟨hw.trans (Within.swap d (by rw [hw.1]; exact hb) (by omega) hjb (le_refl _)
      (by omega)), by omega, hjb, ?_, ?_⟩
    · intro k hk hkj
      rw [elem_swap_left d j a hjl hal2, hpv]
      by_cases hka : k = a
      · rw [hka, elem_swap_right d j a hjl hal2]
        exact hlo j (by omega) (by omega)
      · rw [elem_swap_other d j a k hjl hal2 (by omega) hka]
        exact hlo k (by omega) (by omega)
    · intro k hk hkb
      rw [elem_swap_left d j a hjl hal2, hpv,
        elem_swap_other d j a k hjl hal2 (by omega) (by omega)]
      exact hhi k hk hkb
  have hs := partition_step cmp data (swap data a pivot) a b (elem data pivot)
    (a + 1) (b - 1) hb hinv0
  unfold partitionCmpFunc
  simp only [] at hs ⊢
  split
  · rename_i hgt
    exact hfin _ _ (hs.1 hgt)
  · rename_i hgt
    obtain ⟨h1, h2, h3, h4⟩ := hs.2 hgt
    exact hfin _ _ (partitionLoop_spec cmp data a b (elem data pivot) hb _ _ _ _
      (by omega) h4)

/-! ### Partition into elements equal to the pivot and greater ones -/

theorem partitionEqual_step (cmp : α → α → Int) (d0 d : List α)
    (a b : Nat) (pv : α) (i j : Nat) (hb : b ≤ d0.length)
    (hinv : PartEqInv cmp d0 d a b pv i j) :
    let i1 := scanUp (fun k => !less cmp d a k) j (j + 1 - i) i
    let j1 := scanDown (fun k => less cmp d a k) i1 (j + 1 - i1) j
    (i1 > j1 → PartEqInv cmp d0 d a b pv i1 (i1 - 1)) ∧
    (¬ i1 > j1 → i1 < j1 ∧ j1 ≤ j ∧ i ≤ i1 ∧
      PartEqInv cmp d0 (swap d i1 j1) a b pv (i1 + 1) (j1 - 1)) := by
  intro i1 j1
  obtain ⟨hw, hpv, hai, hij, hjb, hlo, hhi⟩ := hinv
  obtain ⟨u1, u2, u3, u4⟩ := scanUp_spec (fun k => !less cmp d a k) j (j + 1 - i) i (by omega)
  have u2 := u2 hij
  obtain ⟨v1, v2, v3, v4⟩ :=
    scanDown_spec (fun k => less cmp d a k) i1 (by omega) (j + 1 - i1) j (by omega)
  have v2 := v2 u2
  have hlo1 : ∀ k, a < k → k < i1 → ¬ cmp pv (elem d k) < 0 := by
    intro k hk hki
    by_cases h : k < i
    · exact hlo k hk h
    · have := (not_less_true_iff cmp d a k).1 (u3 k (by omega) hki)
      rwa [hpv] at this
  have hhi1 : ∀ k, j1 < k → k < b → cmp pv (elem d k) < 0 := by
    intro k hk hkb
    by_cases h : j < k
    · exact hhi k h hkb
    · have := (less_iff cmp d a k).1 (v3 k hk (by omega))
      rwa [hpv] at this
  constructor
  · intro hgt
    have e : i1 = j1 + 1 := by omega
    exact ⟨hw, hpv, by omega, by omega, by omega, hlo1,
      fun k hk hk2 => hhi1 k (by omega) hk2⟩
  · intro hle
    have hle2 : i1 ≤ j1 := by omega
    have hi1 : cmp pv (elem d i1) < 0 := by
      have := (not_less_false_iff cmp d a i1).1 (u4 (by omega))
      rwa [hpv] at this
    have hj1 : ¬ cmp pv (elem d j1) < 0 := by
      have := (less_false_iff cmp d a j1).1 (v4 hle2)
      rwa [hpv] at this
    have hne : i1 ≠ j1 := by
      intro h; rw [h] at hi1; exact hj1 hi1
    have hlen : d.length = d0.length := hw.1
    have hil : i1 < d.length := by omega
    have hjl : j1 < d.length := by omega
    refine ⟨by omega, v1, u1, ?_⟩
    refine ⟨hw.trans (Within.swap d (by omega) (by omega) (by omega) (by omega) (by omega)),
      ?_, by omega, by omega, by omega, ?_, ?_⟩
    · rw [elem_swap_other d i1 j1 a hil hjl (by omega) (by omega)]; exact hpv
    · intro k hk hki
      by_cases hki1 : k = i1
      · rw [hki1, elem_swap_left d i1 j1 hil hjl]; exact hj1
      · rw [elem_swap_other d i1 j1 k hil hjl hki1 (by omega)]
        exact hlo1 k hk (by omega)
    · intro k hk hkb
      by_cases hkj1 : k = j1
      · rw [hkj1, elem_swap_right d i1 j1 hil hjl]; exact hi1
      · rw [elem_swap_other d i1 j1 k hil hjl (by omega) hkj1]
        exact hhi1 k (by omega) hkb

theorem partitionEqualLoop_spec (cmp : α → α → Int) (d0 : List α)
    (a b : Nat) (pv : α) (hb : b ≤ d0.length) :
    ∀ (n i j : Nat) (d : List α), j + 1 ≤ i + n → PartEqInv cmp d0 d a b pv i j →
      PartEqInv cmp d0 (partitionEqualLoop cmp a n i j d).1 a b pv
        (partitionEqualLoop cmp a n i j d).2 ((partitionEqualLoop cmp a n i j d).2 - 1) := by
  intro n
  induction n with
  | zero =>
    intro i j d hn hinv
    unfold partitionEqualLoop
    obtain ⟨hw, hpv, hai, hij, hjb, hlo, hhi⟩ := hinv
    have e : i = j + 1 := by omega
    subst e
    exact ⟨hw, hpv, hai, by omega, by simpa using hjb, hlo, by simpa using hhi⟩
  | succ n ih =>
    intro i j d hn hinv
    unfold partitionEqualLoop
    have hs := partitionEqual_step cmp d0 d a b pv i j hb hinv
    simp only [] at hs ⊢
    split
    · rename_i hgt
      exact hs.1 hgt
    · rename_i hgt
      obtain ⟨h1, h2, h3, h4⟩ := hs.2 hgt
      exact ih _ _ _ (by omega) h4

theorem partitionEqualCmpFunc_spec (cmp : α → α → Int) (hcmp : StrictWeak cmp)
    (data : List α) (a b pivot : Nat) (hap : a ≤ pivot) (hpb : pivot < b)
    (hb : b ≤ data.length) :
    Within data (partitionEqualCmpFunc cmp data a b pivot).1 a b ∧
    a < (partitionEqualCmpFunc cmp data a b pivot).2 ∧
    (partitionEqualCmpFunc cmp data a b pivot).2 ≤ b ∧
    (∀ k, a ≤ k → k < (partitionEqualCmpFunc cmp data a b pivot).2 →
      ¬ cmp (elem data pivot) (elem (partitionEqualCmpFunc cmp data a b pivot).1 k) < 0) ∧
    (∀ k, (partitionEqualCmpFunc cmp data a b pivot).2 ≤ k → k < b →
      cmp (elem data pivot) (elem (partitionEqualCmpFunc cmp data a b pivot).1 k) < 0) := by
  have hal : a < data.length := by omega
  have hpl : pivot < data.length := by omega
  have hinv0 : PartEqInv cmp data (swap data a pivot) a b (elem data pivot) (a + 1) (b - 1) :=
    ⟨Within.swap data hb (le_refl _) (by omega) hap hpb, elem_swap_left data a pivot hal hpl,
      le_refl _, by omega, by omega, fun k h1 h2 => by omega, fun k h1 h2 => by omega⟩
  have h := partitionEqualLoop_spec cmp data a b (elem data pivot) hb (b - a) (a + 1) (b - 1)
    (swap data a pivot) (by omega) hinv0
  unfold partitionEqualCmpFunc
  simp only []
  generalize partitionEqualLoop cmp a (b - a) (a + 1) (b - 1) (swap data a pivot) = r at h ⊢
  obtain ⟨h1, e, h2, h3, h4, h5, h6⟩ := h
  refine ⟨h1, h2, by omega, ?_, fun k hk hkb => h6 k (by omega) hkb⟩
  intro k hk hkr
  by_cases hka : k = a
  · rw [hka, e]; exact hcmp.irrefl _
  · exact h5 k (by omega) hkr

end PartitionProofs

section PatternProofs

variable {α : Type} [Inhabited α]

/-! ### Partial insertion sort -/

theorem LowerBound.within {cmp : α → α → Int} {d1 d2 : List α} {a b : Nat}
    (h : LowerBound cmp d1 a b) (hw : Within d1 d2 a b) : LowerBound cmp d2 a b := by
  intro ha k hk hkb
  rw [hw.2.1 (a - 1) (by omega)]
  exact hw.forall (fun x => ¬ cmp x (elem d1 (a - 1)) < 0) (h ha) k hk hkb

/-- With a lower bound just before `a`, the shifting loop that stops at index 1 does
what the loop that stops at `a + 1` does. -/
theorem insertDown_zero_eq (cmp : α → α → Int) (a b : Nat) :
    ∀ (j : Nat) (data : List α), b ≤ data.length → a ≤ j → j < b →
      LowerBound cmp data a b → insertDown cmp 0 j data = insertDown cmp a j data := by
  intro j
  induction j with
  | zero => intro data _ _ _ _; rfl
  | succ j ih =>
    intro data hb haj hjb hlb
    by_cases hja : a = j + 1
    · have hnl : less cmp data (j + 1) j = false := by
        rw [less_false_iff]
        have := hlb (by omega) (j + 1) (by omega) hjb
        rwa [show a - 1 = j by omega] at this
      unfold insertDown
      simp [hnl]
    · have hgt : j + 1 > a := by omega
      unfold insertDown
      by_cases hl : less cmp data (j + 1) j = true
      · simp only [hl, and_true, hgt, Nat.succ_pos, if_true, gt_iff_lt]
        exact ih _ (by rw [length_swap]; exact hb) (by omega) (by omega)
          (hlb.within (Within.swap data hb (by omega) hjb (by omega) (by omega)))
      · simp [hl]

theorem shiftUp_within (cmp : α → α → Int) (lo b : Nat) :
    ∀ (n j : Nat) (data : List α), b ≤ data.length → lo < j →
      Within data (shiftUp cmp b n j data) lo b := by
  intro n
  induction n with
  | zero => intro j data _ _; exact Within.refl _ _ _
  | succ n ih =>
    intro j data hb hj
    unfold shiftUp
    split
    · rename_i hjb
      split
      · exact Within.refl _ _ _
      · exact (Within.swap data hb (by omega) hjb (by omega) (by omega)).trans
          (ih (j + 1) _ (by rw [length_swap]; exact hb) (by omega))
    · exact Within.refl _ _ _

/-- A slice whose adjacent elements are in order is sorted. -/
theorem sortedOn_of_adjacent {cmp : α → α → Int} (hcmp : StrictWeak cmp) {data : List α}
    {a b : Nat} (h : ∀ k, a < k → k < b → ¬ cmp (elem data k) (elem data (k - 1)) < 0) :
    SortedOn cmp data a b := by
  intro i j hi hij hj
  induction j with
  | zero => omega
  | succ j ih =>
    by_cases hij2 : i = j
    · subst hij2
      exact h (i + 1) (by omega) hj
    · have h1 := ih (by omega) (by omega)
      have h2 := h (j + 1) (by omega) hj
      exact hcmp.negTrans _ _ _ h2 h1

theorem partialInsertionLoop_spec (cmp : α → α → Int) (hcmp : StrictWeak cmp) (a b : Nat) :
    ∀ (steps i : Nat) (data : List α), b ≤ data.length → a < i → i ≤ b →
      LowerBound cmp data a b → SortedOn cmp data a i →
      Within data (partialInsertionLoop cmp a b steps i data).1 a b ∧
      ((partialInsertionLoop cmp a b steps i data).2 = true →
        SortedOn cmp (partialInsertionLoop cmp a b steps i data).1 a b) := by
  intro steps
  induction steps with
  | zero =>
    intro i data _ _ _ _ _
    unfold partialInsertionLoop
    exact ⟨Within.refl _ _ _, fun h => by cases h⟩
  | succ steps ih =>
    intro i data hb hai hib hlb hs
    unfold partialInsertionLoop
    obtain ⟨u1, u2, u3, u4⟩ :=
      scanUp_spec (fun k => !less cmp data k (k - 1)) (b - 1) (b - i) i (by omega)
    have u2 := u2 (by omega)
    generalize scanUp (fun k => !less cmp data k (k - 1)) (b - 1) (b - i) i = i1 at *
    have hs1 : SortedOn cmp data a i1 := by
      apply sortedOn_of_adjacent hcmp
      intro k hk hki
      by_cases h : k < i
      · exact hs (k - 1) k (by omega) (by omega) h
      · exact (not_less_true_iff cmp data k (k - 1)).1 (u3 k (by omega) hki)
    simp only []
    split
    · rename_i he
      subst he
      exact ⟨Within.refl _ _ _, fun _ => hs1⟩
    · rename_i hne
      split
      · exact ⟨Within.refl _ _ _, fun h => by cases h⟩
      · have hi1b : i1 < b := by omega
        have hw1 : Within data (swap data i1 (i1 - 1)) a b :=
          Within.swap data hb (by omega) hi1b (by omega) (by omega)
        have hlen1 : b ≤ (swap data i1 (i1 - 1)).length := by rw [length_swap]; exact hb
        have hil : i1 < data.length := by omega
        have hil1 : i1 - 1 < data.length := by omega
        -- the prefix before the swapped pair is still sorted
        have hs2 : SortedOn cmp (swap data i1 (i1 - 1)) a (i1 - 1) := by
          apply (hs1.subrange (le_refl a) (by omega)).congr
          intro k hk hk2
          exact elem_swap_other data _ _ k hil hil1 (by omega) (by omega)
        -- shifting the smaller element to the left
        obtain ⟨d2, hd2, hw2, hs3⟩ : ∃ d2,
            d2 = (if i1 - a ≥ 2 then insertDown cmp 0 (i1 - 1) (swap data i1 (i1 - 1))
              else swap data i1 (i1 - 1)) ∧
            Within (swap data i1 (i1 - 1)) d2 a b ∧ SortedOn cmp d2 a i1 := by
          refine ⟨_, rfl, ?_⟩
          split
          · rename_i h2
            rw [insertDown_zero_eq cmp a b (i1 - 1) _ hlen1 (by omega) (by omega)
              (hlb.within hw1)]
            have hs4 : SortedExcept cmp (swap data i1 (i1 - 1)) a (i1 - 1 + 1) (i1 - 1) :=
              SortedExcept.of_sortedOn hs2
            have e : i1 - 1 + 1 = i1 := by omega
            rw [e] at hs4
            exact ⟨(insertDown_within cmp a i1 (i1 - 1) _ (by omega) (by omega)
                (by omega)).mono (le_refl a) (by omega),
              insertDown_sorted cmp hcmp a i1 (i1 - 1) _ (by omega) (by omega) (by omega) hs4⟩
          · rename_i h2
            refine ⟨Within.refl _ _ _, ?_⟩
            intro p q hp hpq hq
            omega
        rw [← hd2]
        have hlen2 : b ≤ d2.length := by rw [hw2.1]; exact hlen1
        -- shifting the greater element to the right
        obtain ⟨d3, hd3, hw3⟩ : ∃ d3,
            d3 = (if b - i1 ≥ 2 then shiftUp cmp b (b - (i1 + 1)) (i1 + 1) d2 else d2) ∧
            Within d2 d3 i1 b := by
          refine ⟨_, rfl, ?_⟩
          split
          · exact shiftUp_within cmp i1 b _ _ d2 hlen2 (by omega)
          · exact Within.refl _ _ _
        rw [← hd3]
        have hw13 : Within data d3 a b := hw1.trans (hw2.trans (hw3.mono (by omega) (le_refl b)))
        have hs5 : SortedOn cmp d3 a i1 :=
          hs3.congr (fun k _ hk2 => hw3.2.1 k (Or.inl hk2))
        have hrec := ih i1 d3 (by rw [hw13.1]; exact hb) (by omega) (by omega)
          (hlb.within hw13) hs5
        exact ⟨hw13.trans hrec.1, hrec.2⟩

theorem partialInsertionSortCmpFunc_spec (cmp : α → α → Int) (hcmp : StrictWeak cmp)
    (data : List α) (a b : Nat) (hab : a < b) (hb : b ≤ data.length)
    (hlb : LowerBound cmp data a b) :
    Within data (partialInsertionSortCmpFunc cmp data a b).1 a b ∧
    ((partialInsertionSortCmpFunc cmp data a b).2 = true →
      SortedOn cmp (partialInsertionSortCmpFunc cmp data a b).1 a b) :=
  partialInsertionLoop_spec cmp hcmp a b 5 (a + 1) data hb (by omega) (by omega) hlb
    (fun i j hi hij hj => by omega)

/-! ### Breaking patterns, reversing, choosing the pivot -/

theorem bitsLenAux_le (n : Nat) : ∀ x, 0 < x → x ≤ n → 2 ^ bitsLenAux n x ≤ 2 * x := by
  induction n with
  | zero => intro x h0 hx; omega
  | succ n ih =>
    intro x h0 hx
    unfold bitsLenAux
    have hx0 : x ≠ 0 := by omega
    simp only [hx0, if_false]
    by_cases h1 : x / 2 = 0
    · rw [h1]
      have : bitsLenAux n 0 = 0 := by
        cases n with
        | zero => rfl
        | succ m => simp [bitsLenAux]
      rw [this]; omega
    · have := ih (x / 2) (by omega) (by omega)
      rw [pow_succ]
      omega

theorem nextPowerOfTwo_le (length : Nat) (h : 0 < length) :
    nextPowerOfTwo length ≤ 2 * length :=
  bitsLenAux_le length length h (le_refl _)

theorem breakPatternsLoop_within (a b length modulus idx : Nat) (hlen : 0 < length)
    (hab : a + length = b) (hmod : modulus ≤ 2 * length) (hidx : a + 1 ≤ idx)
    (hidx2 : idx + 2 ≤ b) :
    ∀ (n i random : Nat) (data : List α), b ≤ data.length → i + n ≤ 3 →
      Within data (breakPatternsLoop a length modulus idx n i random data) a b := by
  intro n
  induction n with
  | zero => intro i random data _ _; exact Within.refl _ _ _
  | succ n ih =>
    intro i random data hb hin
    unfold breakPatternsLoop
    simp only []
    have hand : xorshiftNext random &&& (modulus - 1) ≤ modulus - 1 := Nat.and_le_right
    have hother : (if xorshiftNext random &&& (modulus - 1) ≥ length
        then (xorshiftNext random &&& (modulus - 1)) - length
        else xorshiftNext random &&& (modulus - 1)) < length := by
      split <;> omega
    exact (Within.swap data hb (by omega) (by omega) (by omega) (by omega)).trans
      (ih (i + 1) _ _ (by rw [length_swap]; exact hb) (by omega))

theorem breakPatternsCmpFunc_within (data : List α) (a b : Nat) (hab : a ≤ b)
    (hb : b ≤ data.length) : Within data (breakPatternsCmpFunc data a b) a b := by
  unfold breakPatternsCmpFunc
  simp only []
  split
  · rename_i h8
    exact breakPatternsLoop_within a b (b - a) _ _ (by omega) (by omega)
      (nextPowerOfTwo_le (b - a) (by omega)) (by omega) (by omega) 3 0 _ data hb (by omega)
  · exact Within.refl _ _ _

theorem reverseLoop_within (a b : Nat) :
    ∀ (n i j : Nat) (data : List α), b ≤ data.length → a ≤ i → j < b →
      Within data (reverseLoop n i j data) a b := by
  intro n
  induction n with
  | zero => intro i j data _ _ _; exact Within.refl _ _ _
  | succ n ih =>
    intro i j data hb hi hj
    unfold reverseLoop
    split
    · exact (Within.swap data hb hi (by omega) (by omega) hj).trans
        (ih (i + 1) (j - 1) _ (by rw [length_swap]; exact hb) (by omega) (by omega))
    · exact Within.refl _ _ _

theorem reverseRangeCmpFunc_within (data : List α) (a b : Nat) (hab : a < b)
    (hb : b ≤ data.length) : Within data (reverseRangeCmpFunc data a b) a b :=
  reverseLoop_within a b (b - a) a (b - 1) data hb (le_refl a) (by omega)

theorem order2CmpFunc_mem (cmp : α → α → Int) (data : List α) (x y s : Nat) :
    ((order2CmpFunc cmp data x y s).1 = x ∧ (order2CmpFunc cmp data x y s).2.1 = y) ∨
    ((order2CmpFunc cmp data x y s).1 = y ∧ (order2CmpFunc cmp data x y s).2.1 = x) := by
  unfold order2CmpFunc
  split <;> simp

theorem medianCmpFunc_mem (cmp : α → α → Int) (data : List α) (x y z s : Nat) :
    (medianCmpFunc cmp data x y z s).1 = x ∨ (medianCmpFunc cmp data x y z s).1 = y ∨
    (medianCmpFunc cmp data x y z s).1 = z := by
  unfold medianCmpFunc
  simp only []
  rcases order2CmpFunc_mem cmp data x y s with h1 | h1 <;>
  rcases order2CmpFunc_mem cmp data (order2CmpFunc cmp data x y s).2.1 z
    (order2CmpFunc cmp data x y s).2.2 with h2 | h2 <;>
  rcases order2CmpFunc_mem cmp data (order2CmpFunc cmp data x y s).1
    (order2CmpFunc cmp data (order2CmpFunc cmp data x y s).2.1 z
      (order2CmpFunc cmp data x y s).2.2).1
    (order2CmpFunc cmp data (order2CmpFunc cmp data x y s).2.1 z
      (order2CmpFunc cmp data x y s).2.2).2.2 with h3 | h3 <;>
  simp_all

theorem choosePivotCmpFunc_bounds (cmp : α → α → Int) (data : List α) (a b : Nat)
    (h : a + 8 ≤ b) :
    a ≤ (choosePivotCmpFunc cmp data a b).1 ∧ (choosePivotCmpFunc cmp data a b).1 < b := by
  have key : ∀ r : Nat × Nat, (a ≤ r.1 ∧ r.1 < b) →
      a ≤ (if r.2 = 0 then (r.1, sortedHint.increasingHint)
        else if r.2 = 4 * 3 then (r.1, sortedHint.decreasingHint)
        else (r.1, sortedHint.unknownHint)).1 ∧
      (if r.2 = 0 then (r.1, sortedHint.increasingHint)
        else if r.2 = 4 * 3 then (r.1, sortedHint.decreasingHint)
        else (r.1, sortedHint.unknownHint)).1 < b := by
    intro r hr
    split
    · exact hr
    · split <;> exact hr
  unfold choosePivotCmpFunc
  simp only []
  apply key
  have h8 : b - a ≥ 8 := by omega
  simp only [h8, if_true]
  split
  · rename_i h50
    unfold medianAdjacentCmpFunc
    have m1 := medianCmpFunc_mem cmp data (a + (b - a) / 4 * 1 - 1) (a + (b - a) / 4 * 1)
      (a + (b - a) / 4 * 1 + 1) 0
    generalize medianCmpFunc cmp data (a + (b - a) / 4 * 1 - 1) (a + (b - a) / 4 * 1)
      (a + (b - a) / 4 * 1 + 1) 0 = ri at *
    have m2 := medianCmpFunc_mem cmp data (a + (b - a) / 4 * 2 - 1) (a + (b - a) / 4 * 2)
      (a + (b - a) / 4 * 2 + 1) ri.2
    generalize medianCmpFunc cmp data (a + (b - a) / 4 * 2 - 1) (a + (b - a) / 4 * 2)
      (a + (b - a) / 4 * 2 + 1) ri.2 = rj at *
    have m3 := medianCmpFunc_mem cmp data (a + (b - a) / 4 * 3 - 1) (a + (b - a) / 4 * 3)
      (a + (b - a) / 4 * 3 + 1) rj.2
    generalize medianCmpFunc cmp data (a + (b - a) / 4 * 3 - 1) (a + (b - a) / 4 * 3)
      (a + (b - a) / 4 * 3 + 1) rj.2 = rk at *
    have m4 := medianCmpFunc_mem cmp data ri.1 rj.1 rk.1 rk.2
    generalize medianCmpFunc cmp data ri.1 rj.1 rk.1 rk.2 = rm at *
    omega
  · have m := medianCmpFunc_mem cmp data (a + (b - a) / 4 * 1) (a + (b - a) / 4 * 2)
      (a + (b - a) / 4 * 3) 0
    generalize medianCmpFunc cmp data (a + (b - a) / 4 * 1) (a + (b - a) / 4 * 2)
      (a + (b - a) / 4 * 3) 0 = rm at *
    omega

end PatternProofs

section PdqsortUnfold

variable {α : Type} [Inhabited α]

/-! ### Pattern-defeating quicksort -/

/-- One iteration of the loop of `pdqsortCmpFunc`, with names for the values it
computes on the way. -/
theorem pdqsortCmpFunc_succ (cmp : α → α → Int) (n : Nat) (data : List α)
    (a b limit : Nat) (wasBalanced wasPartitioned : Bool)
    (d1 : List α) (limit1 : Nat) (ph : Nat × sortedHint) (d2 : List α) (pivot : Nat)
    (hint : sortedHint) (pi : List α × Bool) (pe : List α × Nat) (pt : List α × Nat × Bool)
    (hd1 : d1 = if !wasBalanced then breakPatternsCmpFunc data a b else data)
    (hl1 : limit1 = if !wasBalanced then limit - 1 else limit)
    (hph : ph = choosePivotCmpFunc cmp d1 a b)
    (hd2 : d2 = if ph.2 = sortedHint.decreasingHint then reverseRangeCmpFunc d1 a b else d1)
    (hpivot : pivot = if ph.2 = sortedHint.decreasingHint then (b - 1) - (ph.1 - a) else ph.1)
    (hhint : hint =
      if ph.2 = sortedHint.decreasingHint then sortedHint.increasingHint else ph.2)
    (hpi : pi = if wasBalanced && wasPartitioned && hint = sortedHint.increasingHint
      then partialInsertionSortCmpFunc cmp d2 a b else (d2, false))
    (hpe : pe = partitionEqualCmpFunc cmp pi.1 a b pivot)
    (hpt : pt = partitionCmpFunc cmp pi.1 a b pivot) :
    pdqsortCmpFunc cmp (n + 1) data a b limit wasBalanced wasPartitioned =
      if b - a ≤ 12 then some (insertionSortCmpFunc cmp data a b)
      else if limit = 0 then some (heapSortCmpFunc cmp data a b)
      else if pi.2 then some pi.1
      else if a > 0 ∧ ¬ less cmp pi.1 (a - 1) pivot then
        pdqsortCmpFunc cmp n pe.1 pe.2 b limit1 wasBalanced wasPartitioned
      else if pt.2.1 - a < b - pt.2.1 then
        match pdqsortCmpFunc cmp n pt.1 a pt.2.1 limit1 true true with
        | none => none
        | some data =>
          pdqsortCmpFunc cmp n data (pt.2.1 + 1) b limit1
            (decide (pt.2.1 - a ≥ (b - a) / 8)) pt.2.2
      else
        match pdqsortCmpFunc cmp n pt.1 (pt.2.1 + 1) b limit1 true true with
        | none => none
        | some data =>
          pdqsortCmpFunc cmp n data a pt.2.1 limit1
            (decide (b - pt.2.1 ≥ (b - a) / 8)) pt.2.2 := by
  subst hd1 hl1 hph hd2 hpivot hhint hpi hpe hpt
  rfl

end PdqsortUnfold

section PdqsortCorrect

variable {α : Type} [Inhabited α]

/-- A slice partitioned around the element at `mid`, with both sides sorted, is
sorted. -/
theorem sortedOn_of_partitioned {cmp : α → α → Int} (hcmp : StrictWeak cmp) {out : List α}
    {a mid b : Nat} (hl : SortedOn cmp out a mid) (hr : SortedOn cmp out (mid + 1) b)
    (hlo : ∀ k, a ≤ k → k < mid → cmp (elem out k) (elem out mid) < 0)
    (hhi : ∀ k, mid < k → k < b → ¬ cmp (elem out k) (elem out mid) < 0) :
    SortedOn cmp out a b := by
  intro p q hp hpq hq
  by_cases hqm : q < mid
  · exact hl p q hp hpq hqm
  · by_cases hpm : mid < p
    · exact hr p q (by omega) hpq hq
    · by_cases hq2 : q = mid
      · rw [hq2]; exact hcmp.asymm (hlo p hp (by omega))
      · by_cases hp2 : p = mid
        · rw [hp2]; exact hhi q (by omega) hq
        · intro hlt
          exact hhi q (by omega) hq (hcmp.trans _ _ _ hlt (hlo p hp (by omega)))

theorem pdqsortCmpFunc_spec (cmp : α → α → Int) (hcmp : StrictWeak cmp) :
    ∀ (n : Nat) (data : List α) (a b limit : Nat) (wasBalanced wasPartitioned : Bool),
      a ≤ b → b ≤ data.length → b - a < n → LowerBound cmp data a b →
      ∃ out, pdqsortCmpFunc cmp n data a b limit wasBalanced wasPartitioned = some out ∧
        Within data out a b ∧ SortedOn cmp out a b := by
  intro n
  induction n with
  | zero => intro data a b limit wb wp hab hb hn; omega
  | succ n ih =>
    intro data a b limit wb wp hab hb hn hlb
    obtain ⟨d1, hd1⟩ : ∃ d1, d1 = if !wb then breakPatternsCmpFunc data a b else data :=
      ⟨_, rfl⟩
    obtain ⟨limit1, hl1⟩ : ∃ l1, l1 = if !wb then limit - 1 else limit := ⟨_, rfl⟩
    obtain ⟨ph, hph⟩ : ∃ ph, ph = choosePivotCmpFunc cmp d1 a b := ⟨_, rfl⟩
    obtain ⟨d2, hd2⟩ : ∃ d2, d2 =
        if ph.2 = sortedHint.decreasingHint then reverseRangeCmpFunc d1 a b else d1 := ⟨_, rfl⟩
    obtain ⟨pivot, hpivot⟩ : ∃ pivot, pivot =
        if ph.2 = sortedHint.decreasingHint then (b - 1) - (ph.1 - a) else ph.1 := ⟨_, rfl⟩
    obtain ⟨hint, hhint⟩ : ∃ hint, hint =
        if ph.2 = sortedHint.decreasingHint then sortedHint.increasingHint else ph.2 :=
      ⟨_, rfl⟩
    obtain ⟨pi, hpi⟩ : ∃ pi, pi = if wb && wp && hint = sortedHint.increasingHint
        then partialInsertionSortCmpFunc cmp d2 a b else (d2, false) := ⟨_, rfl⟩
    obtain ⟨pe, hpe⟩ : ∃ pe, pe = partitionEqualCmpFunc cmp pi.1 a b pivot := ⟨_, rfl⟩
    obtain ⟨pt, hpt⟩ : ∃ pt, pt = partitionCmpFunc cmp pi.1 a b pivot := ⟨_, rfl⟩
    rw [pdqsortCmpFunc_succ cmp n data a b limit wb wp d1 limit1 ph d2 pivot hint pi pe pt
      hd1 hl1 hph hd2 hpivot hhint hpi hpe hpt]
    split
    · exact ⟨_, rfl, insertionSortCmpFunc_spec cmp hcmp data a b hb⟩
    · rename_i h12
      split
      · exact ⟨_, rfl, heapSortCmpFunc_spec cmp hcmp data a b hab hb⟩
      · rename_i hlim
        have hw1 : Within data d1 a b := by
          rw [hd1]; split
          · exact breakPatternsCmpFunc_within data a b hab hb
          · exact Within.refl _ _ _
        have hb1 : b ≤ d1.length := by rw [hw1.1]; exact hb
        have hphb : a ≤ ph.1 ∧ ph.1 < b := by
          rw [hph]; exact choosePivotCmpFunc_bounds cmp d1 a b (by omega)
        have hw2 : Within d1 d2 a b := by
          rw [hd2]; split
          · exact reverseRangeCmpFunc_within d1 a b (by omega) hb1
          · exact Within.refl _ _ _
        have hb2 : b ≤ d2.length := by rw [hw2.1]; exact hb1
        have hpv : a ≤ pivot ∧ pivot < b := by
          rw [hpivot]; split <;> omega
        have hlb2 : LowerBound cmp d2 a b := hlb.within (hw1.trans hw2)
        have hpis : Within d2 pi.1 a b ∧ (pi.2 = true → SortedOn cmp pi.1 a b) := by
          rw [hpi]; split
          · exact partialInsertionSortCmpFunc_spec cmp hcmp d2 a b (by omega) hb2 hlb2
          · exact ⟨Within.refl _ _ _, fun h => by cases h⟩
        have hw3 : Within data pi.1 a b := (hw1.trans hw2).trans hpis.1
        have hb3 : b ≤ pi.1.length := by rw [hw3.1]; exact hb
        have hlb3 : LowerBound cmp pi.1 a b := hlb.within hw3
        split
        · rename_i hsorted
          exact ⟨_, rfl, hw3, hpis.2 hsorted⟩
        · split
          · -- many elements equal to the pivot
            rename_i hcond
            have hpes := partitionEqualCmpFunc_spec cmp hcmp pi.1 a b pivot hpv.1 hpv.2 hb3
            rw [← hpe] at hpes
            obtain ⟨hwe, hmid1, hmid2, hle, hgt⟩ := hpes
            have hdp : ¬ cmp (elem pi.1 (a - 1)) (elem pi.1 pivot) < 0 := by
              intro h
              exact hcond.2 ((less_iff cmp pi.1 _ _).2 h)
            have hlbe : LowerBound cmp pe.1 a b := hlb3.within hwe
            have hrec := ih pe.1 pe.2 b limit1 wb wp hmid2 (by rw [hwe.1]; exact hb3)
              (by omega) (by
                intro _ k hk hkb
                intro hlt
                exact hle (pe.2 - 1) (by omega) (by omega)
                  (hcmp.trans _ _ _ (hgt k hk hkb) hlt))
            obtain ⟨out, ho, hwo, hso⟩ := hrec
            refine ⟨out, ho, hw3.trans (hwe.trans (hwo.mono (by omega) (le_refl b))), ?_⟩
            intro p q hp hpq hq
            by_cases hpm : pe.2 ≤ p
            · exact hso p q hpm hpq hq
            · rw [hwo.2.1 p (by omega)]
              have hxp := hle p hp (by omega)
              by_cases hqm : pe.2 ≤ q
              · have hy := hwo.forall (fun y => cmp (elem pi.1 pivot) y < 0) hgt q hqm hq
                intro hlt
                exact hxp (hcmp.trans _ _ _ hy hlt)
              · rw [hwo.2.1 q (by omega)]
                have hyd := hlbe hcond.1 q (by omega) hq
                rw [hwe.2.1 (a - 1) (by omega)] at hyd
                exact hcmp.negTrans _ _ _ (hcmp.negTrans _ _ _ hyd hdp) hxp
          · rename_i hcond
            have hpts := partitionCmpFunc_spec cmp pi.1 a b pivot hpv.1 hpv.2 hb3
            rw [← hpt] at hpts
            obtain ⟨hwt, hmid1, hmid2, hlo, hhi⟩ := hpts
            have hbt : b ≤ pt.1.length := by rw [hwt.1]; exact hb3
            have hlbt : LowerBound cmp pt.1 a b := hlb3.within hwt
            split
            · -- the left part first
              obtain ⟨o1, ho1, hwo1, hso1⟩ := ih pt.1 a pt.2.1 limit1 true true hmid1
                (by omega) (by omega) (fun h k hk hkb => hlbt h k hk (by omega))
              rw [ho1]
              simp only []
              obtain ⟨o2, ho2, hwo2, hso2⟩ := ih o1 (pt.2.1 + 1) b limit1
                (decide (pt.2.1 - a ≥ (b - a) / 8)) pt.2.2 (by omega)
                (by rw [hwo1.1]; exact hbt) (by omega) (by
                  intro _ k hk hkb
                  rw [hwo1.2.1 k (by omega), hwo1.2.1 (pt.2.1 + 1 - 1) (by omega)]
                  exact hhi k (by omega) hkb)
              refine ⟨o2, ho2, hw3.trans (hwt.trans ((hwo1.mono (le_refl a) (by omega)).trans
                (hwo2.mono (by omega) (le_refl b)))), ?_⟩
              have hm : elem o2 pt.2.1 = elem pt.1 pt.2.1 := by
                rw [hwo2.2.1 _ (by omega), hwo1.2.1 _ (by omega)]
              apply sortedOn_of_partitioned hcmp
                (hso1.congr (fun k _ hk2 => hwo2.2.1 k (by omega))) hso2
              · intro k hk hkm
                rw [hm, hwo2.2.1 k (by omega)]
                exact hwo1.forall (fun x => cmp x (elem pt.1 pt.2.1) < 0) hlo k hk hkm
              · intro k hk hkb
                rw [hm]
                apply hwo2.forall (fun x => ¬ cmp x (elem pt.1 pt.2.1) < 0) _ k (by omega) hkb
                intro i hi hib
                rw [hwo1.2.1 i (by omega)]
                exact hhi i (by omega) hib
            · -- the right part first
              obtain ⟨o1, ho1, hwo1, hso1⟩ := ih pt.1 (pt.2.1 + 1) b limit1 true true
                (by omega) hbt (by omega) (by
                  intro _ k hk hkb
                  rw [show pt.2.1 + 1 - 1 = pt.2.1 by omega]
                  exact hhi k (by omega) hkb)
              rw [ho1]
              simp only []
              obtain ⟨o2, ho2, hwo2, hso2⟩ := ih o1 a pt.2.1 limit1
                (decide (b - pt.2.1 ≥ (b - a) / 8)) pt.2.2 hmid1
                (by rw [hwo1.1]; omega) (by omega) (by
                  intro h k hk hkb
                  rw [hwo1.2.1 k (by omega), hwo1.2.1 (a - 1) (by omega)]
                  exact hlbt h k hk (by omega))
              refine ⟨o2, ho2, hw3.trans (hwt.trans ((hwo1.mono (by omega) (le_refl b)).trans
                (hwo2.mono (le_refl a) (by omega)))), ?_⟩
              have hm : elem o2 pt.2.1 = elem pt.1 pt.2.1 := by
                rw [hwo2.2.1 _ (by omega), hwo1.2.1 _ (by omega)]
              apply sortedOn_of_partitioned hcmp hso2
                (hso1.congr (fun k hk1 _ => hwo2.2.1 k (by omega)))
              · intro k hk hkm
                rw [hm]
                apply hwo2.forall (fun x => cmp x (elem pt.1 pt.2.1) < 0) _ k hk hkm
                intro i hi hib
                rw [hwo1.2.1 i (by omega)]
                exact hlo i hi hib
              · intro k hk hkb
                rw [hm, hwo2.2.1 k (by omega)]
                exact hwo1.forall (fun x => ¬ cmp x (elem pt.1 pt.2.1) < 0)
                  (fun i hi hib => hhi i (by omega) hib) k (by omega) hkb

end PdqsortCorrect

section SortFuncProofs

variable {α : Type} [Inhabited α]

/-! ### `slices.SortFunc` -/

/-- The counter `SortFunc` gives to `pdqsortCmpFunc` is never used up, and the result
is a sorted rearrangement of the slice. -/
theorem pdqsortCmpFunc_isSome (cmp : α → α → Int) (hcmp : StrictWeak cmp) (x : List α) :
    pdqsortCmpFunc cmp (x.length + 1) x 0 x.length (bitsLen x.length) true true =
      some (SortFunc x cmp) ∧
    Within x (SortFunc x cmp) 0 x.length ∧ SortedOn cmp (SortFunc x cmp) 0 x.length := by
  obtain ⟨out, ho, hw, hs⟩ := pdqsortCmpFunc_spec cmp hcmp (x.length + 1) x 0 x.length
    (bitsLen x.length) true true (Nat.zero_le _) (le_refl _) (by omega)
    (fun h => absurd h (lt_irrefl 0))
  have e : SortFunc x cmp = out := by
    unfold SortFunc
    simp only []
    rw [ho]; rfl
  rw [e]
  exact ⟨ho, hw, hs⟩

theorem SortFunc_length (cmp : α → α → Int) (hcmp : StrictWeak cmp) (x : List α) :
    (SortFunc x cmp).length = x.length :=
  (pdqsortCmpFunc_isSome cmp hcmp x).2.1.1

/-- The slice after `slices.SortFunc` is a rearrangement of the slice before. -/
theorem SortFunc_perm (cmp : α → α → Int) (hcmp : StrictWeak cmp) (x : List α) :
    (SortFunc x cmp).Perm x :=
  (pdqsortCmpFunc_isSome cmp hcmp x).2.1.2.2.2

/-- After `slices.SortFunc`, no element is less than an earlier one. -/
theorem SortFunc_pairwise (cmp : α → α → Int) (hcmp : StrictWeak cmp) (x : List α) :
    (SortFunc x cmp).Pairwise (fun u v => ¬ cmp v u < 0) := by
  obtain ⟨_, hw, hs⟩ := pdqsortCmpFunc_isSome cmp hcmp x
  rw [List.pairwise_iff_getElem]
  intro i j hi hj hij
  have := hs i j (Nat.zero_le _) hij (by rw [← hw.1]; exact hj)
  unfold elem at this
  rwa [List.getD_eq_getElem _ _ hi, List.getD_eq_getElem _ _ hj] at this

end SortFuncProofs

/-! ### The order of `LocalTime.Cmp` -/

theorem LocalTime.Cmp_neg_iff (l j : LocalTime) :
    l.Cmp j < 0 ↔
      (j.Time.sec < l.Time.sec ∨ (j.Time.sec = l.Time.sec ∧ j.Time.nsec < l.Time.nsec)) := by
  unfold LocalTime.Cmp Time.Equal Time.Before
  by_cases h1 : l.Time.sec = j.Time.sec <;> by_cases h2 : l.Time.nsec = j.Time.nsec <;>
    by_cases h3 : l.Time.sec < j.Time.sec <;> by_cases h4 : l.Time.nsec < j.Time.nsec <;>
    simp [h1, h2, h3, h4] <;> omega

theorem Time.After_iff (t u : Time) :
    t.After u = true ↔ (u.sec < t.sec ∨ (u.sec = t.sec ∧ u.nsec < t.nsec)) := by
  unfold Time.After
  simp only [Bool.or_eq_true, Bool.and_eq_true, decide_eq_true_eq, gt_iff_lt]
  constructor
  · rintro (h | ⟨h1, h2⟩)
    · exact Or.inl h
    · exact Or.inr ⟨h1.symm, h2⟩
  · rintro (h | ⟨h1, h2⟩)
    · exact Or.inl h
    · exact Or.inr ⟨h1.symm, h2⟩

theorem LocalTime.Cmp_neg_iff_After (l j : LocalTime) :
    l.Cmp j < 0 ↔ l.Time.After j.Time = true := by
  rw [LocalTime.Cmp_neg_iff, Time.After_iff]

/-- The comparison `readLog` sorts with is a strict weak ordering. -/
theorem entryCmp_strictWeak : StrictWeak (fun a b : Entry => a.Date.Cmp b.Date) where
  irrefl := by
    intro x
    simp only [LocalTime.Cmp_neg_iff]
    omega
  trans := by
    intro x y z
    simp only [LocalTime.Cmp_neg_iff]
    omega
  negTrans := by
    intro x y z
    simp only [LocalTime.Cmp_neg_iff]
    omega

theorem readLog_eq (p : Process) (cfg : Config) (h : readLog p = Except.ok cfg) :
    ∃ doc c0, p.Stdin = Stdin.document doc ∧ Unmarshal p.Local doc = Except.ok c0 ∧
      cfg = { c0 with Changelog := SortFunc c0.Changelog (fun a b => a.Date.Cmp b.Date) } := by
  unfold readLog at h
  split at h
  · cases h
  · cases h
  · rename_i doc hdoc
    split at h
    · cases h
    · rename_i c0 hc0
      refine ⟨doc, c0, hdoc, hc0, ?_⟩
      cases h
      rfl

section StabilityProofs

variable {α : Type} [Inhabited α]

/-! ### Insertion sort keeps tied elements in order -/

/-- Exchanging two neighbours that are not both selected by `P` does not change the
list of selected elements. -/
theorem swap_adjacent_filter (P : α → Bool) :
    ∀ (data : List α) (j : Nat), j + 1 < data.length →
      ¬ (P (elem data j) = true ∧ P (elem data (j + 1)) = true) →
      (swap data (j + 1) j).filter P = data.filter P := by
  intro data
  induction data with
  | nil => intro j h; simp at h
  | cons z rest ih =>
    intro j hj hP
    cases j with
    | zero =>
      cases rest with
      | nil => simp at hj
      | cons y post =>
        have e : swap (z :: y :: post) (0 + 1) 0 = y :: z :: post := by simp [swap, elem]
        rw [e]
        simp only [elem, List.getD_cons_zero, List.getD_cons_succ, zero_add] at hP
        simp only [List.filter_cons]
        by_cases hz : P z = true <;> by_cases hy : P y = true <;> simp_all
    | succ j =>
      rw [swap_cons_succ]
      simp only [elem_cons_succ] at hP
      simp only [List.length_cons] at hj
      simp only [List.filter_cons]
      rw [ih j (by omega) hP]

theorem insertDown_filter (cmp : α → α → Int) (a : Nat) (P : α → Bool)
    (hP : ∀ x y, P x = true → P y = true → ¬ cmp x y < 0) :
    ∀ (j : Nat) (data : List α), j < data.length →
      (insertDown cmp a j data).filter P = data.filter P := by
  intro j
  induction j with
  | zero => intro data _; rfl
  | succ j ih =>
    intro data hj
    unfold insertDown
    split
    · rename_i hc
      have hlt := (less_iff cmp data _ _).1 hc.2
      rw [ih _ (by rw [length_swap]; omega)]
      apply swap_adjacent_filter P data j hj
      intro hboth
      exact hP _ _ hboth.2 hboth.1 hlt
    · rfl

theorem insertionLoop_filter (cmp : α → α → Int) (a b : Nat) (P : α → Bool)
    (hP : ∀ x y, P x = true → P y = true → ¬ cmp x y < 0) :
    ∀ (n i : Nat) (data : List α), b ≤ data.length →
      (insertionLoop cmp a b n i data).filter P = data.filter P := by
  intro n
  induction n with
  | zero => intro i data _; rfl
  | succ n ih =>
    intro i data hb
    unfold insertionLoop
    split
    · rename_i hib
      have hlen : (insertDown cmp a i data).length = data.length := by
        by_cases hai : a ≤ i
        · exact (insertDown_within cmp a b i data hb hai hib).1
        · have : insertDown cmp a i data = data := by
            cases i with
            | zero => rfl
            | succ k =>
              unfold insertDown
              have : ¬ (k + 1 > a) := by omega
              simp [this]
          rw [this]
      rw [ih _ _ (by rw [hlen]; exact hb)]
      exact insertDown_filter cmp a P hP i data (by omega)
    · rfl

theorem insertionSortCmpFunc_filter (cmp : α → α → Int) (P : α → Bool)
    (hP : ∀ x y, P x = true → P y = true → ¬ cmp x y < 0)
    (data : List α) (a b : Nat) (hb : b ≤ data.length) :
    (insertionSortCmpFunc cmp data a b).filter P = data.filter P :=
  insertionLoop_filter cmp a b P hP _ _ data hb

/-- A slice of at most 12 elements is sorted by insertion sort alone. -/
theorem SortFunc_short (cmp : α → α → Int) (x : List α) (h : x.length ≤ 12) :
    SortFunc x cmp = insertionSortCmpFunc cmp x 0 x.length := by
  unfold SortFunc
  simp only []
  rw [pdqsortCmpFunc_succ cmp x.length x 0 x.length (bitsLen x.length) true true
    _ _ _ _ _ _ _ _ _ rfl rfl rfl rfl rfl rfl rfl rfl rfl]
  rw [if_pos (by omega)]
  rfl

end StabilityProofs

theorem equal_not_cmp_neg (t : Time) (x y : Entry) (hx : x.Date.Time.Equal t = true)
    (hy : y.Date.Time.Equal t = true) : ¬ x.Date.Cmp y.Date < 0 := by
  rw [LocalTime.Cmp_neg_iff]
  unfold Time.Equal at hx hy
  simp only [Bool.and_eq_true, decide_eq_true_eq] at hx hy
  omega

/-! ## The sort step of `readLog` -/

/-- C1: after the sort step of `readLog` the Changelog is non-increasing in timestamp:
the date of an entry is never strictly after the date of the entry before it (nor of
any earlier entry), so the newest entry comes first. -/
theorem readLog_newest_first (p : Process) (cfg : Config) (h : readLog p = Except.ok cfg) :
    cfg.Changelog.Chain' (fun e1 e2 => e2.Date.Time.After e1.Date.Time = false) ∧
    cfg.Changelog.Pairwise (fun e1 e2 => e2.Date.Time.After e1.Date.Time = false) := by
  obtain ⟨doc, c0, _, _, hcfg⟩ := readLog_eq p cfg h
  have hp : cfg.Changelog.Pairwise (fun e1 e2 => e2.Date.Time.After e1.Date.Time = false) := by
    rw [hcfg]
    refine (SortFunc_pairwise (fun a b : Entry => a.Date.Cmp b.Date) entryCmp_strictWeak
      c0.Changelog).imp ?_
    intro e1 e2 hle
    rw [LocalTime.Cmp_neg_iff_After] at hle
    simpa using hle
  exact ⟨hp.chain', hp⟩

theorem readLog_newest_first_witness :
    readLog (processOf threeEntries) = Except.ok threeSorted ∧
    threeSorted.Changelog.Chain' (fun e1 e2 => e2.Date.Time.After e1.Date.Time = false) ∧
    threeSorted.Changelog.Pairwise (fun e1 e2 => e2.Date.Time.After e1.Date.Time = false) :=
  ⟨rfl, readLog_newest_first (processOf threeEntries) threeSorted rfl⟩

/-- C2 (counterexample): of thirteen entries, twelve with the same timestamp, `readLog`
moves the entry `v6` in front of the entries `v1` to `v5` that have the same timestamp
and precede it in the document. -/
theorem readLog_reorders_ties :
    (loadedEntries (processOf thirteenEntries)).map Entry.Version =
      ["v0", "v1", "v2", "v3", "v4", "v5", "v6", "v7", "v8", "v9", "v10", "v11", "v12"] ∧
    (sortedEntries (processOf thirteenEntries)).map Entry.Version =
      ["v6", "v1", "v2", "v3", "v4", "v5", "v7", "v8", "v9", "v10", "v11", "v12", "v0"] ∧
    ¬ StableOrder (loadedEntries (processOf thirteenEntries))
      (sortedEntries (processOf thirteenEntries)) := by
  refine ⟨by decide!, by decide!, ?_⟩
  intro hst
  have h := congrArg (List.map Entry.Version) (hst ⟨1704153600, 0, 0⟩)
  revert h
  decide!

/-- C2 (amended): for a document of at most 12 entries the sort step of `readLog` is
stable: for every instant, the entries with that timestamp come out in the order they
have in the document. -/
theorem readLog_stable_of_short (p : Process) (doc : Option Node) (c0 cfg : Config)
    (hin : p.Stdin = Stdin.document doc) (h0 : Unmarshal p.Local doc = Except.ok c0)
    (h : readLog p = Except.ok cfg) (hlen : c0.Changelog.length ≤ 12) :
    StableOrder c0.Changelog cfg.Changelog := by
  obtain ⟨doc2, c1, hin2, h1, hcfg⟩ := readLog_eq p cfg h
  rw [hin] at hin2
  cases hin2
  rw [h0] at h1
  cases h1
  intro t
  rw [hcfg]
  simp only []
  rw [SortFunc_short _ _ hlen]
  exact insertionSortCmpFunc_filter _ (fun e => e.Date.Time.Equal t)
    (fun x y hx hy => equal_not_cmp_neg t x y hx hy) c0.Changelog 0 _ (le_refl _)

theorem readLog_stable_of_short_witness :
    (processOf threeEntries).Stdin = Stdin.document (some (Node.mapping
      [("project", textNode "foo"), ("changelog", Node.sequence threeEntries)])) ∧
    Unmarshal (processOf threeEntries).Local (some (Node.mapping
      [("project", textNode "foo"), ("changelog", Node.sequence threeEntries)])) =
        Except.ok threeLoaded ∧
    readLog (processOf threeEntries) = Except.ok threeSorted ∧
    threeLoaded.Changelog.length ≤ 12 ∧
    StableOrder threeLoaded.Changelog threeSorted.Changelog :=
  ⟨rfl, rfl, rfl, by decide,
    readLog_stable_of_short (processOf threeEntries) _ threeLoaded threeSorted rfl rfl rfl
      (by decide)⟩

/-! ## Rendering -/

theorem sprintd_eq_toString (v : Int) : sprintd v = toString v := by
  cases v with
  | ofNat n => simp [sprintd, decimal, toString]
  | negSucc n =>
    have h : Int.negSucc n < 0 := Int.negSucc_lt_zero n
    simp [sprintd, decimal, h, toString, Int.natAbs]

theorem closesTokens_foldl (cl : List Any) (acc : List String) :
    cl.foldl
      (fun closes c =>
        match c with
        | Any.string v => closes ++ [v]
        | Any.int v => closes ++ ["#" ++ sprintd v]
        | _ => closes) acc = acc ++ cl.filterMap refToken := by
  induction cl generalizing acc with
  | nil => simp
  | cons c rest ih =>
    cases c <;> simp only [List.foldl_cons] <;> rw [ih] <;>
      simp [refToken, sprintd_eq_toString]

theorem closesStr_eq_refString (cl : List Any) : closesStr cl = refString cl := by
  have h := closesTokens_foldl cl []
  simp only [List.nil_append] at h
  unfold closesStr refString closesTokens
  exact congrArg _ h

theorem rpmClosesStr_eq_refString (cl : List Any) : rpmClosesStr cl = refString cl := by
  have h := closesTokens_foldl cl []
  simp only [List.nil_append] at h
  unfold rpmClosesStr refString rpmClosesTokens
  exact congrArg _ h

theorem foldl_append_eq (l : List String) (init : String) :
    l.foldl (fun r s => r ++ s) init = init ++ String.join l := by
  induction l generalizing init with
  | nil => simp [String.join]
  | cons a rest ih =>
    simp only [List.foldl_cons, String.join]
    rw [ih (init ++ a), ih ("" ++ a)]
    simp [String.append_assoc]

theorem foldl_print_eq {β : Type} (f : String → β → String) (g : β → String)
    (h : ∀ out x, f out x = out ++ g x) (l : List β) (init : String) :
    l.foldl f init = init ++ String.join (l.map g) := by
  induction l generalizing init with
  | nil => simp [String.join]
  | cons a rest ih =>
    simp only [List.foldl_cons, List.map_cons]
    rw [ih, h]
    simp only [String.join, List.foldl_cons]
    rw [foldl_append_eq (rest.map g) ("" ++ g a)]
    simp [String.join, String.append_assoc]

/-- A fold that appends one text per element appends their concatenation. -/
theorem foldl_print_eq_of_mem {β : Type} (f : String → β → String) (g : β → String)
    (l : List β) (h : ∀ x ∈ l, ∀ out, f out x = out ++ g x) (init : String) :
    l.foldl f init = init ++ String.join (l.map g) := by
  induction l generalizing init with
  | nil => simp [String.join]
  | cons a rest ih =>
    simp only [List.foldl_cons, List.map_cons]
    rw [ih (fun x hx => h x (List.mem_cons_of_mem _ hx)), h a (List.mem_cons_self _ _)]
    simp only [String.join, List.foldl_cons]
    rw [foldl_append_eq (rest.map g) ("" ++ g a)]
    simp [String.join, String.append_assoc]

/-- What `doDebChangelog` prints for a change does not depend on what was printed
before. -/
theorem debChange_append (out : String) (change : Change) :
    debChange out change = out ++ debChange "" change := by
  unfold debChange
  by_cases h : change.Closes.length > 0 <;> simp [h, String.append_assoc]

theorem rpmChange_append (out : String) (change : Change) :
    rpmChange out change = out ++ rpmChange "" change := by
  unfold rpmChange
  by_cases h : change.Closes.length > 0 <;> simp [h, String.append_assoc]

/-- The text printed for an entry by `doDebChangelog`: header, what is printed for each
change, trailer. -/
theorem debEntry_append (cfg : Config) (out : String) (entry : Entry) :
    debEntry cfg out entry =
      out ++ (cfg.Project ++ " (" ++ entry.Version ++ ") " ++ stable entry.Stable ++
        "; urgency=" ++ entry.Urgency ++ "\n\n") ++
        (String.join (entry.Changes.map (debChange "")) ++
          ("\n -- " ++ cfg.Maintainer ++ "  " ++ entry.Date.Time.FormatRFC1123Z ++ "\n\n")) := by
  unfold debEntry
  simp only []
  rw [foldl_print_eq debChange (debChange "") debChange_append]
  simp [String.append_assoc]

/-- For a change that has a reference when its closes list is not empty, the Debian
renderer prints the text of the specification. -/
theorem debChange_eq (out : String) (change : Change)
    (h : change.Closes ≠ [] → refs change ≠ []) :
    debChange out change = out ++ debChangeText change := by
  unfold debChange debChangeText
  cases hcl : change.Closes with
  | nil => simp [refs, hcl, String.append_assoc]
  | cons c rest =>
    have hr : refs change ≠ [] := h (by rw [hcl]; exact List.cons_ne_nil _ _)
    simp [String.append_assoc, closesStr_eq_refString, hr]

theorem rpmChange_eq (out : String) (change : Change)
    (h : change.Closes ≠ [] → refs change ≠ []) :
    rpmChange out change = out ++ rpmChangeText change := by
  unfold rpmChange rpmChangeText
  cases hcl : change.Closes with
  | nil => simp [refs, hcl, String.append_assoc]
  | cons c rest =>
    have hr : refs change ≠ [] := h (by rw [hcl]; exact List.cons_ne_nil _ _)
    simp [String.append_assoc, rpmClosesStr_eq_refString, hr]

theorem debEntry_eq (cfg : Config) (out : String) (entry : Entry)
    (h : ∀ change ∈ entry.Changes, change.Closes ≠ [] → refs change ≠ []) :
    debEntry cfg out entry = out ++ debBlock cfg entry := by
  unfold debEntry debBlock
  simp only []
  rw [foldl_print_eq_of_mem debChange debChangeText _
    (fun change hc out => debChange_eq out change (h change hc))]
  simp [String.append_assoc]

theorem rpmEntry_eq (cfg : Config) (out : String) (entry : Entry)
    (h : ∀ change ∈ entry.Changes, change.Closes ≠ [] → refs change ≠ []) :
    rpmEntry cfg out entry = out ++ rpmBlock cfg entry := by
  unfold rpmEntry rpmBlock
  simp only []
  rw [foldl_print_eq_of_mem rpmChange rpmChangeText _
    (fun change hc out => rpmChange_eq out change (h change hc))]
  simp [String.append_assoc]

/-- C3: the reference string of either renderer is the tokens of the supported elements
joined with a comma and a space in the original order (`#` and the decimal for an
int, the text itself for a string, nothing for any other type); the list
3, CVE-2024-1, 7 gives `#3, CVE-2024-1, #7`. -/
theorem closesStr_spec :
    (∀ cl : List Any, closesStr cl = ", ".intercalate (cl.filterMap refToken) ∧
      rpmClosesStr cl = ", ".intercalate (cl.filterMap refToken)) ∧
    closesStr [Any.int 3, Any.string "CVE-2024-1", Any.int 7] = "#3, CVE-2024-1, #7" ∧
    rpmClosesStr [Any.int 3, Any.string "CVE-2024-1", Any.int 7] = "#3, CVE-2024-1, #7" :=
  ⟨fun cl => ⟨closesStr_eq_refString cl, rpmClosesStr_eq_refString cl⟩, by decide, by decide⟩

/-- C4 (the code at the failing input): for a change whose only reference is a float,
the Debian renderer prints a `Closes` line with nothing after it and the RPM renderer
prints an empty `(Closes: )` parenthetical. -/
theorem unsupported_closes_prints_empty_closes :
    debChange "" ⟨"x", [Any.float64 0]⟩ = "  * x\n  Closes: \n" ∧
    rpmChange "" ⟨"x", [Any.float64 0]⟩ = "- x  (Closes: )\n" ∧
    (doDebChangelog ⟨"foo", "A", [⟨"1.0", "low", true, ⟨⟨1704448800, 0, 0⟩⟩,
      [⟨"x", [Any.float64 0]⟩]⟩]⟩).1 =
      "foo (1.0) stable; urgency=low\n\n  * x\n  Closes: \n\n -- A  Fri, 05 Jan 2024 10:00:00 +0000\n\n" ∧
    (doRpmChangelog ⟨"foo", "A", [⟨"1.0", "low", true, ⟨⟨1704448800, 0, 0⟩⟩,
      [⟨"x", [Any.float64 0]⟩]⟩]⟩).1 =
      "* Fri Jan 5 2024 A - 1.0\n- x  (Closes: )\n\n" := by
  refine ⟨by decide, by decide, by decide, by decide⟩

/-- C5: for a change with an empty (or absent) closes list the Debian renderer prints
exactly the bullet line and the RPM renderer exactly the dash line, with no `Closes`
text. -/
theorem empty_closes_no_closes_text (out desc : String) :
    debChange out ⟨desc, []⟩ = out ++ ("  * " ++ desc ++ "\n") ∧
    rpmChange out ⟨desc, []⟩ = out ++ ("- " ++ desc ++ "\n") := by
  constructor
  · simp [debChange]
  · simp [rpmChange, String.append_assoc]

/-- C6 (the code at the failing input): for the scenario document with the float 1.5
as its only reference, the references of the change are empty and the block of the
claim has no `Closes` line, yet the Debian renderer prints a `Closes` line with nothing
after it. On every document in which each change with a non-empty closes list has a
reference, the Debian output is the concatenation, in Changelog order and with nothing
in between, of the blocks of the claim; the scenario document gives the documented
text. -/
theorem doDebChangelog_closes_without_refs :
    refs ⟨"fix bug", [Any.float64 4609434218613702656]⟩ = [] ∧
    (doDebChangelog floatConfig).1 =
      "foo (1.0) stable; urgency=low\n\n  * fix bug\n  Closes: \n\n -- A <a@example.com>  Fri, 05 Jan 2024 10:00:00 +0000\n\n" ∧
    String.join (floatConfig.Changelog.map (debBlock floatConfig)) =
      "foo (1.0) stable; urgency=low\n\n  * fix bug\n\n -- A <a@example.com>  Fri, 05 Jan 2024 10:00:00 +0000\n\n" ∧
    (∀ cfg : Config, HasRefs cfg →
      doDebChangelog cfg = (String.join (cfg.Changelog.map (debBlock cfg)), none)) ∧
    HasRefs scenarioConfig ∧
    (doDebChangelog scenarioConfig).1 =
      "foo (1.0) stable; urgency=low\n\n  * fix bug\n  Closes: #42\n\n -- A <a@example.com>  Fri, 05 Jan 2024 10:00:00 +0000\n\n" := by
  refine ⟨rfl, by decide, by decide, fun cfg h => ?_, ?_, by decide⟩
  · unfold doDebChangelog
    rw [foldl_print_eq_of_mem (debEntry cfg) (debBlock cfg) _
      (fun entry he out => debEntry_eq cfg out entry (h entry he))]
    simp
  · intro entry he change hc _
    simp only [scenarioConfig, List.mem_singleton] at he
    subst he
    simp only [List.mem_singleton] at hc
    subst hc
    simp [refs, refToken]

/-- C7 (the code at the failing input): for the scenario document with the float 1.5
as its only reference, the references of the change are empty and the block of the
claim has no parenthetical, yet the RPM renderer prints `(Closes: )`. On every document
in which each change with a non-empty closes list has a reference, the RPM output is
the concatenation, in Changelog order, of the blocks of the claim, each ending with one
blank line; the scenario document gives the documented text. -/
theorem doRpmChangelog_closes_without_refs :
    refs ⟨"fix bug", [Any.float64 4609434218613702656]⟩ = [] ∧
    (doRpmChangelog floatConfig).1 =
      "* Fri Jan 5 2024 A <a@example.com> - 1.0\n- fix bug  (Closes: )\n\n" ∧
    String.join (floatConfig.Changelog.map (rpmBlock floatConfig)) =
      "* Fri Jan 5 2024 A <a@example.com> - 1.0\n- fix bug\n\n" ∧
    (∀ cfg : Config, HasRefs cfg →
      doRpmChangelog cfg = (String.join (cfg.Changelog.map (rpmBlock cfg)), none)) ∧
    HasRefs scenarioConfig ∧
    (doRpmChangelog scenarioConfig).1 =
      "* Fri Jan 5 2024 A <a@example.com> - 1.0\n- fix bug  (Closes: #42)\n\n" := by
  refine ⟨rfl, by decide, by decide, fun cfg h => ?_, ?_, by decide⟩
  · unfold doRpmChangelog
    rw [foldl_print_eq_of_mem (rpmEntry cfg) (rpmBlock cfg) _
      (fun entry he out => rpmEntry_eq cfg out entry (h entry he))]
    simp
  · intro entry he change hc _
    simp only [scenarioConfig, List.mem_singleton] at he
    subst he
    simp only [List.mem_singleton] at hc
    subst hc
    simp [refs, refToken]

/-! ## The command -/

/-- C8 (the code at the failing input): with the single argument `foo` and the
scenario document on standard input, `mainInner` writes `Unknown format: foo` to the
error stream and returns nil, so the process ends with exit code 0. -/
theorem unknown_format_returns_nil :
    mainInner (scenarioProcess ["changelog-linux-pkg", "foo"]) =
      ⟨Outcome.returned none, "", "Unknown format: foo\n", true⟩ ∧
    main (scenarioProcess ["changelog-linux-pkg", "foo"]) = ⟨0, "", "Unknown format: foo\n"⟩ := by
  constructor <;> decide

/-- C9: when `os.Args` (program name first) has a length other than 2, `mainInner`
returns the usage error without reading standard input and without writing to
standard output, whatever standard input holds; the process ends with exit code 1. -/
theorem mainInner_usage (p : Process) (hne : p.Args ≠ []) (hlen : p.Args.length ≠ 2) :
    (mainInner p).outcome =
      Outcome.returned (some ("Usage: " ++ p.Args.headD "" ++ " <rpm|deb> < changelog.yaml")) ∧
    (mainInner p).stdout = "" ∧ (mainInner p).readStdin = false ∧
    (main p).code = 1 ∧ (main p).stdout = "" := by
  obtain ⟨args, stdin, zone⟩ := p
  cases args with
  | nil => exact absurd rfl hne
  | cons arg0 rest =>
    simp only [List.length_cons] at hlen
    simp [main, mainInner, hlen]

theorem mainInner_usage_witness :
    (scenarioProcess ["changelog-linux-pkg", "deb", "rpm"]).Args ≠ [] ∧
    (scenarioProcess ["changelog-linux-pkg", "deb", "rpm"]).Args.length ≠ 2 ∧
    (mainInner (scenarioProcess ["changelog-linux-pkg", "deb", "rpm"])).outcome =
      Outcome.returned (some ("Usage: " ++
        (scenarioProcess ["changelog-linux-pkg", "deb", "rpm"]).Args.headD "" ++
        " <rpm|deb> < changelog.yaml")) ∧
    (mainInner (scenarioProcess ["changelog-linux-pkg", "deb", "rpm"])).stdout = "" ∧
    (mainInner (scenarioProcess ["changelog-linux-pkg", "deb", "rpm"])).readStdin = false ∧
    (main (scenarioProcess ["changelog-linux-pkg", "deb", "rpm"])).code = 1 ∧
    (main (scenarioProcess ["changelog-linux-pkg", "deb", "rpm"])).stdout = "" :=
  ⟨by decide, by decide,
    mainInner_usage (scenarioProcess ["changelog-linux-pkg", "deb", "rpm"]) (by decide) (by decide)⟩

/-- C10 (the code at the failing input): loading the scenario document, whose
top-level mapping has the key `maintainer`, leaves the Maintainer field empty, and the
Debian trailer and the RPM header are printed without the maintainer. -/
theorem maintainer_key_not_loaded :
    (match readLog (scenarioProcess ["changelog-linux-pkg", "deb"]) with
      | Except.ok cfg => some (cfg.Project, cfg.Maintainer, cfg.Changelog.length)
      | Except.error _ => none) = some ("foo", "", 1) ∧
    main (scenarioProcess ["changelog-linux-pkg", "deb"]) =
      ⟨0, "foo (1.0) stable; urgency=low\n\n  * fix bug\n  Closes: #42\n\n --   Fri, 05 Jan 2024 10:00:00 +0000\n\n", ""⟩ ∧
    main (scenarioProcess ["changelog-linux-pkg", "rpm"]) =
      ⟨0, "* Fri Jan 5 2024  - 1.0\n- fix bug  (Closes: #42)\n\n", ""⟩ := by
  refine ⟨by decide, by decide, by decide⟩

/-! ## Empty documents -/

/-- C11: for a document with zero entries both renderers write the empty string and
return no error; the run ends with exit code 0 and nothing on standard output, and with
the argument `deb` or `rpm` nothing on standard error either. -/
theorem empty_changelog_empty_output (p : Process) (cfg : Config) (arg0 format : String)
    (hargs : p.Args = [arg0, format]) (hload : readLog p = Except.ok cfg)
    (hempty : cfg.Changelog = []) :
    doDebChangelog cfg = ("", none) ∧ doRpmChangelog cfg = ("", none) ∧
    (main p).code = 0 ∧ (main p).stdout = "" ∧
    (format = "deb" ∨ format = "rpm" → main p = ⟨0, "", ""⟩) := by
  have hdeb : doDebChangelog cfg = ("", none) := by simp [doDebChangelog, hempty]
  have hrpm : doRpmChangelog cfg = ("", none) := by simp [doRpmChangelog, hempty]
  refine ⟨hdeb, hrpm, ?_, ?_, ?_⟩
  · by_cases h1 : format = "rpm"
    · simp [main, mainInner, hargs, hload, hrpm, h1]
    · by_cases h2 : format = "deb"
      · simp [main, mainInner, hargs, hload, hdeb, h2]
      · simp [main, mainInner, hargs, hload, h1, h2]
  · by_cases h1 : format = "rpm"
    · simp [main, mainInner, hargs, hload, hrpm, h1]
    · by_cases h2 : format = "deb"
      · simp [main, mainInner, hargs, hload, hdeb, h2]
      · simp [main, mainInner, hargs, hload, h1, h2]
  · intro hformat
    rcases hformat with hf | hf <;> subst hf <;>
      simp [main, mainInner, hargs, hload, hdeb, hrpm]

/-- The document with an empty `changelog` sequence, rendered as RPM. -/
theorem empty_changelog_empty_output_witness :
    (emptyProcess "rpm").Args = ["changelog-linux-pkg", "rpm"] ∧
    readLog (emptyProcess "rpm") = Except.ok ⟨"foo", "", []⟩ ∧
    doDebChangelog ⟨"foo", "", []⟩ = ("", none) ∧ doRpmChangelog ⟨"foo", "", []⟩ = ("", none) ∧
    main (emptyProcess "rpm") = ⟨0, "", ""⟩ :=
  ⟨rfl, rfl,
    (empty_changelog_empty_output (emptyProcess "rpm") ⟨"foo", "", []⟩ "changelog-linux-pkg"
      "rpm" rfl rfl rfl).1,
    (empty_changelog_empty_output (emptyProcess "rpm") ⟨"foo", "", []⟩ "changelog-linux-pkg"
      "rpm" rfl rfl rfl).2.1,
    (empty_changelog_empty_output (emptyProcess "rpm") ⟨"foo", "", []⟩ "changelog-linux-pkg"
      "rpm" rfl rfl rfl).2.2.2.2 (Or.inr rfl)⟩

/-! ## The comparator -/

theorem Time.Equal_iff (t u : Time) : t.Equal u = true ↔ t.sameInstant u := by
  unfold Time.Equal Time.sameInstant
  simp

theorem Time.Before_iff (t u : Time) : t.Before u = true ↔ u.laterThan t := by
  unfold Time.Before Time.laterThan
  simp

theorem Time.After_iff_laterThan (t u : Time) : t.After u = true ↔ t.laterThan u := by
  rw [Time.After_iff]; rfl

theorem LocalTime.Cmp_cases (a b : LocalTime) :
    (a.Time.laterThan b.Time ∧ a.Cmp b = -1) ∨ (a.Time.sameInstant b.Time ∧ a.Cmp b = 0) ∨
    (b.Time.laterThan a.Time ∧ a.Cmp b = 1) := by
  unfold LocalTime.Cmp
  by_cases he : a.Time.Equal b.Time = true
  · rw [if_pos he]
    exact Or.inr (Or.inl ⟨(Time.Equal_iff _ _).1 he, rfl⟩)
  · rw [if_neg he]
    by_cases hb : a.Time.Before b.Time = true
    · rw [if_pos hb]
      exact Or.inr (Or.inr ⟨(Time.Before_iff _ _).1 hb, rfl⟩)
    · rw [if_neg hb]
      left
      refine ⟨?_, rfl⟩
      rw [Time.Equal_iff] at he
      rw [Time.Before_iff] at hb
      simp only [Time.laterThan, Time.sameInstant] at *
      omega

/-- C13: `a.Cmp(b)` is negative exactly when `a` is strictly after `b` in time, zero
exactly when the two are the same instant, positive exactly when `a` is strictly before
`b`, and it is always one of -1, 0, 1. -/
theorem Cmp_sign (a b : LocalTime) :
    (a.Cmp b < 0 ↔ a.Time.laterThan b.Time) ∧
    (a.Cmp b = 0 ↔ a.Time.sameInstant b.Time) ∧
    (a.Cmp b > 0 ↔ b.Time.laterThan a.Time) ∧
    (a.Cmp b = -1 ∨ a.Cmp b = 0 ∨ a.Cmp b = 1) ∧
    (a.Time.laterThan b.Time ↔ a.Time.After b.Time = true) ∧
    (a.Time.sameInstant b.Time ↔ a.Time.Equal b.Time = true) ∧
    (b.Time.laterThan a.Time ↔ a.Time.Before b.Time = true) := by
  refine ⟨?_, ?_, ?_, ?_, (Time.After_iff_laterThan _ _).symm, (Time.Equal_iff _ _).symm,
    (Time.Before_iff _ _).symm⟩
  all_goals
    rcases LocalTime.Cmp_cases a b with ⟨h, e⟩ | ⟨h, e⟩ | ⟨h, e⟩ <;> rw [e] <;>
      simp only [Time.laterThan, Time.sameInstant] at h ⊢ <;>
      first
        | omega
        | decide
        | exact ⟨fun _ => h, fun _ => trivial⟩

/-- C18: `LocalTime.Cmp` is a consistent three-way comparator: exchanging the arguments
negates the result, a timestamp compares equal to itself, and `Cmp <= 0` is
transitive. -/
theorem Cmp_consistent (a b c : LocalTime) :
    a.Cmp b = -(b.Cmp a) ∧ a.Cmp a = 0 ∧ (a.Cmp b ≤ 0 → b.Cmp c ≤ 0 → a.Cmp c ≤ 0) := by
  refine ⟨?_, ?_, ?_⟩
  · rcases LocalTime.Cmp_cases a b with ⟨h, e⟩ | ⟨h, e⟩ | ⟨h, e⟩ <;>
      rcases LocalTime.Cmp_cases b a with ⟨h2, e2⟩ | ⟨h2, e2⟩ | ⟨h2, e2⟩ <;>
      rw [e, e2] <;> (try simp only [Time.laterThan, Time.sameInstant] at *) <;> omega
  · rcases LocalTime.Cmp_cases a a with ⟨h, e⟩ | ⟨h, e⟩ | ⟨h, e⟩ <;>
      rw [e] <;> (try simp only [Time.laterThan, Time.sameInstant] at *) <;> omega
  · rcases LocalTime.Cmp_cases a b with ⟨h, e⟩ | ⟨h, e⟩ | ⟨h, e⟩ <;>
      rcases LocalTime.Cmp_cases b c with ⟨h2, e2⟩ | ⟨h2, e2⟩ | ⟨h2, e2⟩ <;>
      rcases LocalTime.Cmp_cases a c with ⟨h3, e3⟩ | ⟨h3, e3⟩ | ⟨h3, e3⟩ <;>
      rw [e, e2, e3] <;> (try simp only [Time.laterThan, Time.sameInstant] at *) <;> omega

/-! ## The two copies of the reference loop -/

/-- C14: the two copies of the reference loop compute the same string, and the two
renderers print their `Closes` text for the same changes: for every change there is one
decision `emit` and one reference string `refs` that describe what both print. -/
theorem closes_same_in_both_renderers :
    (∀ cl : List Any, closesStr cl = rpmClosesStr cl) ∧
    (∀ change : Change, ∃ (emit : Bool) (refs : String),
      emit = decide (change.Closes.length > 0) ∧ refs = closesStr change.Closes ∧
      (∀ out, debChange out change =
        out ++ ("  * " ++ change.Desc ++ "\n") ++
          (if emit then "  Closes: " ++ refs ++ "\n" else "")) ∧
      (∀ out, rpmChange out change =
        out ++ ("- " ++ change.Desc) ++
          (if emit then "  (Closes: " ++ refs ++ ")" else "") ++ "\n")) := by
  have hsame : ∀ cl : List Any, closesStr cl = rpmClosesStr cl := fun cl => by
    rw [closesStr_eq_refString, rpmClosesStr_eq_refString]
  refine ⟨hsame, fun change => ⟨_, _, rfl, rfl, ?_, ?_⟩⟩
  · intro out
    unfold debChange
    by_cases h : change.Closes.length > 0 <;> simp [h]
  · intro out
    unfold rpmChange
    rw [← hsame]
    by_cases h : change.Closes.length > 0 <;> simp [h]

/-! ## The stability word -/

/-- C15: `stable(true)` is `stable` and `stable(false)` is `unstable`, and the header of
every Debian entry has, between the version and the urgency, the one of the two words
that the stability flag of the entry selects. -/
theorem stable_word :
    stable true = "stable" ∧ stable false = "unstable" ∧
    (∀ b, stable b = "stable" ∨ stable b = "unstable") ∧
    (∀ (cfg : Config) (out : String) (entry : Entry), ∃ rest,
      debEntry cfg out entry =
        out ++ (cfg.Project ++ " (" ++ entry.Version ++ ") " ++
          (if entry.Stable then "stable" else "unstable") ++
          "; urgency=" ++ entry.Urgency ++ "\n\n") ++ rest) := by
  refine ⟨rfl, rfl, fun b => by cases b <;> simp [stable], ?_⟩
  intro cfg out entry
  rw [debEntry_append]
  unfold stable
  exact ⟨String.join (entry.Changes.map (debChange "")) ++
    ("\n -- " ++ cfg.Maintainer ++ "  " ++ entry.Date.Time.FormatRFC1123Z ++ "\n\n"), rfl⟩

/-! ## The sort step only reorders -/

/-- C17: the sort step of `readLog` only reorders the entries: the returned Changelog
is a permutation of the loaded one, and Project and Maintainer are the loaded ones. -/
theorem readLog_permutes (p : Process) (doc : Option Node) (c0 cfg : Config)
    (hin : p.Stdin = Stdin.document doc) (h0 : Unmarshal p.Local doc = Except.ok c0)
    (h : readLog p = Except.ok cfg) :
    cfg.Changelog.Perm c0.Changelog ∧ cfg.Project = c0.Project ∧
    cfg.Maintainer = c0.Maintainer := by
  obtain ⟨doc2, c1, hin2, h1, hcfg⟩ := readLog_eq p cfg h
  rw [hin] at hin2
  cases hin2
  rw [h0] at h1
  cases h1
  rw [hcfg]
  exact ⟨SortFunc_perm _ entryCmp_strictWeak c0.Changelog, rfl, rfl⟩

/-- The three-entry document: the sort step moves the newest entry to the front. -/
theorem readLog_permutes_witness :
    (processOf threeEntries).Stdin = Stdin.document (some (Node.mapping
      [("project", textNode "foo"), ("changelog", Node.sequence threeEntries)])) ∧
    Unmarshal (processOf threeEntries).Local (some (Node.mapping
      [("project", textNode "foo"), ("changelog", Node.sequence threeEntries)])) =
        Except.ok threeLoaded ∧
    readLog (processOf threeEntries) = Except.ok threeSorted ∧
    threeSorted.Changelog.Perm threeLoaded.Changelog ∧
    threeSorted.Project = threeLoaded.Project ∧
    threeSorted.Maintainer = threeLoaded.Maintainer :=
  ⟨rfl, rfl, rfl,
    readLog_permutes (processOf threeEntries) _ threeLoaded threeSorted rfl rfl rfl⟩

/-! ## The calendar -/

/-- Every day number of a 400-year cycle splits into centuries, four-year cycles,
years and a day of the year. -/
theorem doe_decomposition (a : Int) (h0 : 0 ≤ a) (h1 : a ≤ 146096) :
    ∃ q1 q2 q3 r : Int, a = 36524 * q1 + 1461 * q2 + 365 * q3 + r ∧
      0 ≤ q1 ∧ q1 ≤ 3 ∧ 0 ≤ q2 ∧ q2 ≤ 24 ∧ 0 ≤ q3 ∧ q3 ≤ 3 ∧ 0 ≤ r ∧
      (r ≤ 364 ∨ (r = 365 ∧ q3 = 3 ∧ (q2 ≤ 23 ∨ q1 = 3))) := by
  refine ⟨min (a / 36524) 3, (a - 36524 * min (a / 36524) 3) / 1461,
    min ((a - 36524 * min (a / 36524) 3) % 1461 / 365) 3,
    (a - 36524 * min (a / 36524) 3) % 1461 -
      365 * min ((a - 36524 * min (a / 36524) 3) % 1461 / 365) 3, ?_⟩
  generalize hq1 : min (a / 36524) 3 = q1
  have hq1b : 0 ≤ q1 ∧ q1 ≤ 3 ∧ 36524 * q1 ≤ a ∧ (a < 36524 * q1 + 36524 ∨ q1 = 3) := by
    omega
  generalize hb : a - 36524 * q1 = b at *
  have hbb : 0 ≤ b ∧ b ≤ 36524 ∧ (b ≤ 36523 ∨ q1 = 3) := by omega
  generalize hq3 : min (b % 1461 / 365) 3 = q3
  omega

/-- The year of the cycle that `civilFromDays` computes is the year of the
decomposition. -/
theorem yoe_of_decomposition (a q1 q2 q3 r : Int)
    (ha : a = 36524 * q1 + 1461 * q2 + 365 * q3 + r)
    (h10 : 0 ≤ q1) (h13 : q1 ≤ 3) (h20 : 0 ≤ q2) (h24 : q2 ≤ 24) (h30 : 0 ≤ q3) (h33 : q3 ≤ 3)
    (hr0 : 0 ≤ r) (hr : r ≤ 364 ∨ (r = 365 ∧ q3 = 3 ∧ (q2 ≤ 23 ∨ q1 = 3))) :
    (a - a / 1460 + a / 36524 - a / 146096) / 365 = 100 * q1 + 4 * q2 + q3 := by
  have hrest : 1461 * q2 + 365 * q3 + r ≤ 36523 ∨
      (q1 = 3 ∧ 1461 * q2 + 365 * q3 + r = 36524) := by omega
  have hde : a / 36524 - a / 146096 = q1 := by
    rcases hrest with h | ⟨h3, h⟩
    · have e1 : a / 36524 = q1 := by omega
      have e2 : a / 146096 = 0 := by omega
      omega
    · have e0 : a = 146096 := by omega
      rw [e0, h3]; rfl
  have ht : (24 * q1 + q2 + 365 * q3 + r) / 1460 = 0 ∨
      (24 * q1 + q2 + 365 * q3 + r) / 1460 = 1 := by omega
  have hc : a / 1460 = 25 * q1 + q2 + (24 * q1 + q2 + 365 * q3 + r) / 1460 := by
    clear hde
    omega
  have hN : a - a / 1460 + a / 36524 - a / 146096 =
      365 * (100 * q1 + 4 * q2 + q3) + (r - (24 * q1 + q2 + 365 * q3 + r) / 1460) := by
    rw [hc]
    generalize a / 36524 = x at *
    generalize a / 146096 = y at *
    generalize (24 * q1 + q2 + 365 * q3 + r) / 1460 = z at *
    omega
  rw [hN]
  have hz : 0 ≤ r - (24 * q1 + q2 + 365 * q3 + r) / 1460 ∧
      r - (24 * q1 + q2 + 365 * q3 + r) / 1460 ≤ 364 := by
    clear hN hc hde
    omega
  generalize r - (24 * q1 + q2 + 365 * q3 + r) / 1460 = w at *
  omega

/-- The result of `civilFromDays` with names for the values it computes on the way. -/
theorem civilFromDays_eq (d era doe yoe doy mp : Int)
    (hera : era = (d + 719468) / 146097) (hdoe : doe = (d + 719468) % 146097)
    (hyoe : yoe = (doe - doe / 1460 + doe / 36524 - doe / 146096) / 365)
    (hdoy : doy = doe - (365 * yoe + yoe / 4 - yoe / 100))
    (hmp : mp = (5 * doy + 2) / 153) :
    civilFromDays d =
      (if (if mp < 10 then mp + 3 else mp - 9) ≤ 2 then yoe + era * 400 + 1
        else yoe + era * 400,
       if mp < 10 then mp + 3 else mp - 9, doy - (153 * mp + 2) / 5 + 1) := by
  subst hera hdoe hyoe hdoy hmp
  rfl

/-- What `civilFromDays` computes: the 400-year cycle `era`, the year `yoe` of the
cycle (counted from March), the day `doy` of that year and the month `mp` (counted
from March) of a day number. -/
theorem civilFromDays_spec (d : Int) :
    ∃ era yoe doy mp : Int, 0 ≤ yoe ∧ yoe ≤ 399 ∧ 0 ≤ doy ∧ doy ≤ 365 ∧
      mp = (5 * doy + 2) / 153 ∧
      d + 719468 = era * 146097 + (365 * yoe + yoe / 4 - yoe / 100 + doy) ∧
      civilFromDays d =
        (if (if mp < 10 then mp + 3 else mp - 9) ≤ 2 then yoe + era * 400 + 1
          else yoe + era * 400,
         if mp < 10 then mp + 3 else mp - 9, doy - (153 * mp + 2) / 5 + 1) := by
  obtain ⟨q1, q2, q3, r, ha, h10, h13, h20, h24, h30, h33, hr0, hr⟩ :=
    doe_decomposition ((d + 719468) % 146097) (by omega) (by omega)
  have hy := yoe_of_decomposition _ q1 q2 q3 r ha h10 h13 h20 h24 h30 h33 hr0 hr
  have hstart : 365 * (100 * q1 + 4 * q2 + q3) + (100 * q1 + 4 * q2 + q3) / 4 -
      (100 * q1 + 4 * q2 + q3) / 100 = 36524 * q1 + 1461 * q2 + 365 * q3 := by
    clear hy ha
    omega
  have hq : d + 719468 = (d + 719468) / 146097 * 146097 + (d + 719468) % 146097 := by
    clear hy ha
    omega
  have hc := civilFromDays_eq d ((d + 719468) / 146097) ((d + 719468) % 146097)
    (100 * q1 + 4 * q2 + q3) r ((5 * r + 2) / 153) rfl rfl hy.symm
    (by rw [hstart, ha]; ring) rfl
  refine ⟨(d + 719468) / 146097, 100 * q1 + 4 * q2 + q3, r, (5 * r + 2) / 153,
    by omega, by omega, hr0, by omega, rfl, ?_, hc⟩
  rw [hstart]
  clear hy hc hstart
  omega

theorem civilFromDays_bounds (d : Int) :
    1 ≤ (civilFromDays d).2.1 ∧ (civilFromDays d).2.1 ≤ 12 ∧
    1 ≤ (civilFromDays d).2.2 ∧ (civilFromDays d).2.2 ≤ 31 := by
  obtain ⟨era, yoe, doy, mp, hy0, hy1, hd0, hd1, hmp, _, hc⟩ := civilFromDays_spec d
  rw [hc]
  simp only []
  have hmpb : 0 ≤ mp ∧ mp ≤ 11 := by omega
  obtain ⟨hm0, hm1⟩ := hmpb
  interval_cases mp <;> simp <;> omega

/-- Zeller's congruence on a date given by cycle, year of the cycle and month, both
counted from March. -/
theorem zeller_march_based (era yoe mp day : Int) (hy0 : 0 ≤ yoe) (hy1 : yoe ≤ 399) :
    (day + 13 * (mp + 3 + 1) / 5 + (yoe + era * 400) % 100 + (yoe + era * 400) % 100 / 4 +
        (yoe + era * 400) / 100 / 4 + 5 * ((yoe + era * 400) / 100)) % 7 =
      (day + 13 * (mp + 4) / 5 + yoe % 100 + yoe % 100 / 4 + 5 * (yoe / 100)) % 7 := by
  have h1 : (yoe + era * 400) % 100 = yoe % 100 := by omega
  have h2 : (yoe + era * 400) / 100 = yoe / 100 + 4 * era := by omega
  rw [h1, h2]
  have h3 : (yoe / 100 + 4 * era) / 4 = era := by omega
  rw [h3]
  have h4 : 13 * (mp + 3 + 1) / 5 = 13 * (mp + 4) / 5 := by
    rw [show mp + 3 + 1 = mp + 4 by ring]
  rw [h4, Int.emod_eq_emod_iff_emod_sub_eq_zero]
  have h5 : day + 13 * (mp + 4) / 5 + yoe % 100 + yoe % 100 / 4 + era +
      5 * (yoe / 100 + 4 * era) -
      (day + 13 * (mp + 4) / 5 + yoe % 100 + yoe % 100 / 4 + 5 * (yoe / 100)) =
      21 * era := by ring
  rw [h5]
  omega

theorem weekday_eq_zeller (d : Int) :
    (d + 4) % 7 =
      zellerWeekday (civilFromDays d).1 (civilFromDays d).2.1 (civilFromDays d).2.2 := by
  obtain ⟨era, yoe, doy, mp, hy0, hy1, hd0, hd1, hmp, hd, hc⟩ := civilFromDays_spec d
  have hmpb : 0 ≤ mp ∧ mp ≤ 11 := by omega
  obtain ⟨hm0, hm1⟩ := hmpb
  have hz : zellerWeekday (civilFromDays d).1 (civilFromDays d).2.1 (civilFromDays d).2.2 =
      ((doy - (153 * mp + 2) / 5 + 1 + 13 * (mp + 4) / 5 + yoe % 100 + yoe % 100 / 4 +
        5 * (yoe / 100)) % 7 + 6) % 7 := by
    rw [hc, ← zeller_march_based era yoe mp _ hy0 hy1]
    unfold zellerWeekday
    simp only []
    by_cases h10 : mp < 10
    · have e1 : ¬ (mp + 3 ≤ 2) := by omega
      simp only [h10, if_true, e1, if_false]
    · have e1 : mp - 9 ≤ 2 := by omega
      simp only [h10, if_false, e1, if_true]
      have e2 : mp - 9 + 12 + 1 = mp + 3 + 1 := by ring
      have e3 : yoe + era * 400 + 1 - 1 = yoe + era * 400 := by ring
      rw [e2, e3]
  rw [hz, Int.emod_add_emod, Int.emod_eq_emod_iff_emod_sub_eq_zero]
  have hk : yoe % 100 = yoe - 100 * (yoe / 100) := by omega
  have hk4 : yoe % 100 / 4 = yoe / 4 - 25 * (yoe / 100) := by omega
  have hd2 : d + 4 = era * 146097 + (365 * yoe + yoe / 4 - yoe / 100 + doy) - 719464 := by
    omega
  rw [hd2, hk4, hk]
  have hm : (13 * (mp + 4) / 5 - (153 * mp + 2) / 5) % 7 = 3 := by
    clear hc hz hd hd2 hk hk4 hmp
    interval_cases mp <;> rfl
  have hsub : era * 146097 + (365 * yoe + yoe / 4 - yoe / 100 + doy) - 719464 -
      (doy - (153 * mp + 2) / 5 + 1 + 13 * (mp + 4) / 5 + (yoe - 100 * (yoe / 100)) +
        (yoe / 4 - 25 * (yoe / 100)) + 5 * (yoe / 100) + 6) =
      7 * (20871 * era + 52 * yoe + 17 * (yoe / 100) - 102781) -
        (13 * (mp + 4) / 5 - (153 * mp + 2) / 5 + 4) := by ring
  rw [hsub]
  generalize 13 * (mp + 4) / 5 - (153 * mp + 2) / 5 = w at hm ⊢
  generalize 20871 * era + 52 * yoe + 17 * (yoe / 100) - 102781 = v
  omega

theorem daysFromCivil_civilFromDays (d : Int) :
    daysFromCivil (civilFromDays d).1 (civilFromDays d).2.1 (civilFromDays d).2.2 = d := by
  obtain ⟨era, yoe, doy, mp, hy0, hy1, hd0, hd1, hmp, hd, hc⟩ := civilFromDays_spec d
  have hmpb : 0 ≤ mp ∧ mp ≤ 11 := by omega
  obtain ⟨hm0, hm1⟩ := hmpb
  rw [hc]
  unfold daysFromCivil
  simp only []
  by_cases h10 : mp < 10
  · have e1 : ¬ (mp + 3 ≤ 2) := by omega
    have e2 : mp + 3 > 2 := by omega
    simp only [h10, if_true, e1, if_false, e2]
    have h1 : (yoe + era * 400) / 400 = era := by omega
    have h2 : (yoe + era * 400) % 400 = yoe := by omega
    rw [h1, h2]
    have e3 : mp + 3 - 3 = mp := by ring
    rw [e3]
    omega
  · have e1 : mp - 9 ≤ 2 := by omega
    have e2 : ¬ (mp - 9 > 2) := by omega
    simp only [h10, if_false, e1, if_true, e2]
    have h1 : (yoe + era * 400 + 1 - 1) / 400 = era := by omega
    have h2 : (yoe + era * 400 + 1 - 1) % 400 = yoe := by omega
    rw [h1, h2]
    have e3 : mp - 9 + 9 = mp := by ring
    rw [e3]
    omega

/-! ## Formatting of numbers and dates -/

theorem digitChar_isDigit (n : Nat) (h : n < 10) : (Nat.digitChar n).isDigit = true := by
  interval_cases n <;> rfl

theorem toDigitsCore_isDigit (fuel : Nat) : ∀ (n : Nat) (ds : List Char),
    (∀ c ∈ ds, c.isDigit = true) → ∀ c ∈ Nat.toDigitsCore 10 fuel n ds, c.isDigit = true := by
  induction fuel with
  | zero => intro n ds h c hc; exact h c hc
  | succ fuel ih =>
    intro n ds h c hc
    unfold Nat.toDigitsCore at hc
    simp only [] at hc
    have hd : ∀ c ∈ Nat.digitChar (n % 10) :: ds, c.isDigit = true := by
      intro c hc
      rcases List.mem_cons.1 hc with h1 | h1
      · rw [h1]; exact digitChar_isDigit _ (Nat.mod_lt _ (by decide))
      · exact h c h1
    split at hc
    · exact hd c hc
    · exact ih _ _ hd c hc

/-- The decimal of a natural number consists of digits. -/
theorem decimal_isDigit (n : Nat) : ∀ c ∈ (decimal n).data, c.isDigit = true := by
  intro c hc
  exact toDigitsCore_isDigit (n + 1) n [] (by simp) c hc

/-- The decimal of a number below `10 ^ e` has at most `e` digits. -/
theorem decimal_length_le (n e : Nat) (he : 0 < e) (h : n < 10 ^ e) :
    (decimal n).length ≤ e :=
  Nat.repr_length n e he h

/-- A number from 0 up to `10 ^ width` is printed by `appendInt` with exactly `width`
digits, the last of which are its decimal. -/
theorem appendInt_digits (x : Int) (width : Nat) (hw : 0 < width) (h0 : 0 ≤ x)
    (h1 : x < 10 ^ width) :
    (appendInt x width).length = width ∧ (∀ c ∈ (appendInt x width).data, c.isDigit = true) ∧
      ∃ k, appendInt x width = String.mk (List.replicate k '0') ++ decimal x.toNat := by
  have hx : ¬ x < 0 := by omega
  have hn : x.natAbs = x.toNat := by omega
  have hlt : x.toNat < 10 ^ width := by
    have : ((x.toNat : Nat) : Int) < ((10 ^ width : Nat) : Int) := by
      rw [Int.toNat_of_nonneg h0]; push_cast; exact h1
    exact_mod_cast this
  have hl := decimal_length_le x.toNat width hw hlt
  unfold appendInt
  simp only [hx, if_false, hn]
  have he : ("" : String) ++ String.mk (List.replicate (width - (decimal x.toNat).length) '0') =
      String.mk (List.replicate (width - (decimal x.toNat).length) '0') := by
    apply String.ext
    simp only [String.data_append]
    rfl
  rw [he]
  refine ⟨?_, ?_, ⟨_, rfl⟩⟩
  · simp only [String.length_append, String.length_mk, List.length_replicate]
    omega
  · intro c hc
    simp only [String.data_append, List.mem_append] at hc
    rcases hc with hc | hc
    · have := List.eq_of_mem_replicate hc
      rw [this]; rfl
    · exact decimal_isDigit _ c hc

/-- With width 0 `appendInt` prints a number from 0 on without padding. -/
theorem appendInt_zero_width (x : Int) (h0 : 0 ≤ x) : appendInt x 0 = decimal x.toNat := by
  have hx : ¬ x < 0 := by omega
  have hn : x.natAbs = x.toNat := by omega
  unfold appendInt
  simp only [hx, if_false, hn, Nat.zero_sub, List.replicate_zero]
  rfl

/-- Two-digit fields: a number below 10 gets one leading zero, a number from 10 to 99
none. -/
theorem appendInt_two (x : Int) (h0 : 0 ≤ x) (h1 : x ≤ 99) :
    appendInt x 2 = (if x < 10 then "0" ++ decimal x.toNat else decimal x.toNat) := by
  interval_cases x <;> rfl

/-- The zone of an offset of less than a hundred hours is printed as a sign and four
digits. -/
theorem formatNumTZ_shape (offset : Int) (h0 : -360000 < offset) (h1 : offset < 360000) :
    ∃ sign hh mm : String, formatNumTZ offset = sign ++ hh ++ mm ∧
      (sign = "+" ∨ sign = "-") ∧ hh.length = 2 ∧ mm.length = 2 ∧
      (∀ c ∈ hh.data, c.isDigit = true) ∧ (∀ c ∈ mm.data, c.isDigit = true) := by
  have hz : -6000 < Int.tdiv offset 60 ∧ Int.tdiv offset 60 < 6000 := by
    by_cases hneg : 0 ≤ offset
    · rw [Int.tdiv_eq_ediv hneg (by decide)]; omega
    · have e : Int.tdiv offset 60 = -((-offset) / 60) := by
        have h := Int.neg_tdiv (-offset) 60
        rw [neg_neg] at h
        rw [h, Int.tdiv_eq_ediv (by omega) (by decide)]
      rw [e]; omega
  unfold formatNumTZ
  generalize Int.tdiv offset 60 = zone at hz
  simp only []
  have two : ∀ v : Int, 0 ≤ v → v < 6000 →
      (appendInt (Int.tdiv v 60) 2).length = 2 ∧ (appendInt (Int.tmod v 60) 2).length = 2 ∧
      (∀ c ∈ (appendInt (Int.tdiv v 60) 2).data, c.isDigit = true) ∧
      (∀ c ∈ (appendInt (Int.tmod v 60) 2).data, c.isDigit = true) := by
    intro v hv0 hv1
    rw [Int.tdiv_eq_ediv hv0 (by decide), Int.tmod_eq_emod hv0 (by decide)]
    have a := appendInt_digits (v / 60) 2 (by decide) (by omega) (by norm_num; omega)
    have b := appendInt_digits (v % 60) 2 (by decide) (by omega) (by norm_num; omega)
    exact ⟨a.1, b.1, a.2.1, b.2.1⟩
  by_cases hneg : zone < 0
  · rw [if_pos hneg]
    obtain ⟨a, b, c, d⟩ := two (-zone) (by omega) (by omega)
    exact ⟨"-", _, _, rfl, Or.inr rfl, a, b, c, d⟩
  · rw [if_neg hneg]
    obtain ⟨a, b, c, d⟩ := two zone (by omega) (by omega)
    exact ⟨"+", _, _, rfl, Or.inl rfl, a, b, c, d⟩

theorem shortDayName_mem (wd : Int) (h0 : 0 ≤ wd) (h1 : wd < 7) :
    shortDayName wd ∈ ["Sun", "Mon", "Tue", "Wed", "Thu", "Fri", "Sat"] := by
  interval_cases wd <;> decide

theorem shortMonthName_mem (m : Int) (h0 : 1 ≤ m) (h1 : m ≤ 12) :
    shortMonthName m ∈ ["Jan", "Feb", "Mar", "Apr", "May", "Jun",
      "Jul", "Aug", "Sep", "Oct", "Nov", "Dec"] := by
  interval_cases m <;> decide

theorem clock_bounds (t : Time) :
    0 ≤ t.Hour ∧ t.Hour ≤ 23 ∧ 0 ≤ t.Minute ∧ t.Minute ≤ 59 ∧ 0 ≤ t.Second ∧ t.Second ≤ 59 := by
  unfold Time.Hour Time.Minute Time.Second Time.secOfDay
  omega

/-- C16 (counterexample): the date `9999-12-31 23:59:59 -0100` is accepted by the
loader; displayed in the zone UTC the instant is in the year 10000, and both formatters
print that year with five digits, not four. -/
theorem year_10000_has_five_digits :
    timeParse "9999-12-31 23:59:59 -0100" = some ⟨253402304399, 0, -3600⟩ ∧
    (Time.Local (fun _ => 0) ⟨253402304399, 0, -3600⟩).FormatRpm = "Sat Jan 1 10000" ∧
    (Time.Local (fun _ => 0) ⟨253402304399, 0, -3600⟩).FormatRFC1123Z =
      "Sat, 01 Jan 10000 00:59:59 +0000" ∧
    main (dateProcess "rpm" "9999-12-31 23:59:59 -0100") =
      ⟨0, "* Sat Jan 1 10000  - 1.0\n\n", ""⟩ ∧
    main (dateProcess "deb" "9999-12-31 23:59:59 -0100") =
      ⟨0, "foo (1.0) stable; urgency=low\n\n\n --   Sat, 01 Jan 10000 00:59:59 +0000\n\n", ""⟩ := by
  refine ⟨?_, ?_, ?_, ?_, ?_⟩ <;> decide!

/-- C16 (amended): every timestamp is rendered in the zone it carries. The RPM date is
weekday name, month name, day without padding and the year padded to at least four
digits, separated by single spaces; the Debian date is `Www, DD Mon YYYY HH:MM:SS`
followed by the numeric zone, with two-digit day, hour, minute and second. The weekday
name is the one Zeller's congruence gives for the printed year, month and day, which
are the calendar date of the displayed day. The year has exactly four digits when it
is from 0 to 9999, and the zone is a sign and four digits when the offset is less than
a hundred hours. The instant 2024-01-05 10:00:00 +0000 gives `Fri Jan 5 2024` and
`Fri, 05 Jan 2024 10:00:00 +0000`. -/
theorem format_dates_spec :
    (∀ t : Time, ∃ www mon d dd yyyy hh mm ss : String,
      t.FormatRpm = www ++ " " ++ mon ++ " " ++ d ++ " " ++ yyyy ∧
      t.FormatRFC1123Z = www ++ ", " ++ dd ++ " " ++ mon ++ " " ++ yyyy ++ " " ++
        hh ++ ":" ++ mm ++ ":" ++ ss ++ " " ++ formatNumTZ t.offset ∧
      www = shortDayName (zellerWeekday t.Year t.Month t.Day) ∧
      www ∈ ["Sun", "Mon", "Tue", "Wed", "Thu", "Fri", "Sat"] ∧
      daysFromCivil t.Year t.Month t.Day = t.days ∧
      1 ≤ t.Month ∧ t.Month ≤ 12 ∧ mon = shortMonthName t.Month ∧
      mon ∈ ["Jan", "Feb", "Mar", "Apr", "May", "Jun",
        "Jul", "Aug", "Sep", "Oct", "Nov", "Dec"] ∧
      1 ≤ t.Day ∧ t.Day ≤ 31 ∧ d = decimal t.Day.toNat ∧
      dd = (if t.Day < 10 then "0" ++ d else d) ∧
      yyyy = appendInt t.Year 4 ∧
      (0 ≤ t.Year → t.Year ≤ 9999 →
        yyyy.length = 4 ∧ (∀ c ∈ yyyy.data, c.isDigit = true) ∧
        ∃ k, yyyy = String.mk (List.replicate k '0') ++ decimal t.Year.toNat) ∧
      0 ≤ t.Hour ∧ t.Hour ≤ 23 ∧ 0 ≤ t.Minute ∧ t.Minute ≤ 59 ∧
      0 ≤ t.Second ∧ t.Second ≤ 59 ∧
      hh = (if t.Hour < 10 then "0" ++ decimal t.Hour.toNat else decimal t.Hour.toNat) ∧
      mm = (if t.Minute < 10 then "0" ++ decimal t.Minute.toNat
        else decimal t.Minute.toNat) ∧
      ss = (if t.Second < 10 then "0" ++ decimal t.Second.toNat
        else decimal t.Second.toNat) ∧
      (-360000 < t.offset → t.offset < 360000 →
        ∃ sign zh zm : String, formatNumTZ t.offset = sign ++ zh ++ zm ∧
          (sign = "+" ∨ sign = "-") ∧ zh.length = 2 ∧ zm.length = 2 ∧
          (∀ c ∈ zh.data, c.isDigit = true) ∧ (∀ c ∈ zm.data, c.isDigit = true))) ∧
    timeParse "2024-01-05 10:00:00 +0000" = some ⟨1704448800, 0, 0⟩ ∧
    (⟨1704448800, 0, 0⟩ : Time).Year = 2024 ∧
    (⟨1704448800, 0, 0⟩ : Time).FormatRpm = "Fri Jan 5 2024" ∧
    (⟨1704448800, 0, 0⟩ : Time).FormatRFC1123Z = "Fri, 05 Jan 2024 10:00:00 +0000" := by
  refine ⟨fun t => ?_, by decide!, by decide!, by decide!, by decide!⟩
  have hwd : t.Weekday = zellerWeekday t.Year t.Month t.Day := weekday_eq_zeller t.days
  have hwb : 0 ≤ t.Weekday ∧ t.Weekday < 7 := by unfold Time.Weekday; omega
  obtain ⟨hm0, hm1, hd0, hd1⟩ := civilFromDays_bounds t.days
  obtain ⟨hh0, hh1, hn0, hn1, hs0, hs1⟩ := clock_bounds t
  refine ⟨shortDayName t.Weekday, shortMonthName t.Month, appendInt t.Day 0,
    appendInt t.Day 2, appendInt t.Year 4, appendInt t.Hour 2, appendInt t.Minute 2,
    appendInt t.Second 2, rfl, rfl, by rw [hwd], shortDayName_mem _ hwb.1 hwb.2,
    daysFromCivil_civilFromDays t.days, hm0, hm1, rfl, shortMonthName_mem _ hm0 hm1,
    hd0, hd1, appendInt_zero_width _ (by unfold Time.Day; omega), ?_, rfl,
    fun hy0 hy1 => appendInt_digits t.Year 4 (by decide) hy0 (by norm_num; omega),
    hh0, hh1, hn0, hn1, hs0, hs1,
    appendInt_two _ hh0 (by omega), appendInt_two _ hn0 (by omega),
    appendInt_two _ hs0 (by omega), formatNumTZ_shape t.offset⟩
  rw [appendInt_zero_width _ (by unfold Time.Day; omega)]
  exact appendInt_two _ (by unfold Time.Day; omega) (by unfold Time.Day; omega)

/-! ## Dates the loader rejects -/

theorem need_ok {α : Type} (field : Option α) (err : String) (a : α)
    (h : need field err = Except.ok a) : field = some a := by
  unfold need at h
  cases field with
  | none => cases h
  | some b => cases h; rfl

theorem bind_ok {α β : Type} (x : Except String α) (f : α → Except String β) (b : β)
    (h : x.bind f = Except.ok b) : ∃ a, x = Except.ok a ∧ f a = Except.ok b := by
  cases x with
  | error e => cases h
  | ok a => exact ⟨a, rfl, h⟩

theorem needTZ_ok (avalue : String) (hold : List Char)
    (zone : Except String (Int × List Char)) (r : Int × List Char)
    (h : needTZ avalue hold zone = Except.ok r) : zone = Except.ok r := by
  unfold needTZ at h
  cases zone with
  | error e =>
    simp only [] at h
    split at h <;> cases h
  | ok a => cases h; rfl

/-- The layout element `2006` takes four digits. -/
theorem parseYear_some (v : List Char) (r : Nat × List Char) (h : parseYear v = some r) :
    ∃ a b c d, v = a :: b :: c :: d :: r.2 ∧ a.isDigit = true ∧ b.isDigit = true ∧
      c.isDigit = true ∧ d.isDigit = true := by
  unfold parseYear at h
  simp only [] at h
  split at h
  · rename_i hc
    cases h
    obtain ⟨hl, hd⟩ := hc
    rcases v with _ | ⟨a, _ | ⟨b, _ | ⟨c, _ | ⟨d, rest⟩⟩⟩⟩ <;> simp at hl
    simp at hd
    exact ⟨a, b, c, d, by simp, hd.1, hd.2.1, hd.2.2.1, hd.2.2.2⟩
  · cases h

/-- A character of the layout other than the space is matched by itself. -/
theorem skip_lit (v : List Char) (c : Char) (rest : List Char) (hc : c ≠ ' ')
    (h : skip v c = some rest) : v = c :: rest := by
  unfold skip at h
  rw [if_neg hc] at h
  cases v with
  | nil => cases h
  | cons x tl =>
    simp only [] at h
    split at h
    · rename_i hx
      cases h
      rw [hx]
    · cases h

/-- A space of the layout is matched by a run of spaces, or by the end of the value. -/
theorem skip_space (v rest : List Char) (h : skip v ' ' = some rest) :
    (v = [] ∧ rest = []) ∨
      ∃ tl, v = ' ' :: tl ∧ rest = tl.dropWhile (fun x => x = ' ') := by
  unfold skip at h
  rw [if_pos rfl] at h
  cases v with
  | nil => cases h; exact Or.inl ⟨rfl, rfl⟩
  | cons x tl =>
    simp only [] at h
    split at h
    · cases h
    · rename_i hx
      cases h
      have hx2 : x = ' ' := by simpa using hx
      subst hx2
      exact Or.inr ⟨tl, rfl, by simp [List.dropWhile]⟩

/-- A two-digit field takes two digits. -/
theorem getnum_fixed (v : List Char) (r : Nat × List Char) (h : getnum v true = some r) :
    ∃ a b, v = a :: b :: r.2 ∧ a.isDigit = true ∧ b.isDigit = true := by
  unfold getnum at h
  rcases v with _ | ⟨a, _ | ⟨b, rest⟩⟩
  · cases h
  · simp at h
  · simp only [] at h
    by_cases ha : a.isDigit = true
    · by_cases hb : b.isDigit = true
      · simp [ha, hb] at h
        cases h
        exact ⟨a, b, rfl, ha, hb⟩
      · simp [ha, hb] at h
    · simp [ha] at h

/-- The hour takes one digit, or two when a second digit follows. -/
theorem getnum_free (v : List Char) (r : Nat × List Char) (h : getnum v false = some r) :
    ∃ a, a.isDigit = true ∧
      ((∃ b, v = a :: b :: r.2 ∧ b.isDigit = true) ∨
        (v = a :: r.2 ∧ ∀ b tl, r.2 = b :: tl → b.isDigit = false)) := by
  unfold getnum at h
  rcases v with _ | ⟨a, _ | ⟨b, rest⟩⟩
  · cases h
  · by_cases ha : a.isDigit = true
    · simp [ha] at h
      cases h
      exact ⟨a, ha, Or.inr ⟨rfl, fun b tl hb => by cases hb⟩⟩
    · simp [ha] at h
  · simp only [] at h
    by_cases ha : a.isDigit = true
    · by_cases hb : b.isDigit = true
      · simp [ha, hb] at h
        cases h
        exact ⟨a, ha, Or.inl ⟨b, rfl, hb⟩⟩
      · simp [ha, hb] at h
        cases h
        refine ⟨a, ha, Or.inr ⟨rfl, fun b2 tl hb2 => ?_⟩⟩
        cases hb2
        simpa using hb
    · simp [ha] at h

/-- The layout element `-0700` takes a sign and four digits. -/
theorem parseNumTZ_ok (v : List Char) (r : Int × List Char)
    (h : parseNumTZ v = Except.ok r) :
    ∃ s h0 h1 m0 m1, v = s :: h0 :: h1 :: m0 :: m1 :: r.2 ∧ (s = '+' ∨ s = '-') ∧
      h0.isDigit = true ∧ h1.isDigit = true ∧ m0.isDigit = true ∧ m1.isDigit = true := by
  unfold parseNumTZ at h
  rcases v with _ | ⟨s, _ | ⟨h0, _ | ⟨h1, _ | ⟨m0, _ | ⟨m1, rest⟩⟩⟩⟩⟩
  all_goals try cases h
  simp only [] at h
  split at h
  · cases h
  split at h
  · cases h
  split at h
  · cases h
  split at h
  · cases h
  rename_i hmm
  cases hh : getnum [h0, h1] true with
  | none => simp [hh] at hmm
  | some hr =>
    cases hm : getnum [m0, m1] true with
    | none => simp [hh, hm] at hmm
    | some mm =>
      obtain ⟨a, b, e1, ha, hb⟩ := getnum_fixed _ _ hh
      obtain ⟨c, d, e2, hc, hd⟩ := getnum_fixed _ _ hm
      simp only [List.cons.injEq] at e1 e2
      obtain ⟨rfl, rfl, -⟩ := e1
      obtain ⟨rfl, rfl, -⟩ := e2
      split at h
      · rename_i hs
        cases h
        exact ⟨s, h0, h1, m0, m1, rfl, Or.inl hs, ha, hb, hc, hd⟩
      · split at h
        · rename_i hs
          cases h
          exact ⟨s, h0, h1, m0, m1, rfl, Or.inr hs, ha, hb, hc, hd⟩
        · cases h

/-- The fraction of the pattern is what `time.Parse` takes as a fraction of a second. -/
theorem matchPieces_fraction (ps : List Piece) (v : List Char) :
    matchPieces (Piece.fraction :: ps) v = matchPieces ps (parseFraction v).2 := by
  unfold parseFraction
  rcases v with _ | ⟨c, _ | ⟨d, rest⟩⟩
  · simp [matchPieces]
  · simp [matchPieces]
  · simp only [matchPieces]
    by_cases hc : (c = '.' ∨ c = ',') ∧ d.isDigit = true
    · rw [if_pos hc, if_pos hc]
      simp [List.dropWhile, hc.2]
    · rw [if_neg hc, if_neg hc]

/-- The optional digit may be absent. -/
theorem matchPieces_optDigit (ps : List Piece) (s : List Char)
    (h : matchPieces ps s = true) : matchPieces (Piece.optDigit :: ps) s = true := by
  cases s <;> simp [matchPieces, h]

/-- What `time.Parse` accepts has the fixed format up to the three liberties. -/
theorem Parse_ok_lenient (avalue : String) (t : Time)
    (h : time.Parse avalue = Except.ok t) : matchesLenientFormat avalue = true := by
  unfold time.Parse at h
  simp only [] at h
  obtain ⟨yv, hy, h⟩ := bind_ok _ _ _ h
  obtain ⟨v1, hs1, h⟩ := bind_ok _ _ _ h
  obtain ⟨mv, hm, h⟩ := bind_ok _ _ _ h
  obtain ⟨_, -, h⟩ := bind_ok _ _ _ h
  obtain ⟨v2, hs2, h⟩ := bind_ok _ _ _ h
  obtain ⟨dv, hd, h⟩ := bind_ok _ _ _ h
  obtain ⟨v3, hs3, h⟩ := bind_ok _ _ _ h
  obtain ⟨hv, hh, h⟩ := bind_ok _ _ _ h
  obtain ⟨_, -, h⟩ := bind_ok _ _ _ h
  obtain ⟨v4, hs4, h⟩ := bind_ok _ _ _ h
  obtain ⟨nv, hn, h⟩ := bind_ok _ _ _ h
  obtain ⟨_, -, h⟩ := bind_ok _ _ _ h
  obtain ⟨v5, hs5, h⟩ := bind_ok _ _ _ h
  obtain ⟨sv, hsec, h⟩ := bind_ok _ _ _ h
  obtain ⟨_, -, h⟩ := bind_ok _ _ _ h
  obtain ⟨v6, hs6, h⟩ := bind_ok _ _ _ h
  obtain ⟨zv, hz, h⟩ := bind_ok _ _ _ h
  obtain ⟨_, hend, -⟩ := bind_ok _ _ _ h
  clear h
  obtain ⟨y0, y1, y2, y3, ey, hy0, hy1, hy2, hy3⟩ := parseYear_some _ _ (need_ok _ _ _ hy)
  have e1 := skip_lit _ _ _ (by decide) (need_ok _ _ _ hs1)
  obtain ⟨m0, m1, em, hm0, hm1⟩ := getnum_fixed _ _ (need_ok _ _ _ hm)
  have e2 := skip_lit _ _ _ (by decide) (need_ok _ _ _ hs2)
  obtain ⟨d0, d1, ed, hd0, hd1⟩ := getnum_fixed _ _ (need_ok _ _ _ hd)
  obtain ⟨h0, hh0, ehour⟩ := getnum_free _ _ (need_ok _ _ _ hh)
  have e4 := skip_lit _ _ _ (by decide) (need_ok _ _ _ hs4)
  obtain ⟨n0, n1, en, hn0, hn1⟩ := getnum_fixed _ _ (need_ok _ _ _ hn)
  have e5 := skip_lit _ _ _ (by decide) (need_ok _ _ _ hs5)
  obtain ⟨s0, s1, es, hs0, hs1⟩ := getnum_fixed _ _ (need_ok _ _ _ hsec)
  obtain ⟨sg, z0, z1, z2, z3, ez, hsg, hz0, hz1, hz2, hz3⟩ :=
    parseNumTZ_ok _ _ (needTZ_ok _ _ _ _ hz)
  have hrest : zv.2 = [] := by
    have := need_ok _ _ _ hend
    unfold inRange at this
    split at this
    · rename_i hc
      simpa using hc
    · cases this
  have e3 : ∃ tl, dv.2 = ' ' :: tl ∧ v3 = tl.dropWhile (fun x => x = ' ') := by
    rcases skip_space _ _ (need_ok _ _ _ hs3) with ⟨-, h3⟩ | h3
    · rw [h3] at hh
      cases hh
    · exact h3
  have e6 : ∃ tl, (parseFraction sv.2).2 = ' ' :: tl ∧
      v6 = tl.dropWhile (fun x => x = ' ') := by
    rcases skip_space _ _ (need_ok _ _ _ hs6) with ⟨-, h6⟩ | h6
    · rw [h6] at ez
      cases ez
    · exact h6
  obtain ⟨tl3, e3a, e3b⟩ := e3
  obtain ⟨tl6, e6a, e6b⟩ := e6
  have htz : matchPieces [Piece.sign, Piece.digit, Piece.digit, Piece.digit, Piece.digit]
      v6 = true := by
    rw [ez, hrest]
    rcases hsg with rfl | rfl <;> simp [matchPieces, hz0, hz1, hz2, hz3]
  have hsecs : matchPieces [Piece.digit, Piece.digit, Piece.fraction, Piece.spaces,
      Piece.sign, Piece.digit, Piece.digit, Piece.digit, Piece.digit] v5 = true := by
    rw [es]
    simp only [matchPieces, hs0, hs1, Bool.true_and]
    rw [matchPieces_fraction, e6a]
    simp only [matchPieces, decide_True, Bool.true_and]
    rw [← e6b]
    exact htz
  have hmins : matchPieces [Piece.lit ':', Piece.digit, Piece.digit, Piece.lit ':',
      Piece.digit, Piece.digit, Piece.fraction, Piece.spaces,
      Piece.sign, Piece.digit, Piece.digit, Piece.digit, Piece.digit] hv.2 = true := by
    rw [e4, en, e5]
    simp only [matchPieces, hn0, hn1, decide_True, Bool.true_and]
    exact hsecs
  have hhour : matchPieces [Piece.digit, Piece.optDigit, Piece.lit ':', Piece.digit,
      Piece.digit, Piece.lit ':', Piece.digit, Piece.digit, Piece.fraction, Piece.spaces,
      Piece.sign, Piece.digit, Piece.digit, Piece.digit, Piece.digit] v3 = true := by
    rcases ehour with ⟨b, eb, hb⟩ | ⟨eb, -⟩
    · rw [eb]
      simp only [matchPieces, hh0, hb, Bool.true_and]
      rw [hmins]
      rfl
    · rw [eb]
      simp only [matchPieces, hh0, Bool.true_and]
      exact matchPieces_optDigit _ _ hmins
  unfold matchesLenientFormat
  rw [ey, e1, em, e2, ed, e3a]
  simp only [matchPieces, hy0, hy1, hy2, hy3, hm0, hm1, hd0, hd1, decide_True, Bool.true_and]
  rw [← e3b]
  exact hhour

theorem isDigit_ne_space (c : Char) (h : c.isDigit = true) : c ≠ ' ' := by
  intro hc
  rw [hc] at h
  exact absurd h (by decide)

/-- A text in the fixed format is in the format with the three liberties. -/
theorem fixed_is_lenient (text : String) (h : matchesFixedFormat text = true) :
    matchesLenientFormat text = true := by
  unfold matchesFixedFormat at h
  unfold matchesLenientFormat
  have hp : "YYYY-MM-DD HH:MM:SS +ZZZZ".toList =
      ['Y', 'Y', 'Y', 'Y', '-', 'M', 'M', '-', 'D', 'D', ' ', 'H', 'H', ':', 'M', 'M', ':',
        'S', 'S', ' ', '+', 'Z', 'Z', 'Z', 'Z'] := rfl
  simp only [hp, Bool.and_eq_true, decide_eq_true_eq] at h
  obtain ⟨hlen, hall⟩ := h
  generalize text.toList = l at hlen hall ⊢
  rcases l with _ | ⟨c0, l⟩
  · simp at hlen
  rcases l with _ | ⟨c1, l⟩
  · simp at hlen
  rcases l with _ | ⟨c2, l⟩
  · simp at hlen
  rcases l with _ | ⟨c3, l⟩
  · simp at hlen
  rcases l with _ | ⟨c4, l⟩
  · simp at hlen
  rcases l with _ | ⟨c5, l⟩
  · simp at hlen
  rcases l with _ | ⟨c6, l⟩
  · simp at hlen
  rcases l with _ | ⟨c7, l⟩
  · simp at hlen
  rcases l with _ | ⟨c8, l⟩
  · simp at hlen
  rcases l with _ | ⟨c9, l⟩
  · simp at hlen
  rcases l with _ | ⟨c10, l⟩
  · simp at hlen
  rcases l with _ | ⟨c11, l⟩
  · simp at hlen
  rcases l with _ | ⟨c12, l⟩
  · simp at hlen
  rcases l with _ | ⟨c13, l⟩
  · simp at hlen
  rcases l with _ | ⟨c14, l⟩
  · simp at hlen
  rcases l with _ | ⟨c15, l⟩
  · simp at hlen
  rcases l with _ | ⟨c16, l⟩
  · simp at hlen
  rcases l with _ | ⟨c17, l⟩
  · simp at hlen
  rcases l with _ | ⟨c18, l⟩
  · simp at hlen
  rcases l with _ | ⟨c19, l⟩
  · simp at hlen
  rcases l with _ | ⟨c20, l⟩
  · simp at hlen
  rcases l with _ | ⟨c21, l⟩
  · simp at hlen
  rcases l with _ | ⟨c22, l⟩
  · simp at hlen
  rcases l with _ | ⟨c23, l⟩
  · simp at hlen
  rcases l with _ | ⟨c24, l⟩
  · simp at hlen
  rcases l with _ | ⟨c25, l⟩
  swap
  · simp at hlen
  have hY : Char.isAlpha 'Y' = true := by decide
  have hM : Char.isAlpha 'M' = true := by decide
  have hD : Char.isAlpha 'D' = true := by decide
  have hH : Char.isAlpha 'H' = true := by decide
  have hS : Char.isAlpha 'S' = true := by decide
  have hZ : Char.isAlpha 'Z' = true := by decide
  have h1 : Char.isAlpha '-' = false := by decide
  have h2 : Char.isAlpha ' ' = false := by decide
  have h3 : Char.isAlpha ':' = false := by decide
  have h4 : Char.isAlpha '+' = false := by decide
  simp only [List.zip_cons_cons, List.zip_nil_right, List.all_cons, List.all_nil, hY, hM, hD, hH,
    hS, hZ, h1, h2, h3, h4, if_true, Bool.false_eq_true, if_false, Bool.and_eq_true,
    decide_eq_true_eq, Bool.and_true] at hall
  have n1 : ¬ ('-' = '+') := by decide
  have n2 : ¬ (' ' = '+') := by decide
  have n3 : ¬ (':' = '+') := by decide
  simp only [n1, n2, n3, if_false, decide_eq_true_eq] at hall
  obtain ⟨d0, d1, d2, d3, e4, d5, d6, e7, d8, d9, e10, d11, d12, e13, d14, d15, e16, d17, d18,
    e19, e20, d21, d22, d23, d24⟩ := hall
  subst e4 e7 e10 e13 e16 e19
  have s11 : c11 ≠ ' ' := isDigit_ne_space _ d11
  have s20 : c20 ≠ ' ' := by rcases e20 with rfl | rfl <;> decide
  simp [matchPieces, d0, d1, d2, d3, d5, d6, d8, d9, d11, d12, d14, d15, d17, d18, d21, d22,
    d23, d24, List.dropWhile, s11, s20, e20]

/-- Every error of the struct decoder is an error of one of the field decoders. -/
theorem decodeFields_error_sound {T : Type} (field : String → Option (Node → T → Decode T))
    (P : String → Prop)
    (hP : ∀ key dec n out te err, field key = some dec → dec n out te = Except.error err → P err) :
    ∀ (content : List (String × Node)) (done : List String) (out : T) (te : List String)
      (err : String), decodeFields field content done out te = Except.error err → P err := by
  intro content
  induction content with
  | nil => intro done out te err h; simp [decodeFields] at h
  | cons kv rest ih =>
    obtain ⟨key, value⟩ := kv
    intro done out te err h
    unfold decodeFields at h
    cases hf : field key with
    | none => rw [hf] at h; exact ih _ _ _ _ h
    | some dec =>
      rw [hf] at h
      simp only [] at h
      by_cases hd : key ∈ done
      · rw [if_pos hd] at h; exact ih _ _ _ _ h
      · rw [if_neg hd] at h
        cases hv : dec value out te with
        | error e => rw [hv] at h; simp only [] at h; cases h; exact hP _ _ _ _ _ _ hf hv
        | ok r => obtain ⟨o, t⟩ := r; rw [hv] at h; exact ih _ _ _ _ h

/-- The struct decoder fails when the first value of a key not seen before makes the
decoder of its field fail. -/
theorem decodeFields_error_complete {T : Type} (field : String → Option (Node → T → Decode T))
    (k0 : String) (dec0 : Node → T → Decode T) (n0 : Node) (hf0 : field k0 = some dec0)
    (h0 : ∀ out te, ∃ err, dec0 n0 out te = Except.error err) :
    ∀ (content : List (String × Node)) (done : List String) (out : T) (te : List String),
      content.lookup k0 = some n0 → k0 ∉ done →
      ∃ err, decodeFields field content done out te = Except.error err := by
  intro content
  induction content with
  | nil => intro done out te hl; simp at hl
  | cons kv rest ih =>
    obtain ⟨key, value⟩ := kv
    intro done out te hl hnd
    unfold decodeFields
    by_cases hk : k0 = key
    · subst hk
      simp only [List.lookup_cons, beq_self_eq_true] at hl
      cases hl
      rw [hf0]
      simp only []
      rw [if_neg hnd]
      obtain ⟨err, he⟩ := h0 out te
      rw [he]
      exact ⟨err, rfl⟩
    · have hl2 : rest.lookup k0 = some n0 := by
        rw [List.lookup_cons] at hl
        have : (k0 == key) = false := by simpa using hk
        rw [this] at hl
        exact hl
      cases hf : field key with
      | none => exact ih _ _ _ hl2 hnd
      | some dec =>
        simp only []
        by_cases hd : key ∈ done
        · rw [if_pos hd]; exact ih _ _ _ hl2 hnd
        · rw [if_neg hd]
          cases hv : dec value out te with
          | error e => exact ⟨e, rfl⟩
          | ok r =>
            obtain ⟨o, t⟩ := r
            simp only []
            apply ih _ _ _ hl2
            intro hm
            rcases List.mem_cons.1 hm with h | h
            · exact hk h
            · exact hnd h

/-- A list of keys without a repeated key passes the check of `decoder.mapping`. -/
theorem duplicateKeys_nodup (keys : List String) (h : keys.Nodup) :
    duplicateKeys keys = [] := by
  induction keys with
  | nil => rfl
  | cons k rest ih =>
    rw [List.nodup_cons] at h
    unfold duplicateKeys
    rw [ih h.2]
    have hf : rest.filter (fun k2 => decide (k2 = k)) = [] := by
      rw [List.filter_eq_nil_iff]
      intro a ha
      simp only [decide_eq_true_eq]
      intro e
      exact h.1 (e ▸ ha)
    rw [hf]
    rfl

/-- In a mapping without a repeated key, the value of a key is the first one. -/
theorem lookup_of_mem (l : List (String × Node)) (k : String) (n : Node)
    (hnd : (l.map Prod.fst).Nodup) (h : (k, n) ∈ l) : l.lookup k = some n := by
  induction l with
  | nil => cases h
  | cons kv rest ih =>
    obtain ⟨key, value⟩ := kv
    simp only [List.map_cons, List.nodup_cons] at hnd
    rcases List.mem_cons.1 h with e | hm
    · cases e
      simp [List.lookup_cons]
    · have hne : k ≠ key := by
        intro e
        subst e
        exact hnd.1 (List.mem_map.2 ⟨(k, n), hm, rfl⟩)
      rw [List.lookup_cons]
      have hb : (k == key) = false := by simpa using hne
      rw [hb]
      exact ih hnd.2 hm

theorem decodeStruct_error_sound {T : Type} (field : String → Option (Node → T → Decode T))
    (P : String → Prop)
    (hP : ∀ key dec n out te err, field key = some dec → dec n out te = Except.error err → P err)
    (zero : T) (n : Node) (te : List String) (err : String)
    (h : decodeStruct field zero n te = Except.error err) : P err := by
  unfold decodeStruct at h
  cases n with
  | scalar v r => cases r <;> simp at h
  | sequence c => simp at h
  | mapping content =>
    simp only [] at h
    split at h
    · cases h
    · cases hv : decodeFields field content [] zero te with
      | error e =>
        rw [hv] at h; simp only [] at h; cases h
        exact decodeFields_error_sound field P hP _ _ _ _ _ hv
      | ok r => obtain ⟨o, t⟩ := r; rw [hv] at h; simp at h

theorem decodeElems_error_sound {T : Type} (el : Node → Decode (Option T)) (P : String → Prop)
    (hP : ∀ n te err, el n te = Except.error err → P err) :
    ∀ (l : List Node) (te : List String) (err : String),
      decodeElems el l te = Except.error err → P err := by
  intro l
  induction l with
  | nil => intro te err h; simp [decodeElems] at h
  | cons n rest ih =>
    intro te err h
    unfold decodeElems at h
    cases hv : el n te with
    | error e => rw [hv] at h; simp only [] at h; cases h; exact hP _ _ _ hv
    | ok r =>
      obtain ⟨e, t⟩ := r
      rw [hv] at h
      simp only [] at h
      cases hr : decodeElems el rest t with
      | error e2 => rw [hr] at h; simp only [] at h; cases h; exact ih _ _ hr
      | ok r2 => obtain ⟨es, t2⟩ := r2; rw [hr] at h; simp at h

theorem decodeElems_error_complete {T : Type} (el : Node → Decode (Option T)) (n0 : Node)
    (h0 : ∀ te, ∃ err, el n0 te = Except.error err) :
    ∀ (l : List Node) (te : List String), n0 ∈ l →
      ∃ err, decodeElems el l te = Except.error err := by
  intro l
  induction l with
  | nil => intro te hm; simp at hm
  | cons n rest ih =>
    intro te hm
    unfold decodeElems
    cases hv : el n te with
    | error e => exact ⟨e, rfl⟩
    | ok r =>
      obtain ⟨e, t⟩ := r
      simp only []
      rcases List.mem_cons.1 hm with h | h
      · subst h
        obtain ⟨err, he⟩ := h0 te
        rw [he] at hv
        cases hv
      · obtain ⟨err, he⟩ := ih t h
        rw [he]
        exact ⟨err, rfl⟩

theorem decodeSlice_error_sound {T : Type} (el : Node → Decode (Option T)) (P : String → Prop)
    (hP : ∀ n te err, el n te = Except.error err → P err) (n : Node) (old : List T)
    (te : List String) (err : String) (h : decodeSlice el n old te = Except.error err) :
    P err := by
  unfold decodeSlice at h
  cases n with
  | scalar v r => cases r <;> simp at h
  | sequence c => exact decodeElems_error_sound el P hP _ _ _ h
  | mapping content => simp at h

theorem decodeString_ok (n : Node) (old : String) (te : List String) :
    ∃ r, decodeString n old te = Except.ok r := by
  unfold decodeString
  cases n with
  | scalar v r => cases r <;> exact ⟨_, rfl⟩
  | sequence c => exact ⟨_, rfl⟩
  | mapping c => exact ⟨_, rfl⟩

theorem decodeBool_ok (n : Node) (old : Bool) (te : List String) :
    ∃ r, decodeBool n old te = Except.ok r := by
  unfold decodeBool
  cases n with
  | scalar v r =>
    cases r with
    | string s =>
      simp only []
      split
      · exact ⟨_, rfl⟩
      · split <;> exact ⟨_, rfl⟩
    | _ => exact ⟨_, rfl⟩
  | sequence c => exact ⟨_, rfl⟩
  | mapping c => exact ⟨_, rfl⟩

theorem decodeCloses_ok (n : Node) (old : List Any) (te : List String) :
    ∃ r, decodeCloses n old te = Except.ok r := by
  unfold decodeCloses
  cases n with
  | scalar v r => cases r <;> exact ⟨_, rfl⟩
  | sequence c => exact ⟨_, rfl⟩
  | mapping c => exact ⟨_, rfl⟩

theorem map_error_of_ok {α β : Type} (x : Except String α) (f : α → β) (err : String)
    (hx : ∃ r, x = Except.ok r) (h : x.map f = Except.error err) : False := by
  obtain ⟨r, rfl⟩ := hx
  cases h

theorem map_error_iff {α β : Type} (x : Except String α) (f : α → β) (err : String) :
    x.map f = Except.error err ↔ x = Except.error err := by
  cases x with
  | error e => exact ⟨fun h => (by cases h; rfl), fun h => (by cases h; rfl)⟩
  | ok r => exact ⟨fun h => (by cases h), fun h => (by cases h)⟩

/-- The decoder of `Change` never fails with an error of its own. -/
theorem changeField_no_error (key : String) (dec : Node → Change → Decode Change) (n : Node)
    (out : Change) (te : List String) (err : String) (hf : changeField key = some dec)
    (h : dec n out te = Except.error err) : False := by
  unfold changeField at hf
  split at hf
  · cases hf; exact map_error_of_ok _ _ _ (decodeString_ok _ _ _) h
  · split at hf
    · cases hf; exact map_error_of_ok _ _ _ (decodeCloses_ok _ _ _) h
    · cases hf

theorem decodeDate_error (zone : Int → Int) (n : Node) (old : LocalTime) (te : List String)
    (err : String) (h : decodeDate zone n old te = Except.error err) :
    n.isNull = false ∧ time.Parse n.Value = Except.error err ∧
      LocalTime.UnmarshalYAML zone n = Except.error err := by
  unfold decodeDate at h
  cases hn : n.isNull with
  | true => rw [hn] at h; simp at h
  | false =>
    rw [hn] at h
    simp only [Bool.false_eq_true, if_false] at h
    cases hu : LocalTime.UnmarshalYAML zone n with
    | ok lt => rw [hu] at h; simp at h
    | error e =>
      rw [hu] at h
      simp only [] at h
      cases h
      refine ⟨rfl, ?_, rfl⟩
      unfold LocalTime.UnmarshalYAML at hu
      cases ht : time.Parse n.Value with
      | error e2 => rw [ht] at hu; simp only [] at hu; cases hu; rfl
      | ok t => rw [ht] at hu; simp at hu

theorem decodeDate_fails (zone : Int → Int) (n : Node) (err : String) (hn : n.isNull = false)
    (ht : time.Parse n.Value = Except.error err) (old : LocalTime) (te : List String) :
    decodeDate zone n old te = Except.error err := by
  unfold decodeDate LocalTime.UnmarshalYAML
  rw [hn, ht]
  rfl

/-- Every error of the decoder of `Entry` is the error of `time.Parse` on a date that
is not null. -/
theorem entryField_error (zone : Int → Int) (key : String)
    (dec : Node → Entry → Decode Entry) (n : Node) (out : Entry) (te : List String)
    (err : String) (hf : entryField zone key = some dec)
    (h : dec n out te = Except.error err) :
    ∃ bad : Node, bad.isNull = false ∧ time.Parse bad.Value = Except.error err ∧
      LocalTime.UnmarshalYAML zone bad = Except.error err := by
  unfold entryField at hf
  split at hf
  · cases hf; exact (map_error_of_ok _ _ _ (decodeString_ok _ _ _) h).elim
  split at hf
  · cases hf; exact (map_error_of_ok _ _ _ (decodeString_ok _ _ _) h).elim
  split at hf
  · cases hf; exact (map_error_of_ok _ _ _ (decodeBool_ok _ _ _) h).elim
  split at hf
  · cases hf
    exact ⟨n, decodeDate_error zone n _ _ _ ((map_error_iff _ _ _).1 h)⟩
  split at hf
  · cases hf
    have h2 := (map_error_iff _ _ _).1 h
    exact (decodeSlice_error_sound _ (fun _ => False)
      (fun n te err h => decodeStruct_error_sound changeField (fun _ => False)
        (fun key dec n out te err hf h => changeField_no_error key dec n out te err hf h)
        _ n te err h) _ _ _ _ h2).elim
  · cases hf

/-- Decoding an entry without a repeated key fails when its date is not null and
`time.Parse` rejects it. -/
theorem entryNode_fails (zone : Int → Int) (fields : List (String × Node)) (n : Node)
    (err : String) (hnd : (fields.map Prod.fst).Nodup) (hl : ("date", n) ∈ fields)
    (hn : n.isNull = false) (ht : time.Parse n.Value = Except.error err) (zero : Entry)
    (te : List String) :
    ∃ err2, decodeStruct (entryField zone) zero (Node.mapping fields) te =
      Except.error err2 := by
  have hf : entryField zone "date" = some (fun n e te =>
      (decodeDate zone n e.Date te).map (fun r => ({ e with Date := r.1 }, r.2))) := by
    unfold entryField
    rfl
  obtain ⟨err2, he⟩ := decodeFields_error_complete (entryField zone) "date" _ n hf
    (fun out te => ⟨err, by rw [decodeDate_fails zone n err hn ht out.Date te]; rfl⟩)
    fields [] zero te (lookup_of_mem fields "date" n hnd hl) (by simp)
  unfold decodeStruct
  simp only [duplicateKeys_nodup _ hnd, he]
  exact ⟨err2, rfl⟩

/-- Every error of the decoder of `Config` is the error of `time.Parse` on a date that
is not null. -/
theorem configField_error (zone : Int → Int) (key : String)
    (dec : Node → Config → Decode Config) (n : Node) (out : Config) (te : List String)
    (err : String) (hf : configField zone key = some dec)
    (h : dec n out te = Except.error err) :
    ∃ bad : Node, bad.isNull = false ∧ time.Parse bad.Value = Except.error err ∧
      LocalTime.UnmarshalYAML zone bad = Except.error err := by
  unfold configField at hf
  split at hf
  · cases hf; exact (map_error_of_ok _ _ _ (decodeString_ok _ _ _) h).elim
  split at hf
  · cases hf; exact (map_error_of_ok _ _ _ (decodeString_ok _ _ _) h).elim
  split at hf
  · cases hf
    have h2 := (map_error_iff _ _ _).1 h
    exact decodeSlice_error_sound _ _
      (fun n te err h => decodeStruct_error_sound (entryField zone) _
        (fun key dec n out te err hf h => entryField_error zone key dec n out te err hf h)
        _ n te err h) _ _ _ _ h2
  · cases hf

/-- Decoding fails on a document without repeated keys that has an entry whose date is
not null and is rejected by `time.Parse`, and the error is one `time.Parse` returned
for such a date. -/
theorem Unmarshal_bad_date (zone : Int → Int) (top fields : List (String × Node))
    (entries : List Node) (n : Node) (err0 : String)
    (htop : (top.map Prod.fst).Nodup)
    (hlog : ("changelog", Node.sequence entries) ∈ top)
    (hentry : Node.mapping fields ∈ entries)
    (hfields : (fields.map Prod.fst).Nodup)
    (hdate : ("date", n) ∈ fields) (hn : n.isNull = false)
    (ht : time.Parse n.Value = Except.error err0) :
    ∃ (bad : Node) (err : String), bad.isNull = false ∧
      time.Parse bad.Value = Except.error err ∧
      LocalTime.UnmarshalYAML zone bad = Except.error err ∧
      Unmarshal zone (some (Node.mapping top)) = Except.error err := by
  have hf : configField zone "changelog" = some (fun n c te =>
      (decodeSlice (decodeStruct (entryField zone) ⟨"", "", false, ⟨zeroTime⟩, []⟩) n
        c.Changelog te).map (fun r => ({ c with Changelog := r.1 }, r.2))) := by
    unfold configField
    rfl
  obtain ⟨err, he⟩ := decodeFields_error_complete (configField zone) "changelog" _
    (Node.sequence entries) hf
    (fun out te => by
      obtain ⟨err, he⟩ := decodeElems_error_complete
        (decodeStruct (entryField zone) ⟨"", "", false, ⟨zeroTime⟩, []⟩) (Node.mapping fields)
        (fun te => entryNode_fails zone fields n err0 hfields hdate hn ht _ te) entries te
        hentry
      refine ⟨err, ?_⟩
      show (decodeSlice _ (Node.sequence entries) out.Changelog te).map _ = _
      unfold decodeSlice
      simp only [he]
      rfl)
    top [] ⟨"", "", []⟩ [] (lookup_of_mem top "changelog" _ htop hlog) (by simp)
  obtain ⟨bad, hb1, hb2, hb3⟩ := decodeFields_error_sound (configField zone) _
    (fun key dec n out te err hf h => configField_error zone key dec n out te err hf h)
    _ _ _ _ _ he
  refine ⟨bad, err, hb1, hb2, hb3, ?_⟩
  unfold Unmarshal decodeStruct
  simp only [duplicateKeys_nodup _ htop, he]
  rfl

/-- C12 (counterexample): a date with a one-digit hour, a date with a fraction of a
second and a date with two spaces before the time do not match the fixed format
`YYYY-MM-DD HH:MM:SS +-ZZZZ`, yet `time.Parse` accepts them: loading succeeds, the
renderer runs and the exit code is 0. -/
theorem lenient_date_is_loaded :
    matchesFixedFormat "2024-01-05 9:00:00 +0000" = false ∧
    matchesFixedFormat "2024-01-05 09:00:00.5 +0000" = false ∧
    matchesFixedFormat "2024-01-05  09:00:00 +0000" = false ∧
    matchesFixedFormat "2024-01-05 09:00:00 +0000" = true ∧
    readLog (dateProcess "rpm" "2024-01-05 9:00:00 +0000") =
      Except.ok ⟨"foo", "", [⟨"1.0", "low", true, ⟨⟨1704445200, 0, 0⟩⟩, []⟩]⟩ ∧
    readLog (dateProcess "rpm" "2024-01-05 09:00:00.5 +0000") =
      Except.ok ⟨"foo", "", [⟨"1.0", "low", true, ⟨⟨1704445200, 500000000, 0⟩⟩, []⟩]⟩ ∧
    readLog (dateProcess "rpm" "2024-01-05  09:00:00 +0000") =
      Except.ok ⟨"foo", "", [⟨"1.0", "low", true, ⟨⟨1704445200, 0, 0⟩⟩, []⟩]⟩ ∧
    main (dateProcess "rpm" "2024-01-05 9:00:00 +0000") =
      ⟨0, "* Fri Jan 5 2024  - 1.0\n\n", ""⟩ ∧
    main (dateProcess "rpm" "2024-01-05 09:00:00.5 +0000") =
      ⟨0, "* Fri Jan 5 2024  - 1.0\n\n", ""⟩ ∧
    main (dateProcess "rpm" "2024-01-05  09:00:00 +0000") =
      ⟨0, "* Fri Jan 5 2024  - 1.0\n\n", ""⟩ := by
  exact ⟨by decide!, by decide!, by decide!, by decide!, rfl, rfl, rfl, by decide!,
    by decide!, by decide!⟩

/-- C12 (amended): in a document whose mappings have no repeated key, if an entry of
the changelog sequence has a date that is not null and does not match the fixed format
`YYYY-MM-DD HH:MM:SS +-ZZZZ` even when the hour may have one digit, a fraction may
follow the seconds and each space may be a run of spaces, then `time.Parse` rejects the
date and `LocalTime.UnmarshalYAML` returns its error, and loading fails: `readLog`
returns the error `UnmarshalYAML` gave for a date, `mainInner` returns it with nothing
written, and the process ends with exit code 1, an empty standard output and the error
on standard error. Every text in the fixed format is in the format with the three
liberties, and `2024/01/05` is not. -/
theorem bad_date_fails_load (p : Process) (top fields : List (String × Node))
    (entries : List Node) (n : Node)
    (hargs : p.Args.length = 2)
    (hin : p.Stdin = Stdin.document (some (Node.mapping top)))
    (htop : (top.map Prod.fst).Nodup)
    (hlog : ("changelog", Node.sequence entries) ∈ top)
    (hentry : Node.mapping fields ∈ entries)
    (hfields : (fields.map Prod.fst).Nodup)
    (hdate : ("date", n) ∈ fields) (hn : n.isNull = false)
    (hformat : matchesLenientFormat n.Value = false) :
    (∃ err, time.Parse n.Value = Except.error err ∧
      LocalTime.UnmarshalYAML p.Local n = Except.error err) ∧
    (∃ (bad : Node) (err : String), bad.isNull = false ∧
      time.Parse bad.Value = Except.error err ∧
      LocalTime.UnmarshalYAML p.Local bad = Except.error err ∧
      readLog p = Except.error err ∧
      mainInner p = ⟨Outcome.returned (some err), "", "", true⟩ ∧
      main p = ⟨1, "", "Error: " ++ err ++ "\n"⟩) ∧
    (∀ text, matchesFixedFormat text = true → matchesLenientFormat text = true) ∧
    matchesLenientFormat "2024/01/05" = false := by
  have hparse : ∃ err, time.Parse n.Value = Except.error err := by
    cases ht : time.Parse n.Value with
    | error e => exact ⟨e, rfl⟩
    | ok t =>
      rw [Parse_ok_lenient _ t ht] at hformat
      cases hformat
  obtain ⟨err0, ht⟩ := hparse
  refine ⟨⟨err0, ht, ?_⟩, ?_, fixed_is_lenient, by decide!⟩
  · unfold LocalTime.UnmarshalYAML
    rw [ht]
  · obtain ⟨bad, err, hb1, hb2, hb3, hu⟩ :=
      Unmarshal_bad_date p.Local top fields entries n err0 htop hlog hentry hfields hdate hn ht
    have hr : readLog p = Except.error err := by
      unfold readLog
      rw [hin]
      simp only [hu]
    have hm : mainInner p = ⟨Outcome.returned (some err), "", "", true⟩ := by
      unfold mainInner
      rw [if_neg (by simp [hargs])]
      simp only [hr]
    refine ⟨bad, err, hb1, hb2, hb3, hr, hm, ?_⟩
    unfold main
    simp only [hm]
    rfl

/-- The document whose only entry has the date `2024/01/05`: the run ends with exit
code 1, the error of `time.Parse` on standard error and nothing on standard output. -/
theorem bad_date_fails_load_witness :
    (dateProcess "deb" "2024/01/05").Args.length = 2 ∧
    (textNode "2024/01/05").isNull = false ∧
    matchesLenientFormat (textNode "2024/01/05").Value = false ∧
    (∃ (bad : Node) (err : String), bad.isNull = false ∧
      time.Parse bad.Value = Except.error err ∧
      LocalTime.UnmarshalYAML (dateProcess "deb" "2024/01/05").Local bad = Except.error err ∧
      readLog (dateProcess "deb" "2024/01/05") = Except.error err ∧
      mainInner (dateProcess "deb" "2024/01/05") =
        ⟨Outcome.returned (some err), "", "", true⟩ ∧
      main (dateProcess "deb" "2024/01/05") = ⟨1, "", "Error: " ++ err ++ "\n"⟩) ∧
    main (dateProcess "deb" "2024/01/05") =
      ⟨1, "", "Error: parsing time \"2024/01/05\" as \"2006-01-02 15:04:05 -0700\": cannot parse \"/01/05\" as \"-\"\n"⟩ :=
  ⟨rfl, rfl, by decide!,
    (bad_date_fails_load (dateProcess "deb" "2024/01/05")
      [("project", textNode "foo"),
        ("changelog", Node.sequence [entryNode "1.0" "2024/01/05"])]
      [("version", textNode "1.0"), ("urgency", textNode "low"),
        ("stable", Node.scalar "true" (Any.bool true)), ("date", textNode "2024/01/05"),
        ("changes", Node.sequence [])]
      [entryNode "1.0" "2024/01/05"] (textNode "2024/01/05")
      rfl rfl (by decide) (by simp) (List.mem_singleton.2 rfl) (by decide) (by simp) rfl
      (by decide!)).2.1,
    by decide!⟩

end Changelog
